import Mathlib

/-!
# tcrs_cli: the save payload builder and the project/activity extractor

A shallow embedding of `internal/client/client.go` (`SaveWeekTimecard`, the part
that builds the form body) and of `internal/client/parser.go`
(`parseJSArrays`, `ParseProjectsAndActivities`), followed by theorems about them.

Go strings are byte sequences; Go maps are association lists with unique keys
whose iteration order is an arbitrary permutation chosen by a `MapOrder`.
Library functions of the Go standard library (`url.QueryEscape`, `sort.Strings`,
`strconv.Itoa`, `fmt.Sprintf` with `%d`, `strings.HasPrefix`) are modelled after
their documented behaviour; float64 arithmetic and the regular expression engine
are parameters.
-/

namespace Tcrs

/-! ## Go strings -/

/-- A Go byte. -/
abbrev Byte := Fin 256

/-- A Go string is an immutable sequence of bytes. -/
abbrev GoString := List Byte

/-- The byte of an ASCII character of a source literal. -/
def byteOf (c : Char) : Byte := ⟨c.toNat % 256, Nat.mod_lt _ (by decide)⟩

/-- A Go string literal (all literals of the source are ASCII). -/
def str (s : String) : GoString := s.toList.map byteOf

/-- The ASCII digit of `d % 10`. -/
def digitByte (d : Nat) : Byte := ⟨48 + d % 10, by omega⟩

/-- Decimal digits of `n`, most significant first, with a recursion budget. -/
def decDigits : Nat → Nat → GoString
  | 0, _ => []
  | fuel + 1, n =>
    if n < 10 then [digitByte n] else decDigits fuel (n / 10) ++ [digitByte n]

/-- The verb `%d` of `fmt.Sprintf` applied to a non-negative int. -/
def natDec (n : Nat) : GoString := decDigits (n + 1) n

/-- The function `strconv.Itoa`. -/
def Itoa (i : Int) : GoString :=
  if i < 0 then (45 : Byte) :: natDec i.natAbs else natDec i.natAbs

/-- Go's `a < b` on strings: byte-wise lexicographic order. -/
def strLt : GoString → GoString → Bool
  | [], [] => false
  | [], _ :: _ => true
  | _ :: _, [] => false
  | a :: as, b :: bs => if a < b then true else if b < a then false else strLt as bs

/-- The relation `a ≤ b` on Go strings, that is `!(b < a)`. -/
def StrLE (a b : GoString) : Prop := strLt b a = false

instance : DecidableRel StrLE := fun a b => by unfold StrLE; infer_instance

/-- The function `sort.Strings`: the increasing rearrangement of the slice. Strings
that compare equal are equal, so the result does not depend on the algorithm. -/
def sortStrings (l : List GoString) : List GoString := l.insertionSort StrLE

/-- The function `strings.HasPrefix`. -/
def HasPrefix (s p : GoString) : Bool := p.isPrefixOf s

/-- The function `strings.Join`. -/
def Join : List GoString → GoString → GoString
  | [], _ => []
  | [a], _ => a
  | a :: b :: rest, sep => a ++ sep ++ Join (b :: rest) sep

/-! ## `url.QueryEscape` and `url.QueryUnescape` -/

/-- Bytes that `url.QueryEscape` leaves alone: letters, digits, `-`, `_`, `.`, `~`. -/
def unreserved (c : Byte) : Bool :=
  ((97 : Byte) ≤ c && c ≤ 122) || ((65 : Byte) ≤ c && c ≤ 90) || ((48 : Byte) ≤ c && c ≤ 57)
    || c == 45 || c == 95 || c == 46 || c == 126

/-- The table `upperhex` of net/url, `"0123456789ABCDEF"[n]`. -/
def upperhex (n : Nat) : Byte :=
  if n % 16 < 10 then ⟨48 + n % 16, by omega⟩ else ⟨55 + n % 16, by omega⟩

/-- The escape of one byte. -/
def escapeByte (c : Byte) : GoString :=
  if c = 32 then [43]
  else if unreserved c then [c]
  else [37, upperhex (c.val / 16), upperhex (c.val % 16)]

/-- The function `url.QueryEscape`. -/
def QueryEscape : GoString → GoString
  | [] => []
  | c :: rest => escapeByte c ++ QueryEscape rest

/-- The function `unhex` of net/url: the value of a hexadecimal digit. -/
def unhex (c : Byte) : Option Nat :=
  if (48 : Byte) ≤ c ∧ c ≤ 57 then some (c.val - 48)
  else if (97 : Byte) ≤ c ∧ c ≤ 102 then some (c.val - 97 + 10)
  else if (65 : Byte) ≤ c ∧ c ≤ 70 then some (c.val - 65 + 10)
  else none

/-- The function `url.QueryUnescape`; `none` is the error result. -/
def QueryUnescape : GoString → Option GoString
  | [] => some []
  | c :: rest =>
    if c = 37 then
      match rest with
      | h :: l :: rest2 =>
        match unhex h, unhex l, QueryUnescape rest2 with
        | some a, some b, some r => some (⟨(a * 16 + b) % 256, Nat.mod_lt _ (by decide)⟩ :: r)
        | _, _, _ => none
      | _ => none
    else if c = 43 then (QueryUnescape rest).map ((32 : Byte) :: ·)
    else (QueryUnescape rest).map (c :: ·)

/-- Bytes that can occur in the output of `url.QueryEscape`. -/
def formSafe (c : Byte) : Bool := unreserved c || c == 43 || c == 37

/-- The function `strings.Split(s, "&")`. -/
def splitAmp : GoString → List GoString
  | [] => [[]]
  | c :: rest =>
    if c = 38 then [] :: splitAmp rest
    else
      match splitAmp rest with
      | [] => [[c]]
      | p :: ps => (c :: p) :: ps

/-! ## Go maps -/

/-- A Go `map[string]β`: an association list in which every key occurs once. -/
abbrev GoMap (β : Type) := List (GoString × β)

namespace GoMap

/-- The assignment `m[k] = v`. -/
def set {β : Type} : GoMap β → GoString → β → GoMap β
  | [], k, v => [(k, v)]
  | (k', v') :: m, k, v => if k' = k then (k, v) :: m else (k', v') :: set m k v

/-- The lookup `v, ok := m[k]`. -/
def get? {β : Type} : GoMap β → GoString → Option β
  | [], _ => none
  | (k', v') :: m, k => if k' = k then some v' else get? m k

/-- The keys of the map, in storage order. -/
def keys {β : Type} (m : GoMap β) : List GoString := m.map Prod.fst

/-- A run of assignments `m[k] = v`, first to last. -/
def writeAll {β : Type} (m : GoMap β) (ws : List (GoString × β)) : GoMap β :=
  ws.foldl (fun m w => set m w.1 w.2) m

end GoMap

/-- The order in which a `for k := range m` loop visits the keys of a map: any
rearrangement of the keys. -/
structure MapOrder where
  /-- The visiting order, given the keys. -/
  enum : List GoString → List GoString
  /-- Every key is visited exactly once. -/
  perm : ∀ l, (enum l).Perm l

/-- The visiting order that follows storage order. -/
def MapOrder.storage : MapOrder := ⟨fun l => l, fun l => List.Perm.refl l⟩

/-- The visiting order that reverses storage order. -/
def MapOrder.reversed : MapOrder := ⟨fun l => l.reverse, fun l => List.reverse_perm l⟩

/-! ## `SaveWeekTimecard`: building the form body (client.go) -/

/-- The float64 type with the operations the code applies to it: `+`, the conversion
`float64(int)`, `strconv.ParseFloat(v, 64)` (`none` when it returns an error) and
`strconv.FormatFloat(v, 'f', -1, 64)`. -/
structure Float64Model where
  /-- The carrier. -/
  F : Type
  /-- The zero value. -/
  zero : F
  /-- Addition. -/
  add : F → F → F
  /-- The conversion `float64(v)` of an int. -/
  ofInt : Int → F
  /-- The function `strconv.ParseFloat(v, 64)`. -/
  parseFloat : GoString → Option F
  /-- The function `strconv.FormatFloat(v, 'f', -1, 64)`. -/
  formatFloat : F → GoString

/-- The dynamic value of `SaveDayEntry.Hours` (an `interface{}`), by the cases of the
type switch; `other` is every dynamic type the switch does not list. -/
inductive HoursValue (F : Type) where
  | float64 (v : F)
  | int (v : Int)
  | string (v : GoString)
  | other

/-- The struct `SaveDayEntry`. -/
structure SaveDayEntry (F : Type) where
  Hours : HoursValue F
  Note : GoString
  Progress : Int

/-- The struct `SaveEntry`. -/
structure SaveEntry (F : Type) where
  ProjectID : GoString
  ActivityID : GoString
  Progress : Int
  Days : List (SaveDayEntry F)

/-- The two variables the entry loop updates. -/
structure SaveState (F : Type) where
  params : GoMap GoString
  dailyTotals : List F

/-- The call `fmt.Sprintf(pre + "%d", idx)`. -/
def fmtD (pre : String) (idx : Nat) : GoString := str pre ++ natDec idx

/-- The call `fmt.Sprintf(pre + "%d_%d", idx, dayIdx)`. -/
def fmtDD (pre : String) (idx dayIdx : Nat) : GoString :=
  str pre ++ natDec idx ++ str "_" ++ natDec dayIdx

namespace SaveWeekTimecard

variable (fl : Float64Model)

/-- The statement `dailyTotals[dayIdx] += v`. -/
def addTotal (totals : List fl.F) (dayIdx : Nat) (v : fl.F) : List fl.F :=
  totals.set dayIdx (fl.add (totals.getD dayIdx fl.zero) v)

/-- The value of `hoursStr` after the type switch. -/
def hoursStr : HoursValue fl.F → GoString
  | .float64 v => fl.formatFloat v
  | .int v => Itoa v
  | .string v => v
  | .other => []

/-- The value of `dailyTotals` after the type switch. -/
def hoursTotals (totals : List fl.F) (dayIdx : Nat) : HoursValue fl.F → List fl.F
  | .float64 v => addTotal fl totals dayIdx v
  | .int v => addTotal fl totals dayIdx (fl.ofInt v)
  | .string v =>
    match fl.parseFloat v with
    | some h => addTotal fl totals dayIdx h
    | none => totals
  | .other => totals

/-- One turn of the loop over the days of an entry. -/
def dayStep (idx : Nat) (st : SaveState fl.F) (d : Nat × SaveDayEntry fl.F) : SaveState fl.F :=
  let dayIdx := d.1
  let day := d.2
  let params := st.params.set (fmtDD "record" idx dayIdx) (hoursStr fl day.Hours)
  let params := params.set (fmtDD "note" idx dayIdx) day.Note
  let params := params.set (fmtDD "progress" idx dayIdx) (Itoa day.Progress)
  { params := params, dailyTotals := hoursTotals fl st.dailyTotals dayIdx day.Hours }

/-- The value of `activityData` for an entry. -/
def activityData (entry : SaveEntry fl.F) : GoString :=
  let activityID := if entry.ActivityID = [] then str "xx" else entry.ActivityID
  str "true$" ++ activityID ++ str "$" ++ entry.ProjectID ++ str "$0"

/-- One turn of `for idx, entry := range entries`. -/
def entryStep (st : SaveState fl.F) (e : Nat × SaveEntry fl.F) : SaveState fl.F :=
  let idx := e.1
  let entry := e.2
  if entry.ProjectID = [] then st
  else
    let params := st.params.set (fmtD "project" idx) entry.ProjectID
    let params := params.set (fmtD "activity" idx) (activityData fl entry)
    let params := params.set (fmtD "actprogress" idx) (Itoa entry.Progress)
    (entry.Days.take 7).enum.foldl (dayStep fl idx)
      { params := params, dailyTotals := st.dailyTotals }

/-- The state after the loop over the entries. -/
def afterEntries (entries : List (SaveEntry fl.F)) : SaveState fl.F :=
  entries.enum.foldl (entryStep fl) { params := [], dailyTotals := List.replicate 7 fl.zero }

/-- One turn of the loop that fills the empty slots. -/
def fillStep (params : GoMap GoString) (emptyIdx : Nat) : GoMap GoString :=
  let params := params.set (fmtD "project" emptyIdx) []
  let params := params.set (fmtD "activity" emptyIdx) []
  let params := params.set (fmtD "actprogress" emptyIdx) []
  (List.range 7).foldl
    (fun params dayIdx =>
      (params.set (fmtDD "note" emptyIdx dayIdx) []).set (fmtDD "progress" emptyIdx dayIdx) [])
    params

/-- The loop `for emptyIdx := len(entries); emptyIdx < 25; emptyIdx++`. -/
def afterFill (n : Nat) (params : GoMap GoString) : GoMap GoString :=
  (List.range' n (25 - n)).foldl fillStep params

/-- The loop `for dayIdx, total := range dailyTotals`. -/
def afterTotals (totals : List fl.F) (params : GoMap GoString) : GoMap GoString :=
  totals.enum.foldl (fun params t => params.set (fmtD "norTotal" t.1) (fl.formatFloat t.2)) params

/-- One turn of the loop over the overtime slots. -/
def overStep (params : GoMap GoString) (idx : Nat) : GoMap GoString :=
  let params := params.set (fmtD "overactprogress" idx) (str "0")
  (List.range 7).foldl
    (fun params dayIdx =>
      ((params.set (fmtDD "overrecord" idx dayIdx) []).set
        (fmtDD "overnote" idx dayIdx) []).set (fmtDD "overprogress" idx dayIdx) (str "0"))
    params

/-- The loop over the overtime slots followed by the loop over the overtime totals. -/
def afterOver (params : GoMap GoString) : GoMap GoString :=
  (List.range 7).foldl (fun params dayIdx => params.set (fmtD "oveTotal" dayIdx) (str "0"))
    ((List.range 25).foldl overStep params)

/-- The map `params` when the form parts are assembled. -/
def params (entries : List (SaveEntry fl.F)) : GoMap GoString :=
  let st := afterEntries fl entries
  afterOver (afterTotals fl st.dailyTotals (afterFill entries.length st.params))

/-- The test that selects the keys of the project block. -/
def isProjectKey (key : GoString) : Bool :=
  (HasPrefix key (str "project") || HasPrefix key (str "activity") ||
    HasPrefix key (str "actprogress") || HasPrefix key (str "record") ||
    HasPrefix key (str "note") || HasPrefix key (str "progress")) &&
  (!HasPrefix key (str "norTotal") && !HasPrefix key (str "over"))

/-- The test that selects the keys of the overtime block. -/
def isOverKey (key : GoString) : Bool :=
  HasPrefix key (str "over") || HasPrefix key (str "ove")

/-- The slice `projectKeys` after `sort.Strings`. -/
def projectKeys (o : MapOrder) (m : GoMap GoString) : List GoString :=
  sortStrings ((o.enum m.keys).filter isProjectKey)

/-- The slice `overKeys` after `sort.Strings`. -/
def overKeys (o : MapOrder) (m : GoMap GoString) : List GoString :=
  sortStrings ((o.enum m.keys).filter isOverKey)

/-- The form part `key + "=" + url.QueryEscape(params[key])`, as a name and an
encoded value. -/
def part (m : GoMap GoString) (key : GoString) : GoString × GoString :=
  (key, QueryEscape ((m.get? key).getD []))

/-- The slice `formParts`, each part as its field name and its encoded value;
`o₁` and `o₂` are the visiting orders of the two `range params` loops. -/
def formFields (o₁ o₂ : MapOrder) (weekStartDate : GoString)
    (entries : List (SaveEntry fl.F)) : List (GoString × GoString) :=
  let m := params fl entries
  [(str "save2", QueryEscape (str " save ")),
   (str "caller", str "this_week"),
   (str "cdate", QueryEscape weekStartDate)]
  ++ (projectKeys o₁ m).map (part m)
  ++ (List.range 7).map (fun dayIdx => part m (fmtD "norTotal" dayIdx))
  ++ [(str "caller", str "this_week")]
  ++ (overKeys o₂ m).map (part m)

/-- The slice `formParts`. -/
def formParts (o₁ o₂ : MapOrder) (weekStartDate : GoString)
    (entries : List (SaveEntry fl.F)) : List GoString :=
  (formFields fl o₁ o₂ weekStartDate entries).map (fun f => f.1 ++ str "=" ++ f.2)

/-- The request body `formData`. -/
def formData (o₁ o₂ : MapOrder) (weekStartDate : GoString)
    (entries : List (SaveEntry fl.F)) : GoString :=
  Join (formParts fl o₁ o₂ weekStartDate entries) (str "&")

end SaveWeekTimecard

/-- The values of the fields called `name`, in payload order. -/
def fieldValues (fields : List (GoString × GoString)) (name : GoString) : List GoString :=
  (fields.filter (fun f => f.1 = name)).map Prod.snd

/-- A float64 model for evaluation on whole hours of small magnitude, where float64
arithmetic is exact: values are integers and strings are never numeric. -/
def wholeHours : Float64Model :=
  { F := Int, zero := 0, add := fun a b => a + b, ofInt := fun i => i,
    parseFloat := fun _ => none, formatFloat := Itoa }


/-! ## The assignments to `params`, in program order -/

namespace SaveWeekTimecard

variable (fl : Float64Model)

/-- The assignments of one turn of the loop over the days. -/
def dayWrites (idx : Nat) (d : Nat × SaveDayEntry fl.F) : List (GoString × GoString) :=
  [(fmtDD "record" idx d.1, hoursStr fl d.2.Hours),
   (fmtDD "note" idx d.1, d.2.Note),
   (fmtDD "progress" idx d.1, Itoa d.2.Progress)]

/-- The assignments of one turn of the loop over the entries. -/
def entryWrites (e : Nat × SaveEntry fl.F) : List (GoString × GoString) :=
  if e.2.ProjectID = [] then []
  else
    [(fmtD "project" e.1, e.2.ProjectID),
     (fmtD "activity" e.1, activityData fl e.2),
     (fmtD "actprogress" e.1, Itoa e.2.Progress)]
    ++ (e.2.Days.take 7).enum.flatMap (dayWrites fl e.1)

/-- The assignments of one turn of the loop that fills the empty slots. -/
def fillWrites (emptyIdx : Nat) : List (GoString × GoString) :=
  [(fmtD "project" emptyIdx, []), (fmtD "activity" emptyIdx, []),
   (fmtD "actprogress" emptyIdx, [])]
  ++ (List.range 7).flatMap
      (fun dayIdx => [(fmtDD "note" emptyIdx dayIdx, []), (fmtDD "progress" emptyIdx dayIdx, [])])

/-- The assignments of the loop over `dailyTotals`. -/
def totalWrites (totals : List fl.F) : List (GoString × GoString) :=
  totals.enum.map (fun t => (fmtD "norTotal" t.1, fl.formatFloat t.2))

/-- The assignments of one turn of the loop over the overtime slots. -/
def overWrites (idx : Nat) : List (GoString × GoString) :=
  (fmtD "overactprogress" idx, str "0") ::
    (List.range 7).flatMap
      (fun dayIdx =>
        [(fmtDD "overrecord" idx dayIdx, []), (fmtDD "overnote" idx dayIdx, []),
         (fmtDD "overprogress" idx dayIdx, str "0")])

/-- The assignments of the loop over the overtime totals. -/
def oveTotalWrites : List (GoString × GoString) :=
  (List.range 7).map (fun dayIdx => (fmtD "oveTotal" dayIdx, str "0"))

/-- Every assignment to `params`, first to last. -/
def writes (entries : List (SaveEntry fl.F)) : List (GoString × GoString) :=
  entries.enum.flatMap (entryWrites fl)
  ++ (List.range' entries.length (25 - entries.length)).flatMap fillWrites
  ++ totalWrites fl (afterEntries fl entries).dailyTotals
  ++ (List.range 25).flatMap overWrites
  ++ oveTotalWrites

/-- The assignments to `params`, one rule per assignment statement of the source:
`Written fl entries k v` says that some statement stores `v` under `k`. -/
inductive Written (entries : List (SaveEntry fl.F)) : GoString → GoString → Prop
  | project (idx : Nat) (e : SaveEntry fl.F) (h : entries[idx]? = some e) (hp : e.ProjectID ≠ []) :
      Written entries (fmtD "project" idx) e.ProjectID
  | activity (idx : Nat) (e : SaveEntry fl.F) (h : entries[idx]? = some e)
      (hp : e.ProjectID ≠ []) : Written entries (fmtD "activity" idx) (activityData fl e)
  | actprogress (idx : Nat) (e : SaveEntry fl.F) (h : entries[idx]? = some e)
      (hp : e.ProjectID ≠ []) : Written entries (fmtD "actprogress" idx) (Itoa e.Progress)
  | record (idx : Nat) (e : SaveEntry fl.F) (h : entries[idx]? = some e) (hp : e.ProjectID ≠ [])
      (d : Nat) (day : SaveDayEntry fl.F) (hd : d < 7) (hday : e.Days[d]? = some day) :
      Written entries (fmtDD "record" idx d) (hoursStr fl day.Hours)
  | note (idx : Nat) (e : SaveEntry fl.F) (h : entries[idx]? = some e) (hp : e.ProjectID ≠ [])
      (d : Nat) (day : SaveDayEntry fl.F) (hd : d < 7) (hday : e.Days[d]? = some day) :
      Written entries (fmtDD "note" idx d) day.Note
  | progress (idx : Nat) (e : SaveEntry fl.F) (h : entries[idx]? = some e)
      (hp : e.ProjectID ≠ []) (d : Nat) (day : SaveDayEntry fl.F) (hd : d < 7)
      (hday : e.Days[d]? = some day) :
      Written entries (fmtDD "progress" idx d) (Itoa day.Progress)
  | fillProject (i : Nat) (h₁ : entries.length ≤ i) (h₂ : i < 25) :
      Written entries (fmtD "project" i) []
  | fillActivity (i : Nat) (h₁ : entries.length ≤ i) (h₂ : i < 25) :
      Written entries (fmtD "activity" i) []
  | fillActprogress (i : Nat) (h₁ : entries.length ≤ i) (h₂ : i < 25) :
      Written entries (fmtD "actprogress" i) []
  | fillNote (i : Nat) (h₁ : entries.length ≤ i) (h₂ : i < 25) (d : Nat) (hd : d < 7) :
      Written entries (fmtDD "note" i d) []
  | fillProgress (i : Nat) (h₁ : entries.length ≤ i) (h₂ : i < 25) (d : Nat) (hd : d < 7) :
      Written entries (fmtDD "progress" i d) []
  | norTotal (d : Nat) (hd : d < 7) :
      Written entries (fmtD "norTotal" d)
        (fl.formatFloat ((afterEntries fl entries).dailyTotals.getD d fl.zero))
  | overactprogress (i : Nat) (h : i < 25) : Written entries (fmtD "overactprogress" i) (str "0")
  | overrecord (i : Nat) (h : i < 25) (d : Nat) (hd : d < 7) :
      Written entries (fmtDD "overrecord" i d) []
  | overnote (i : Nat) (h : i < 25) (d : Nat) (hd : d < 7) :
      Written entries (fmtDD "overnote" i d) []
  | overprogress (i : Nat) (h : i < 25) (d : Nat) (hd : d < 7) :
      Written entries (fmtDD "overprogress" i d) (str "0")
  | oveTotal (d : Nat) (hd : d < 7) : Written entries (fmtD "oveTotal" d) (str "0")

end SaveWeekTimecard

/-! ## Auxiliary definitions for the statements -/

/-- The bytes `0` to `9`. -/
def isDigit (b : Byte) : Bool := (48 : Byte) ≤ b && b ≤ 57

/-- The number a string of decimal digits denotes. -/
def decVal (s : GoString) : Nat := s.foldl (fun acc b => acc * 10 + (b.val - 48)) 0

/-- Two strings differ at a position both have. -/
def diverge : GoString → GoString → Bool
  | a :: as, b :: bs => a != b || diverge as bs
  | _, _ => false

namespace SaveWeekTimecard

variable (fl : Float64Model)

/-- The three fields that open the payload. -/
def headFields (weekStartDate : GoString) : List (GoString × GoString) :=
  [(str "save2", QueryEscape (str " save ")), (str "caller", str "this_week"),
   (str "cdate", QueryEscape weekStartDate)]

/-- The block of the project fields. -/
def projectBlock (o₁ : MapOrder) (entries : List (SaveEntry fl.F)) : List (GoString × GoString) :=
  (projectKeys o₁ (params fl entries)).map (part (params fl entries))

/-- The block of the normal-hours totals. -/
def norTotalBlock (entries : List (SaveEntry fl.F)) : List (GoString × GoString) :=
  (List.range 7).map (fun dayIdx => part (params fl entries) (fmtD "norTotal" dayIdx))

/-- The block of the overtime fields. -/
def overBlock (o₂ : MapOrder) (entries : List (SaveEntry fl.F)) : List (GoString × GoString) :=
  (overKeys o₂ (params fl entries)).map (part (params fl entries))

/-- An entry with project id "7", no activity and no day, for evaluating the builder. -/
def sampleEntry : SaveEntry wholeHours.F :=
  { ProjectID := str "7", ActivityID := [], Progress := 0, Days := [] }

/-- An entry without a project id, for evaluating the builder. -/
def blankEntry : SaveEntry wholeHours.F :=
  { ProjectID := [], ActivityID := [], Progress := 0, Days := [] }

/-- The first half of the test of the project block: the name starts with `project`,
`activity`, `actprogress`, `record`, `note` or `progress`. -/
def hasProjectPrefix (key : GoString) : Bool :=
  HasPrefix key (str "project") || HasPrefix key (str "activity") ||
    HasPrefix key (str "actprogress") || HasPrefix key (str "record") ||
    HasPrefix key (str "note") || HasPrefix key (str "progress")

/-- The fields of the overtime totals. -/
def oveTotalFields : List (GoString × GoString) :=
  (List.range 7).map (fun dayIdx => (fmtD "oveTotal" dayIdx, str "0"))

/-- The fields of the overtime slots: the keys of `params` that start with `over`, sorted. -/
def overSlotFields (entries : List (SaveEntry fl.F)) : List (GoString × GoString) :=
  (sortStrings ((params fl entries).keys.filter (fun k => HasPrefix k (str "over")))).map
    (part (params fl entries))

end SaveWeekTimecard

/-- Two entries of the same shape: both with or both without a project id, and with the
same number of days. -/
def SaveEntry.sameShape {F : Type} (e e' : SaveEntry F) : Prop :=
  (e.ProjectID = [] ↔ e'.ProjectID = []) ∧ e.Days.length = e'.Days.length

/-- Two lists of entries that differ only in the contents of their values. -/
def sameShape {F : Type} (entries entries' : List (SaveEntry F)) : Prop :=
  List.Forall₂ SaveEntry.sameShape entries entries'

/-- An entry with one day, whose values hold the bytes `&`, `=`, `%`, `+`, a space and a
byte above 127. -/
def noisyEntry : SaveEntry wholeHours.F :=
  { ProjectID := [38, 61, 37, 43, 32, 200], ActivityID := str "a&b=c", Progress := 5,
    Days := [{ Hours := .string (str "1&2"), Note := [38, 61, 37, 43, 32, 200], Progress := 0 }] }

/-- An entry of the shape of `noisyEntry` with plain values. -/
def plainEntry : SaveEntry wholeHours.F :=
  { ProjectID := str "7", ActivityID := str "12", Progress := 0,
    Days := [{ Hours := .int 8, Note := str "ok", Progress := 0 }] }

/-- The string has no byte `&`. -/
def noAmp (s : GoString) : Bool := s.all (fun b => b != 38)

/-- At the first position where two strings differ, the first has the smaller byte. -/
def divergeLt : GoString → GoString → Bool
  | a :: as, b :: bs => if a < b then true else if b < a then false else divergeLt as bs
  | _, _ => false

/-! ## `parseJSArrays` and `ParseProjectsAndActivities` (parser.go) -/

/-- The functions of the packages `strings` and `regexp` that the parser calls and that
are kept abstract; a pattern is given by its source text. A nil result is `[]`. -/
structure StdLib where
  /-- The function `strings.TrimSpace`. -/
  TrimSpace : GoString → GoString
  /-- The function `strings.ToLower`. -/
  ToLower : GoString → GoString
  /-- The method `FindAllStringSubmatch(s, -1)` of `regexp.MustCompile(pattern)`. -/
  FindAllStringSubmatch : String → GoString → List (List GoString)
  /-- The method `FindStringSubmatch(s)` of `regexp.MustCompile(pattern)`. -/
  FindStringSubmatch : String → GoString → List GoString
  /-- The method `FindString(s)` of `regexp.MustCompile(pattern)`. -/
  FindString : String → GoString → GoString

/-- The function `strings.Contains`. -/
def Contains (s substr : GoString) : Bool := s.tails.any (fun t => substr.isPrefixOf t)

/-- The struct `Activity`. -/
structure Activity where
  ID : GoString
  ProjectID : GoString
  Name : GoString
  FullName : GoString
  IsBottom : Bool
  UID : GoString
  Progress : GoString
  IndentLevel : Nat
  deriving DecidableEq

/-- The struct `Project`. -/
structure Project where
  ID : GoString
  Name : GoString
  Activities : List Activity
  deriving DecidableEq

/-- The struct `ProjectsAndActivities`. -/
structure ProjectsAndActivities where
  Date : GoString
  Projects : List Project

/-- The variables of `parseJSArrays`. -/
structure ParseState where
  projects : List Project
  activities : List Activity
  projectMap : GoMap GoString
  seen : GoMap Bool

/-- The pattern `projectPattern1`. -/
def projectPattern1 : String := "<option value=\"(\\d+)\">([^<]+)</option>"

/-- The pattern `projectPattern2`. -/
def projectPattern2 : String := "<option[^>]*\\svalue=\"(\\d+)\"[^>]*>([^<]+)</option>"

/-- The pattern `activityPattern`. -/
def activityPattern : String :=
  "act\\.append\\('(\\d+)',\\s*'([^']+)',\\s*'([^']+)',\\s*'([^']+)',\\s*'([^']+)'\\)"

namespace parseJSArrays

variable (lib : StdLib)

/-- One turn of the loop over `append(matches1, matches2...)`. -/
def optionStep (st : ParseState) (m : List GoString) : ParseState :=
  if 3 ≤ m.length then
    let value := m.getD 1 []
    let name := lib.TrimSpace (m.getD 2 [])
    if Contains (lib.ToLower name) (str "select project") || value == str "--" || name == []
    then st
    else
      let key := value ++ str "_" ++ name
      if (st.seen.get? key).getD false then st
      else
        { st with
          seen := st.seen.set key true
          projectMap := st.projectMap.set value name
          projects := st.projects ++ [{ ID := value, Name := name, Activities := [] }] }
  else st

/-- The map `projectIDs` of the branch taken when the dropdown gave no project. -/
def projectIDs (activityMatches : List (List GoString)) : GoMap Bool :=
  activityMatches.foldl
    (fun ids m => if 2 ≤ m.length then ids.set (m.getD 1 []) true else ids) []

/-- One turn of `for projectID := range projectIDs`: the inner loop stops at the first
match of the project. -/
def synthStep (activityMatches : List (List GoString)) (st : ParseState)
    (projectID : GoString) : ParseState :=
  match activityMatches.find? (fun m => decide (2 ≤ m.length) && m.getD 1 [] == projectID) with
  | some m =>
    let activityName := lib.TrimSpace (m.getD 2 [])
    let nameMatch := lib.FindStringSubmatch "([^<]+)\\s*<<" activityName
    let projectName :=
      if 2 ≤ nameMatch.length then lib.TrimSpace (nameMatch.getD 1 []) else activityName
    { st with
      projectMap := st.projectMap.set projectID projectName
      projects := st.projects ++ [{ ID := projectID, Name := projectName, Activities := [] }] }
  | none => st

/-- The values of `indentLevel` and `cleanedName` for an activity label. -/
def cleanName (activityName : GoString) : Nat × GoString :=
  let lead := lib.FindString "^\\s+" activityName
  let indentLevel := if lead ≠ [] then lead.length else 0
  let cleanedName := if lead ≠ [] then lib.TrimSpace activityName else activityName
  let m₂ := lib.FindStringSubmatch "^(\\d+[\\.\\)]\\s+)(.*)" cleanedName
  let cleanedName := if 3 ≤ m₂.length then m₂.getD 2 [] else cleanedName
  let m₃ := lib.FindStringSubmatch "(.+)\\s*<<[^>]+>>" cleanedName
  let cleanedName := if 2 ≤ m₃.length then lib.TrimSpace (m₃.getD 1 []) else cleanedName
  (indentLevel, cleanedName)

/-- The statement `if _, ok := projectMap[projectID]; !ok { ... }`. -/
def ensureProject (st : ParseState) (projectID : GoString) : ParseState :=
  if (st.projectMap.get? projectID).isSome then st
  else
    { st with
      projectMap := st.projectMap.set projectID (str "Project " ++ projectID)
      projects := st.projects ++
        [{ ID := projectID, Name := str "Project " ++ projectID, Activities := [] }] }

/-- One turn of the loop that processes all activities. -/
def activityStep (st : ParseState) (m : List GoString) : ParseState :=
  if 6 ≤ m.length then
    let projectID := m.getD 1 []
    let activityName := m.getD 2 []
    let isBottom := lib.ToLower (m.getD 3 []) == str "true"
    let uid := m.getD 4 []
    let progress := m.getD 5 []
    let st := ensureProject st projectID
    let c := cleanName lib activityName
    { st with
      activities := st.activities ++
        [{ ID := projectID ++ str "_" ++ c.2 ++ str "_" ++ uid
           ProjectID := projectID
           Name := c.2
           FullName := activityName
           IsBottom := isBottom
           UID := uid
           Progress := progress
           IndentLevel := c.1 }] }
  else st

/-- The state after the loop over the dropdown matches. -/
def afterOptions (htmlContent : GoString) : ParseState :=
  (lib.FindAllStringSubmatch projectPattern1 htmlContent
      ++ lib.FindAllStringSubmatch projectPattern2 htmlContent).foldl
    (optionStep lib) { projects := [], activities := [], projectMap := [], seen := [] }

/-- The state after the branch `if len(projects) == 0`; `o` is the visiting order of
`range projectIDs`. -/
def afterSynth (o : MapOrder) (htmlContent : GoString) : ParseState :=
  let st := afterOptions lib htmlContent
  let activityMatches := lib.FindAllStringSubmatch activityPattern htmlContent
  if st.projects.length = 0 then
    (o.enum (projectIDs activityMatches).keys).foldl (synthStep lib activityMatches) st
  else st

/-- The state when `parseJSArrays` returns. -/
def final (o : MapOrder) (htmlContent : GoString) : ParseState :=
  (lib.FindAllStringSubmatch activityPattern htmlContent).foldl (activityStep lib)
    (afterSynth lib o htmlContent)

end parseJSArrays

/-- The function `parseJSArrays`. -/
def parseJSArrays (lib : StdLib) (o : MapOrder) (htmlContent : GoString) :
    List Project × List Activity :=
  ((parseJSArrays.final lib o htmlContent).projects,
   (parseJSArrays.final lib o htmlContent).activities)

namespace ParseProjectsAndActivities

/-- The loop that fills `projectMap` from the projects. -/
def initMap (projects : List Project) : GoMap Project :=
  projects.foldl
    (fun m p => m.set p.ID { ID := p.ID, Name := p.Name, Activities := [] }) []

/-- One turn of the loop that adds the activities to their projects; the map holds
pointers, so the append updates the project stored under the key. -/
def addActivity (m : GoMap Project) (act : Activity) : GoMap Project :=
  match m.get? act.ProjectID with
  | some proj =>
    m.set act.ProjectID { proj with Activities := proj.Activities ++ [{ act with ID := act.UID }] }
  | none => m

/-- The map `projectMap` after both loops. -/
def projectMap (projects : List Project) (activities : List Activity) : GoMap Project :=
  activities.foldl addActivity (initMap projects)

end ParseProjectsAndActivities

/-- The function `ParseProjectsAndActivities`; `o` and `o'` are the visiting orders of
`range projectIDs` in `parseJSArrays` and of `range projectMap`. -/
def ParseProjectsAndActivities (lib : StdLib) (o o' : MapOrder)
    (htmlContent date : GoString) : ProjectsAndActivities :=
  let pa := parseJSArrays lib o htmlContent
  let m := ParseProjectsAndActivities.projectMap pa.1 pa.2
  { Date := date, Projects := (o'.enum m.keys).filterMap (fun k => m.get? k) }

/-! ## Invariants of the parser, and a stand-in for the library -/

namespace parseJSArrays

/-- The keys of `projectMap` are ids of projects of the slice, and so are the project
ids of the activities. -/
def Inv (st : ParseState) : Prop :=
  (∀ k ∈ st.projectMap.keys, ∃ p ∈ st.projects, p.ID = k) ∧
  (∀ a ∈ st.activities, ∃ p ∈ st.projects, p.ID = a.ProjectID)

end parseJSArrays

namespace ParseProjectsAndActivities

/-- A project is stored under its id, and holds only activities of that id. -/
def Keyed (m : GoMap Project) : Prop :=
  ∀ k p, m.get? k = some p → p.ID = k ∧ ∀ a ∈ p.Activities, a.ProjectID = k

end ParseProjectsAndActivities

/-- A page with the single declaration `act.append('101','Task','true','u9','0')` and no
dropdown, as the library reports it: one match of `activityPattern`, none of the others. -/
def onePageLib : StdLib :=
  { TrimSpace := fun s => s
    ToLower := fun s => s
    FindAllStringSubmatch := fun pattern _ =>
      if pattern = activityPattern then
        [[str "act.append('101','Task','true','u9','0')", str "101", str "Task", str "true",
          str "u9", str "0"]]
      else []
    FindStringSubmatch := fun _ _ => []
    FindString := fun _ _ => [] }

/-! ## The activity of a match, and the copy stored in a project -/

namespace parseJSArrays

/-- The activity that the loop over the activity matches appends for a match with its
five submatches. -/
def activityOfMatch (lib : StdLib) (m : List GoString) : Activity :=
  { ID := m.getD 1 [] ++ str "_" ++ (cleanName lib (m.getD 2 [])).2 ++ str "_" ++ m.getD 4 []
    ProjectID := m.getD 1 []
    Name := (cleanName lib (m.getD 2 [])).2
    FullName := m.getD 2 []
    IsBottom := lib.ToLower (m.getD 3 []) == str "true"
    UID := m.getD 4 []
    Progress := m.getD 5 []
    IndentLevel := (cleanName lib (m.getD 2 [])).1 }

end parseJSArrays

namespace ParseProjectsAndActivities

/-- The value `actCopy` that is appended to the project: the activity with its `ID`
replaced by its `UID`. -/
def actCopy (act : Activity) : Activity := { act with ID := act.UID }

end ParseProjectsAndActivities

/-- The project that `ParseProjectsAndActivities` returns for the page of `onePageLib`. -/
def onePageProject : Project :=
  { ID := str "101"
    Name := str "Task"
    Activities :=
      [{ ID := str "u9", ProjectID := str "101", Name := str "Task", FullName := str "Task",
         IsBottom := true, UID := str "u9", Progress := str "0", IndentLevel := 0 }] }

/-! ## The library functions of the parser, modelled

`strings.ToLower` and `strings.TrimSpace` work on UTF-8 text, the package `regexp` on
the patterns of the source. The models below follow the documentation of the library:
leftmost-first matching (the match a backtracking search finds first), greedy repetition.
All repetitions in the patterns of the source are over classes of single bytes (or over
complements of ASCII bytes, which contain every byte of a multi-byte character), so a
pattern is a sequence of items and matching works byte by byte. -/

/-- The string has ASCII bytes only. -/
def isASCII (s : GoString) : Bool := s.all (fun b => b.val < 128)

/-- The lower case of an ASCII byte; other bytes are kept. -/
def lowerByte (b : Byte) : Byte :=
  if 65 ≤ b.val ∧ b.val ≤ 90 then ⟨(b.val + 32) % 256, Nat.mod_lt _ (by decide)⟩ else b

/-- The function `strings.ToLower` on a string of ASCII bytes. On other strings the
library uses the Unicode case tables, which are not modelled: bytes above 127 are kept. -/
def ToLowerASCII (s : GoString) : GoString := s.map lowerByte

/-- The UTF-8 encodings of the characters with the Unicode property White_Space, which
`strings.TrimSpace` removes: tab, line feed, vertical tab, form feed, carriage return,
space, U+0085, U+00A0, U+1680, U+2000 to U+200A, U+2028, U+2029, U+202F, U+205F, U+3000. -/
def spaceSeqs : List GoString :=
  [[9], [10], [11], [12], [13], [32], [0xC2, 0x85], [0xC2, 0xA0], [0xE1, 0x9A, 0x80],
   [0xE2, 0x80, 0x80], [0xE2, 0x80, 0x81], [0xE2, 0x80, 0x82], [0xE2, 0x80, 0x83],
   [0xE2, 0x80, 0x84], [0xE2, 0x80, 0x85], [0xE2, 0x80, 0x86], [0xE2, 0x80, 0x87],
   [0xE2, 0x80, 0x88], [0xE2, 0x80, 0x89], [0xE2, 0x80, 0x8A], [0xE2, 0x80, 0xA8],
   [0xE2, 0x80, 0xA9], [0xE2, 0x80, 0xAF], [0xE2, 0x81, 0x9F], [0xE3, 0x80, 0x80]]

/-- The length of the white space character the string starts with, if any. -/
def leadingSpace (s : GoString) : Option Nat :=
  (spaceSeqs.find? (fun q => q.isPrefixOf s)).map List.length

/-- The length of the white space character the string ends with, if any. -/
def trailingSpace (s : GoString) : Option Nat :=
  (spaceSeqs.find? (fun q => q.reverse.isPrefixOf s.reverse)).map List.length

/-- Removal of the leading white space, with a budget of steps. -/
def trimLeft : Nat → GoString → GoString
  | 0, s => s
  | fuel + 1, s =>
    match leadingSpace s with
    | some n => trimLeft fuel (s.drop n)
    | none => s

/-- Removal of the trailing white space, with a budget of steps. -/
def trimRight : Nat → GoString → GoString
  | 0, s => s
  | fuel + 1, s =>
    match trailingSpace s with
    | some n => trimRight fuel (s.take (s.length - n))
    | none => s

/-- The function `strings.TrimSpace`. -/
def TrimSpaceUTF8 (s : GoString) : GoString :=
  let t := trimLeft s.length s
  trimRight t.length t

/-- An item of a pattern. -/
inductive Item where
  /-- A literal byte. -/
  | byte (b : Byte)
  /-- One byte of a class. -/
  | cls (p : Byte → Bool)
  /-- The greedy repetition `c*` of a class. -/
  | star (p : Byte → Bool)
  /-- The greedy repetition `c+` of a class. -/
  | plus (p : Byte → Bool)

/-- A compiled pattern: whether it starts with `^`, its items, and its capture groups,
each as the range of items it encloses (from the first index up to, not including, the
second). -/
structure Pattern where
  anchored : Bool
  items : List Item
  groups : List (Nat × Nat)

/-- The class `\d`. -/
def reDigit (b : Byte) : Bool := 48 ≤ b.val && b.val ≤ 57

/-- The class `\s`: tab, line feed, form feed, carriage return, space. -/
def reSpace (b : Byte) : Bool := b.val == 9 || b.val == 10 || b.val == 12 || b.val == 13 || b.val == 32

/-- The class `.`: every byte but the line feed. -/
def reDot (b : Byte) : Bool := b.val != 10

/-- The class `[^c]` for an ASCII byte `c`. -/
def reNot (c : Byte) (b : Byte) : Bool := b != c

/-- The class `[\.\)]`. -/
def reDotParen (b : Byte) : Bool := b.val == 46 || b.val == 41

/-- The items of a literal text. -/
def lits (s : String) : List Item := (str s).map Item.byte

/-- The candidates `hi, hi - 1, ..., lo` of a greedy repetition, longest first. -/
def downFrom (hi lo : Nat) : List Nat := ((List.range (hi + 1)).filter (fun k => lo ≤ k)).reverse

/-- Matching the items at the start of a text, by backtracking: the bytes each item
consumes in the first match found, longest repetitions tried first. -/
def matchItems : List Item → GoString → Option (List GoString)
  | [], _ => some []
  | .byte b :: is, c :: rest =>
    if c = b then (matchItems is rest).map (fun cs => [c] :: cs) else none
  | .byte _ :: _, [] => none
  | .cls p :: is, c :: rest =>
    if p c then (matchItems is rest).map (fun cs => [c] :: cs) else none
  | .cls _ :: _, [] => none
  | .star p :: is, s =>
    (downFrom (s.takeWhile p).length 0).findSome?
      (fun k => (matchItems is (s.drop k)).map (fun cs => s.take k :: cs))
  | .plus p :: is, s =>
    (downFrom (s.takeWhile p).length 1).findSome?
      (fun k => (matchItems is (s.drop k)).map (fun cs => s.take k :: cs))

/-- The text of a capture group, from the bytes the items consumed. -/
def groupText (chunks : List GoString) (g : Nat × Nat) : GoString :=
  ((chunks.drop g.1).take (g.2 - g.1)).flatten

/-- The submatches of a match: the whole match, then the groups. -/
def submatches (p : Pattern) (chunks : List GoString) : List GoString :=
  chunks.flatten :: p.groups.map (groupText chunks)

/-- The leftmost match at or after the offset `start`: its offset and the bytes of its
items. A pattern that starts with `^` matches at offset 0 only. -/
def findMatch (p : Pattern) (s : GoString) (start : Nat) : Option (Nat × List GoString) :=
  ((List.range (s.length + 1)).filter
      (fun i => decide (start ≤ i) && (!p.anchored || i == 0))).findSome?
    (fun i => (matchItems p.items (s.drop i)).map (fun cs => (i, cs)))

/-- The successive matches from the offset `start` on, with a budget of matches: each
search starts where the last match ended (one byte further after an empty match). -/
def findAllFrom (p : Pattern) (s : GoString) : Nat → Nat → List (List GoString)
  | 0, _ => []
  | fuel + 1, start =>
    match findMatch p s start with
    | none => []
    | some (i, cs) =>
      submatches p cs ::
        findAllFrom p s fuel (if cs.flatten.length = 0 then i + 1 else i + cs.flatten.length)

/-- The compiled form of `<option value="(\d+)">([^<]+)</option>`. -/
def rxProject1 : Pattern :=
  { anchored := false
    items := lits "<option value=\"" ++ [.plus reDigit] ++ lits "\">" ++ [.plus (reNot 60)]
      ++ lits "</option>"
    groups := [(15, 16), (18, 19)] }

/-- The compiled form of `<option[^>]*\svalue="(\d+)"[^>]*>([^<]+)</option>`. -/
def rxProject2 : Pattern :=
  { anchored := false
    items := lits "<option" ++ [.star (reNot 62), .cls reSpace] ++ lits "value=\""
      ++ [.plus reDigit] ++ lits "\"" ++ [.star (reNot 62)] ++ lits ">" ++ [.plus (reNot 60)]
      ++ lits "</option>"
    groups := [(16, 17), (20, 21)] }

/-- The compiled form of
`act\.append\('(\d+)',\s*'([^']+)',\s*'([^']+)',\s*'([^']+)',\s*'([^']+)'\)`. -/
def rxActivity : Pattern :=
  { anchored := false
    items := lits "act.append('" ++ [.plus reDigit] ++ lits "'," ++ [.star reSpace]
      ++ lits "'" ++ [.plus (reNot 39)] ++ lits "'," ++ [.star reSpace]
      ++ lits "'" ++ [.plus (reNot 39)] ++ lits "'," ++ [.star reSpace]
      ++ lits "'" ++ [.plus (reNot 39)] ++ lits "'," ++ [.star reSpace]
      ++ lits "'" ++ [.plus (reNot 39)] ++ lits "')"
    groups := [(12, 13), (17, 18), (22, 23), (27, 28), (32, 33)] }

/-- The compiled form of `([^<]+)\s*<<`. -/
def rxProjectName : Pattern :=
  { anchored := false
    items := [.plus (reNot 60), .star reSpace] ++ lits "<<"
    groups := [(0, 1)] }

/-- The compiled form of `^\s+`. -/
def rxLeadingSpace : Pattern :=
  { anchored := true, items := [.plus reSpace], groups := [] }

/-- The compiled form of `^(\d+[\.\)]\s+)(.*)`. -/
def rxNumberPrefix : Pattern :=
  { anchored := true
    items := [.plus reDigit, .cls reDotParen, .plus reSpace, .star reDot]
    groups := [(0, 3), (3, 4)] }

/-- The compiled form of `(.+)\s*<<[^>]+>>`. -/
def rxMarker : Pattern :=
  { anchored := false
    items := [.plus reDot, .star reSpace] ++ lits "<<" ++ [.plus (reNot 62)] ++ lits ">>"
    groups := [(0, 1)] }

/-- The function `regexp.MustCompile` on the patterns of the source. -/
def compile (pattern : String) : Option Pattern :=
  if pattern = projectPattern1 then some rxProject1
  else if pattern = projectPattern2 then some rxProject2
  else if pattern = activityPattern then some rxActivity
  else if pattern = "([^<]+)\\s*<<" then some rxProjectName
  else if pattern = "^\\s+" then some rxLeadingSpace
  else if pattern = "^(\\d+[\\.\\)]\\s+)(.*)" then some rxNumberPrefix
  else if pattern = "(.+)\\s*<<[^>]+>>" then some rxMarker
  else none

/-- The library as the parser uses it. -/
def goLib : StdLib :=
  { TrimSpace := TrimSpaceUTF8
    ToLower := ToLowerASCII
    FindAllStringSubmatch := fun pattern s =>
      match compile pattern with
      | some p => findAllFrom p s (s.length + 1) 0
      | none => []
    FindStringSubmatch := fun pattern s =>
      match compile pattern with
      | some p =>
        match findMatch p s 0 with
        | some (_, cs) => submatches p cs
        | none => []
      | none => []
    FindString := fun pattern s =>
      match compile pattern with
      | some p =>
        match findMatch p s 0 with
        | some (_, cs) => cs.flatten
        | none => []
      | none => [] }

/-- The markup `<option value="101">Alpha</option>` followed by
`act.append('101','  Sub Task <<1.1>>','true','u9','0')`. -/
def sampleMarkup : GoString :=
  str "<option value=\"101\">Alpha</option>act.append('101','  Sub Task <<1.1>>','true','u9','0')"

/-! ## `ParseWeekTimecard` (parser.go)

The page is read through goquery; the model takes what goquery returns for the queries
of the code: the rows of `table.timecard_table tr`, what `row.Find` returns for a
selector, and the texts of the cells of `tr.subtotal td`. -/

/-- An `option` element: the result of `Attr("value")` (`none` when the attribute is
absent) and of `Text()`. -/
structure OptionNode where
  value : Option GoString
  text : GoString

/-- A goquery selection as the code reads it: `Length()`, `Attr(name)` (of the first
element; `none` when absent), and the elements of `Find("option[selected]")`. -/
structure Selection where
  length : Nat
  attr : GoString → Option GoString
  selectedOptions : List OptionNode

/-- A table row: what `row.Find(selector)` returns. -/
structure RowNode where
  find : GoString → Selection

/-- A parsed page. -/
structure Document where
  rows : List RowNode
  subtotalCells : List GoString

/-- The struct `DayEntry`. -/
structure DayEntry (F : Type) where
  Hours : HoursValue F
  Note : GoString
  Progress : Int

/-- The struct `WeekEntry`. -/
structure WeekEntry (F : Type) where
  ProjectID : GoString
  ProjectName : GoString
  ActivityData : GoString
  Progress : Int
  Days : List (DayEntry F)

/-- The struct `WeekTimecard`. -/
structure WeekTimecard (F : Type) where
  WeekStartDate : GoString
  Entries : List (WeekEntry F)
  DailyTotals : List F

/-- The function `strings.TrimPrefix`. -/
def TrimPrefix (s p : GoString) : GoString := if HasPrefix s p then s.drop p.length else s

/-- The function `strconv.Atoi` for a 64-bit `int`: the value it returns and whether the
error is nil. A syntax error gives 0, a value out of range gives the nearest bound. -/
def Atoi (s : GoString) : Int × Bool :=
  let neg := s.head? == some 45
  let body := if s.head? == some 45 || s.head? == some 43 then s.drop 1 else s
  if body ≠ [] ∧ body.all isDigit then
    let v : Int := if neg then -(decVal body : Int) else (decVal body : Int)
    if v > 2 ^ 63 - 1 then (2 ^ 63 - 1, false)
    else if v < -(2 ^ 63) then (-(2 ^ 63), false)
    else (v, true)
  else (0, false)

namespace ParseWeekTimecard

variable (lib : StdLib) (fl : Float64Model)

/-- The statement `result.DailyTotals[dayIdx] += hours`. -/
def addTotal (totals : List fl.F) (dayIdx : Nat) (hours : fl.F) : List fl.F :=
  totals.set dayIdx (fl.add (totals.getD dayIdx fl.zero) hours)

/-- The selector of a day field, `"input[name='" + pre + strconv.Itoa(idx) + "_" +
strconv.Itoa(dayIdx) + "']"`. -/
def daySelector (pre : String) (idx : Int) (dayIdx : Nat) : GoString :=
  str "input[name='" ++ str pre ++ Itoa idx ++ str "_" ++ Itoa dayIdx ++ str "']"

/-- The hours that the code parses from the hours field, when the assignment
`dayEntry.Hours = hours` runs. -/
def parsedHours (hourInput : Selection) : Option fl.F :=
  if hourInput.length > 0 then
    let val := (hourInput.attr (str "value")).getD []
    if val ≠ [] ∧ lib.TrimSpace val ≠ [] then fl.parseFloat (lib.TrimSpace val) else none
  else none

/-- The value of `dayEntry.Hours` after the hours field is read: the parsed hours, or
the initial `""`. -/
def hoursValue (hourInput : Selection) : HoursValue fl.F :=
  match parsedHours lib fl hourInput with
  | some hours => .float64 hours
  | none => .string []

/-- The value of `dayEntry` for a day of a row. -/
def dayEntry (row : RowNode) (idx : Int) (dayIdx : Nat) : DayEntry fl.F :=
  let noteInput := row.find (daySelector "note" idx dayIdx)
  let progressInput := row.find (daySelector "progress" idx dayIdx)
  { Hours := hoursValue lib fl (row.find (daySelector "record" idx dayIdx))
    Note := if noteInput.length > 0 then (noteInput.attr (str "value")).getD [] else []
    Progress :=
      if progressInput.length > 0 then
        let val := (progressInput.attr (str "value")).getD []
        if val ≠ [] then (Atoi val).1 else 0
      else 0 }

/-- The effect of the loop over the days of a row on `result.DailyTotals`. -/
def rowTotals (row : RowNode) (idx : Int) (totals : List fl.F) : List fl.F :=
  (List.range 7).foldl
    (fun totals dayIdx =>
      match parsedHours lib fl (row.find (daySelector "record" idx dayIdx)) with
      | some hours => addTotal fl totals dayIdx hours
      | none => totals)
    totals

/-- The index of a row, when the callback gets past its three early returns on the
project selector: the text after `project` in the name and its value as an int. -/
def rowIndex (row : RowNode) : Option (GoString × Int) :=
  let projectSelect := row.find (str "select[name^='project']")
  if projectSelect.length = 0 then none
  else
    let selectName := (projectSelect.attr (str "name")).getD []
    if !HasPrefix selectName (str "project") then none
    else
      let idxStr := TrimPrefix selectName (str "project")
      if (Atoi idxStr).2 then some (idxStr, (Atoi idxStr).1) else none

/-- The values of `projectID` and `projectName` after the loop over the selected
options of the project selector: those of the last one, or empty strings. -/
def selectedProject (row : RowNode) : GoString × GoString :=
  (row.find (str "select[name^='project']")).selectedOptions.foldl
    (fun _ opt => (opt.value.getD [], lib.TrimSpace opt.text)) ([], [])

/-- The entry that the callback appends for a row, if it appends one. -/
def rowEntry (row : RowNode) : Option (WeekEntry fl.F) :=
  match rowIndex row with
  | none => none
  | some (idxStr, idx) =>
    let projectID := (selectedProject lib row).1
    let projectName := (selectedProject lib row).2
    if projectID = [] ∨ projectID = str "--" then none
    else
      let activityData :=
        (row.find (str "select[name='activity" ++ idxStr ++ str "']")).selectedOptions.foldl
          (fun _ opt => opt.value.getD []) []
      let progressInput := row.find (str "input[name='actprogress" ++ idxStr ++ str "']")
      let progress :=
        if progressInput.length > 0 then
          let val := (progressInput.attr (str "value")).getD []
          if val ≠ [] then (Atoi val).1 else 0
        else 0
      some
        { ProjectID := projectID
          ProjectName := projectName
          ActivityData := activityData
          Progress := progress
          Days := (List.range 7).map (dayEntry lib fl row idx) }

/-- One call of the callback of `doc.Find("table.timecard_table tr").Each`, on the
entries and the totals of `result`. -/
def rowStep (st : List (WeekEntry fl.F) × List fl.F) (row : RowNode) :
    List (WeekEntry fl.F) × List fl.F :=
  match rowEntry lib fl row, rowIndex row with
  | some entry, some (_, idx) => (st.1 ++ [entry], rowTotals lib fl row idx st.2)
  | _, _ => st

/-- One call of the callback of `doc.Find("tr.subtotal td").Each`. -/
def subtotalStep (totals : List fl.F) (c : Nat × GoString) : List fl.F :=
  if c.1 = 0 then totals
  else
    let dayIdx := c.1 - 1
    if dayIdx < 7 then
      match fl.parseFloat (lib.TrimSpace c.2) with
      | some total => totals.set dayIdx total
      | none => totals
    else totals

end ParseWeekTimecard

/-- The function `ParseWeekTimecard`, on what goquery makes of the page (`none` when
`goquery.NewDocumentFromReader` returns an error). -/
def ParseWeekTimecard (lib : StdLib) (fl : Float64Model) (doc : Option Document)
    (weekStartDate : GoString) : WeekTimecard fl.F :=
  match doc with
  | none =>
    { WeekStartDate := weekStartDate, Entries := [], DailyTotals := List.replicate 7 fl.zero }
  | some doc =>
    let st := doc.rows.foldl (ParseWeekTimecard.rowStep lib fl) ([], List.replicate 7 fl.zero)
    { WeekStartDate := weekStartDate
      Entries := st.1
      DailyTotals := doc.subtotalCells.enum.foldl (ParseWeekTimecard.subtotalStep lib fl) st.2 }

/-- The sum of the numeric hours of a day over entries, in float64 and in the order of
the entries. -/
def sumHours (fl : Float64Model) (entries : List (WeekEntry fl.F)) (dayIdx : Nat) : fl.F :=
  entries.foldl
    (fun acc e =>
      match (e.Days.map (fun d => d.Hours)).getD dayIdx .other with
      | .float64 h => fl.add acc h
      | _ => acc)
    fl.zero

/-- A float64 model for evaluation on whole hours: a string of decimal digits, with or
without a fraction `.0`, parses to its value, and any other string is taken as one that
`strconv.ParseFloat` rejects, as it does `abc`. -/
def decimalHours : Float64Model :=
  { F := Int, zero := 0, add := fun a b => a + b, ofInt := fun i => i,
    parseFloat := fun s =>
      let t := if (str ".0").reverse.isPrefixOf s.reverse then s.take (s.length - 2) else s
      if t ≠ [] ∧ t.all isDigit then some (decVal t : Int) else none
    formatFloat := Itoa }

/-- A selection of one `input` element with the given value. -/
def inputOf (value : GoString) : Selection :=
  { length := 1, attr := fun a => if a = str "value" then some value else none,
    selectedOptions := [] }

/-- The empty selection. -/
def noSelection : Selection :=
  { length := 0, attr := fun _ => none, selectedOptions := [] }

/-- A row with the selector `project0`, the selected project `101`, and the given values
of the seven hours fields. -/
def sampleRow (hours : List GoString) : RowNode :=
  { find := fun sel =>
      if sel = str "select[name^='project']" then
        { length := 1, attr := fun a => if a = str "name" then some (str "project0") else none,
          selectedOptions := [{ value := some (str "101"), text := str " Alpha " }] }
      else
        match (List.range 7).find?
          (fun d => sel == ParseWeekTimecard.daySelector "record" 0 d) with
        | some d => inputOf (hours.getD d [])
        | none => noSelection }

/-- A row whose project selector has no selected option. -/
def unselectedRow : RowNode :=
  { find := fun sel =>
      if sel = str "select[name^='project']" then
        { length := 1, attr := fun a => if a = str "name" then some (str "project1") else none,
          selectedOptions := [] }
      else noSelection }

/-- A page of one row `sampleRow hours`, followed by a row with no selected project,
with the given texts of the cells of `tr.subtotal td`. -/
def samplePage (hours cells : List GoString) : Document :=
  { rows := [sampleRow hours, unselectedRow], subtotalCells := cells }

/-- The hours of the days of the entries of a week. -/
def hoursOf {F : Type} (w : WeekTimecard F) : List (List (HoursValue F)) :=
  w.Entries.map (fun e => e.Days.map (fun d => d.Hours))

/-- The entry of `sampleRow` with the hours `8.0, 8.0, 8.0, 8.0, 8.0, 0, 0`. -/
def sampleWeekEntry : WeekEntry decimalHours.F :=
  { ProjectID := str "101", ProjectName := str "Alpha", ActivityData := [], Progress := 0,
    Days := ([8, 8, 8, 8, 8, 0, 0] : List Int).map
      (fun h => { Hours := .float64 h, Note := [], Progress := 0 }) }

/-- The hours `8.0, 8.0, 8.0, 8.0, 8.0, 0, 0`. -/
def sampleHours : List GoString :=
  [str "8.0", str "8.0", str "8.0", str "8.0", str "8.0", str "0", str "0"]

/-! ## The session store (session.go, errors.go, status.go)

Instants of the wall clock and durations are counted in nanoseconds. The files of a
user hold opaque contents that `encoding/json` produces and reads back; the calls of
package `os` can fail. -/

/-- The errors that the session store returns: its own error values, an error of a call
of package `os`, an error of `encoding/json`. -/
inductive SessionError where
  | ErrSessionExpired
  | ErrNoCookies
  | ErrNoSessionCookie
  | os (call : String)
  | json (call : String)
  deriving DecidableEq

/-- The fields of `http.Cookie` that the store reads and writes; `Expires` is an instant. -/
structure Cookie where
  Name : GoString
  Value : GoString
  Path : GoString
  Domain : GoString
  Expires : Int
  Secure : Bool
  HttpOnly : Bool
  deriving DecidableEq

/-- The struct `CookieData`; `Expires` is in seconds since the Unix epoch. -/
structure CookieData where
  Name : GoString
  Value : GoString
  Path : GoString
  Domain : GoString
  Expires : Int
  Secure : Bool
  HttpOnly : Bool
  deriving DecidableEq

/-- The struct `SessionInfo`; `CreatedAt` is an instant. -/
structure SessionInfo where
  UserID : GoString
  CreatedAt : Int
  CookieCount : Int
  deriving DecidableEq

/-- The calls `json.MarshalIndent` and `json.Unmarshal` on the two types the store
persists; `none` is an error result. -/
structure JsonCodec where
  /-- The contents of a file. -/
  Blob : Type
  /-- The call `json.MarshalIndent(cookieData, "", "  ")`. -/
  marshalCookies : List CookieData → Option Blob
  /-- The call `json.Unmarshal(cookieData, &cookies)`. -/
  unmarshalCookies : Blob → Option (List CookieData)
  /-- The call `json.MarshalIndent(sessionInfo, "", "  ")`. -/
  marshalSession : SessionInfo → Option Blob
  /-- The call `json.Unmarshal(sessionData, &sessionInfo)`. -/
  unmarshalSession : Blob → Option SessionInfo

/-- The two files of a user in the cache directory; `none` is an absent file. -/
structure Disk (Blob : Type) where
  cookieFile : Option Blob
  sessionFile : Option Blob

/-- The calls of package `os` that fail for a reason other than an absent file. -/
structure IOFaults where
  mkdirAll : Bool
  readSessionFile : Bool
  readCookieFile : Bool
  writeCookieFile : Bool
  writeSessionFile : Bool

/-- No call of package `os` fails. -/
def IOFaults.none : IOFaults :=
  { mkdirAll := false, readSessionFile := false, readCookieFile := false,
    writeCookieFile := false, writeSessionFile := false }

/-- The struct `SessionManager`: the user, the cookies that the jar holds for the base
URL, with their attributes and in the order in which the jar sends them, and the files of
the user. -/
structure SessionManager (J : JsonCodec) where
  userID : GoString
  jar : List Cookie
  disk : Disk J.Blob

/-- The constant `time.Hour`, in nanoseconds. -/
def Hour : Int := 3600 * 1000000000

/-- The constant `config.SessionTimeout`, in hours. -/
def SessionTimeout : Int := 12

/-- The zero value of `time.Time`: January 1, year 1, 00:00 UTC. -/
def zeroTime : Int := -62135596800 * 1000000000

/-- The largest `time.Duration`. -/
def maxDuration : Int := 2 ^ 63 - 1

/-- The smallest `time.Duration`. -/
def minDuration : Int := -(2 ^ 63)

/-- The method `t.Sub(u)`: the duration `t - u`, or the largest or smallest duration when
the difference does not fit. -/
def Sub (t u : Int) : Int :=
  if t - u > maxDuration then maxDuration
  else if t - u < minDuration then minDuration
  else t - u

/-- The function `time.Since(t)`, for the current instant `now`. -/
def Since (now t : Int) : Int := Sub now t

/-- The method `t.Unix()`: the seconds since the Unix epoch. -/
def Unix (t : Int) : Int := t / 1000000000

/-- The function `time.Unix(sec, 0)`. -/
def timeUnix (sec : Int) : Int := sec * 1000000000

/-- The slice `sessionCookieNames`. -/
def sessionCookieNames : List GoString :=
  [str "JSESSIONID", str "session", str "sessionid", str "sid", str "_session_id",
   str "ASP.NET_SessionId", str "PHPSESSID"]

/-- The function `isSessionCookie`. -/
def isSessionCookie (lib : StdLib) (name : GoString) : Bool :=
  let nameLower := lib.ToLower name
  sessionCookieNames.any (fun scn => nameLower == lib.ToLower scn)

/-- The method `Cookies` of a jar of `net/http/cookiejar`, on the cookies it holds for the
URL: each cookie is returned with its name and its value only, the other fields at their
zero values. -/
def Cookies (jar : List Cookie) : List Cookie :=
  jar.map (fun c =>
    { Name := c.Name, Value := c.Value, Path := [], Domain := [], Expires := zeroTime,
      Secure := false, HttpOnly := false })

/-- The `CookieData` that `SaveCookies` builds for a cookie. -/
def toCookieData (c : Cookie) : CookieData :=
  { Name := c.Name, Value := c.Value, Path := c.Path, Domain := c.Domain,
    Expires := if c.Expires ≠ zeroTime then Unix c.Expires else 0,
    Secure := c.Secure, HttpOnly := c.HttpOnly }

/-- The `http.Cookie` that `loadCookies` builds for a stored cookie. -/
def toHttpCookie (c : CookieData) : Cookie :=
  { Name := c.Name, Value := c.Value, Path := c.Path, Domain := c.Domain,
    Expires := if c.Expires > 0 then timeUnix c.Expires else zeroTime,
    Secure := c.Secure, HttpOnly := c.HttpOnly }

/-- The method `SaveCookies`, at the instant `now`: the error it returns (`none` for
nil) and the files afterwards. A failed write leaves the file as it was. -/
def SaveCookies (lib : StdLib) (J : JsonCodec) (faults : IOFaults) (now : Int)
    (sm : SessionManager J) : Option SessionError × Disk J.Blob :=
  if faults.mkdirAll then (some (.os "MkdirAll"), sm.disk)
  else
    let cookies := Cookies sm.jar
    if cookies.length = 0 then (some .ErrNoCookies, sm.disk)
    else
      let hasSession := cookies.any (fun c => isSessionCookie lib c.Name)
      if !hasSession then (some .ErrNoSessionCookie, sm.disk)
      else
        let cookieData := cookies.map toCookieData
        match J.marshalCookies cookieData with
        | none => (some (.json "MarshalIndent"), sm.disk)
        | some cookieJSON =>
          if faults.writeCookieFile then (some (.os "WriteFile"), sm.disk)
          else
            let disk := { sm.disk with cookieFile := some cookieJSON }
            let sessionInfo : SessionInfo :=
              { UserID := sm.userID, CreatedAt := now, CookieCount := cookies.length }
            match J.marshalSession sessionInfo with
            | none => (some (.json "MarshalIndent"), disk)
            | some sessionJSON =>
              if faults.writeSessionFile then (some (.os "WriteFile"), disk)
              else (none, { disk with sessionFile := some sessionJSON })

/-- The method `loadCookies`, at the instant `now`: the error it returns, or the cookies
it hands to `jar.SetCookies`. -/
def loadCookies (J : JsonCodec) (faults : IOFaults) (now : Int) (sm : SessionManager J) :
    Except SessionError (List Cookie) :=
  match (if faults.readSessionFile then none else sm.disk.sessionFile) with
  | none => .error (.os "ReadFile")
  | some sessionData =>
    match J.unmarshalSession sessionData with
    | none => .error (.json "Unmarshal")
    | some sessionInfo =>
      if Since now sessionInfo.CreatedAt > SessionTimeout * Hour then .error .ErrSessionExpired
      else
        match (if faults.readCookieFile then none else sm.disk.cookieFile) with
        | none => .error (.os "ReadFile")
        | some cookieData =>
          match J.unmarshalCookies cookieData with
          | none => .error (.json "Unmarshal")
          | some cookies => .ok (cookies.map toHttpCookie)

/-- The value `isExpired` of `runStatus` for the session info it has read. -/
def runStatus.isExpired (now : Int) (sessionInfo : SessionInfo) : Bool :=
  decide (Since now sessionInfo.CreatedAt > SessionTimeout * Hour)

/-- A codec that stands in for `encoding/json` in evaluations on cookies and session
infos of ASCII text, which `encoding/json` gives back as they were encoded: the contents
of a file are the value written. -/
def plainCodec : JsonCodec :=
  { Blob := List CookieData ⊕ SessionInfo
    marshalCookies := fun l => some (.inl l)
    unmarshalCookies := fun b =>
      match b with
      | .inl l => some l
      | .inr _ => none
    marshalSession := fun i => some (.inr i)
    unmarshalSession := fun b =>
      match b with
      | .inl _ => none
      | .inr i => some i }

/-- A session manager with one session cookie and one other cookie in the jar, and no
file yet. -/
def sampleManager : SessionManager plainCodec :=
  { userID := str "alice"
    jar :=
      [{ Name := str "JSESSIONID", Value := str "abc123", Path := str "/",
         Domain := str "example.org", Expires := zeroTime, Secure := false, HttpOnly := true },
       { Name := str "lang", Value := str "zh-TW", Path := str "/", Domain := str "example.org",
         Expires := zeroTime, Secure := true, HttpOnly := false }]
    disk := { cookieFile := none, sessionFile := none } }

/-- Two bytes are the same letter up to ASCII case. -/
def sameLetter (x y : Byte) : Prop :=
  x = y ∨ (65 ≤ x.val ∧ x.val ≤ 90 ∧ y.val = x.val + 32) ∨
    (65 ≤ y.val ∧ y.val ≤ 90 ∧ x.val = y.val + 32)

/-- Two strings are equal up to the case of their ASCII letters. -/
def EqualIgnoringCase (a b : GoString) : Prop := List.Forall₂ sameLetter a b

/-- The byte of a literal item. -/
def Item.literal : Item → Option Byte
  | .byte b => some b
  | _ => none

/-- A numeric list prefix `N. ` or `N) `: digits, then `.` or `)`, then bytes of `\s`. -/
def IsNumberPrefix (pre : GoString) : Prop :=
  ∃ digits sep gap, pre = digits ++ sep :: gap ∧ digits ≠ [] ∧ digits.all reDigit = true ∧
    reDotParen sep = true ∧ gap ≠ [] ∧ gap.all reSpace = true

/-- A hierarchy marker `<<...>>` after bytes of `\s`, without a line feed, and with a
text between the brackets that is not empty and holds no `<` and no `>`. -/
def IsMarker (tail : GoString) : Prop :=
  ∃ gap mk, tail = gap ++ ([60, 60] ++ mk ++ [62, 62]) ∧ gap.all reSpace = true ∧
    gap.all reDot = true ∧ mk ≠ [] ∧ mk.all reDot = true ∧ (60 : Byte) ∉ mk ∧ (62 : Byte) ∉ mk

/-- A plain name: not empty, without a line feed and without `<`, and with no white space
character at its start or at its end. -/
def IsPlainName (body : GoString) : Prop :=
  body ≠ [] ∧ body.all reDot = true ∧ (60 : Byte) ∉ body ∧ leadingSpace body = none ∧
    trailingSpace body = none

/-- The markup `<option value="101">Alpha</option>` followed by
`act.append('101','A <<1>> B','TRUE','u9','0')`. -/
def upperMarkup : GoString :=
  str "<option value=\"101\">Alpha</option>act.append('101','A <<1>> B','TRUE','u9','0')"

/-- The project of `sampleMarkup`. -/
def sampleProject : Project :=
  { ID := str "101", Name := str "Alpha",
    Activities := [{ ID := str "u9", ProjectID := str "101", Name := str "Sub Task",
                     FullName := str "  Sub Task <<1.1>>", IsBottom := true, UID := str "u9",
                     Progress := str "0", IndentLevel := 2 }] }

/-- The project of `upperMarkup`. -/
def upperProject : Project :=
  { ID := str "101", Name := str "Alpha",
    Activities := [{ ID := str "u9", ProjectID := str "101", Name := str "A",
                     FullName := str "A <<1>> B", IsBottom := true, UID := str "u9",
                     Progress := str "0", IndentLevel := 0 }] }

/-! ## Clearing the session store and logging out (session.go, client.go) -/

/-- The calls of `ClearCookies` that fail: `cookiejar.New`, and `os.Remove` on the cookie
file and on the session file for a reason other than an absent file. -/
structure ClearFaults where
  newJar : Bool
  removeCookieFile : Bool
  removeSessionFile : Bool

/-- No call of `ClearCookies` fails. -/
def ClearFaults.none : ClearFaults :=
  { newJar := false, removeCookieFile := false, removeSessionFile := false }

/-- The method `ClearCookies`: the error it returns (`none` for nil) and the session
manager afterwards. The call `os.Remove` on an absent file returns an error that
`os.IsNotExist` accepts, which the method passes over; a call that fails for another
reason leaves the file as it was. -/
def ClearCookies (J : JsonCodec) (faults : ClearFaults) (sm : SessionManager J) :
    Option SessionError × SessionManager J :=
  if faults.newJar then (some (.os "cookiejar.New"), sm)
  else
    let sm := { sm with jar := [] }
    if faults.removeCookieFile then (some (.os "Remove"), sm)
    else
      let sm := { sm with disk := { sm.disk with cookieFile := none } }
      if faults.removeSessionFile then (some (.os "Remove"), sm)
      else (none, { sm with disk := { sm.disk with sessionFile := none } })

/-- The struct `Client`: its session manager and the field `loggedIn`. -/
structure Client (J : JsonCodec) where
  sessionManager : SessionManager J
  userID : GoString
  loggedIn : Bool

/-- The method `Logout`: the error it returns and the client afterwards. The flag
`newRequest` tells that `http.NewRequest` returns an error; `jarAfterDo` is the content
of the jar after the call `c.httpClient.Do(req)`, whose result the method ignores. -/
def Client.Logout {J : JsonCodec} (newRequest : Bool) (jarAfterDo : List Cookie)
    (faults : ClearFaults) (c : Client J) : Option SessionError × Client J :=
  if !c.loggedIn then (none, c)
  else if newRequest then (some (.os "NewRequest"), c)
  else
    let sm := { c.sessionManager with jar := jarAfterDo }
    let r := ClearCookies J faults sm
    (r.1, { c with loggedIn := false, sessionManager := r.2 })

/-- The files that `SaveCookies` writes for `sampleManager` at the instant 0. -/
def sampleDisk : Disk plainCodec.Blob :=
  (SaveCookies goLib plainCodec IOFaults.none 0 sampleManager).2

/-- A client that does not consider itself logged in, with both files of the user on the
disk. -/
def staleClient : Client plainCodec :=
  { sessionManager := { userID := str "alice", jar := [], disk := sampleDisk },
    userID := str "alice", loggedIn := false }

/-- A client that considers itself logged in, with both files of the user on the disk. -/
def freshClient : Client plainCodec :=
  { sessionManager := { sampleManager with disk := sampleDisk },
    userID := str "alice", loggedIn := true }

/-! ## The default week start date (cmd/week.go, cmd/save.go)

A `time.Time` is read in its location: the date, as the count of days since 1970-01-01,
and the time of the day. The method `AddDate(0, 0, days)` moves the date by `days` days
and keeps the time of the day; the method `Format` is a parameter. -/

/-- A value of `time.Time` in its location: the days of its date since 1970-01-01 and
the nanoseconds since midnight. -/
structure Time where
  day : Int
  clock : Nat
  deriving DecidableEq

/-- The method `Weekday`, with Sunday as 0: 1970-01-01 was a Thursday. -/
def Time.Weekday (t : Time) : Int := (t.day + 4) % 7

/-- The method `AddDate(0, 0, days)`. -/
def Time.AddDate (t : Time) (days : Int) : Time := { t with day := t.day + days }

namespace runWeek

/-- The value `monday` of `runWeek`, computed when `--date` is omitted. -/
def monday (now : Time) : Time :=
  let weekday := now.Weekday
  let weekday := if weekday = 0 then 7 else weekday
  now.AddDate (-(weekday - 1))

/-- The value `date` of `runWeek` after the default is applied; `Format` is the method
`Format("2006-01-02")`. -/
def date (Format : Time → GoString) (weekDate : GoString) (now : Time) : GoString :=
  if weekDate = [] then Format (monday now) else weekDate

end runWeek

namespace runSave

/-- The value `monday` of `runSave`, computed when `--date` is omitted. -/
def monday (now : Time) : Time :=
  let weekday := now.Weekday
  let weekday := if weekday = 0 then 7 else weekday
  now.AddDate (-(weekday - 1))

/-- The value `date` of `runSave` after the default is applied; `Format` is the method
`Format("2006-01-02")`. -/
def date (Format : Time → GoString) (saveDate : GoString) (now : Time) : GoString :=
  if saveDate = [] then Format (monday now) else saveDate

end runSave

/-! ## The projects of the dropdown -/

/-- The value and the trimmed label that the loop over the option matches reads from a
match. -/
def pairOfMatch (lib : StdLib) (m : List GoString) : GoString × GoString :=
  (m.getD 1 [], lib.TrimSpace (m.getD 2 []))

/-- The loop over the option matches does not pass over the match: it has its two
submatches and the test before `continue` is false. -/
def keptMatch (lib : StdLib) (m : List GoString) : Bool :=
  decide (3 ≤ m.length) &&
    !(Contains (lib.ToLower (lib.TrimSpace (m.getD 2 []))) (str "select project") ||
      m.getD 1 [] == str "--" || lib.TrimSpace (m.getD 2 []) == [])

/-- The pairs of value and trimmed label of the matches that the loop does not pass
over, in the order of the matches. -/
def keptPairsOf (lib : StdLib) (ms : List (List GoString)) : List (GoString × GoString) :=
  (ms.filter (keptMatch lib)).map (pairOfMatch lib)

/-- The slice `append(matches1, matches2...)`. -/
def optionMatches (lib : StdLib) (htmlContent : GoString) : List (List GoString) :=
  lib.FindAllStringSubmatch projectPattern1 htmlContent
    ++ lib.FindAllStringSubmatch projectPattern2 htmlContent

/-- The pairs of value and trimmed label of the option elements of the markup whose
trimmed label is not empty and does not contain `select project` in any case. -/
def keptPairs (lib : StdLib) (htmlContent : GoString) : List (GoString × GoString) :=
  ((optionMatches lib htmlContent).map (pairOfMatch lib)).filter
    (fun vn => vn.2 != [] && !Contains (lib.ToLower vn.2) (str "select project"))

/-- The id and the name of a project. -/
def Project.pair (p : Project) : GoString × GoString := (p.ID, p.Name)

/-- The markup `<option value="101">Alpha</option><option value="101">Beta</option>`. -/
def twoLabelMarkup : GoString :=
  str "<option value=\"101\">Alpha</option><option value=\"101\">Beta</option>"

/-- The bytes that an item can consume. -/
def Item.consumes : Item → GoString → Prop
  | .byte b, c => c = [b]
  | .cls p, c => ∃ x, c = [x] ∧ p x = true
  | .star p, c => c.all p = true
  | .plus p, c => c.all p = true ∧ c ≠ []

/-! ## `strings.ToLower` on UTF-8 text

The function lower-cases an ASCII string byte by byte; any other string is decoded rune
by rune, each rune is mapped by `unicode.ToLower` and encoded again, and a byte that starts
no valid encoding becomes U+FFFD. The table of `unicode.ToLower` for the code points above
ASCII is a parameter. -/

/-- A continuation byte of UTF-8, in the range from `lo` to `hi`. -/
def contByte (lo hi : Nat) (b : Byte) : Bool := decide (lo ≤ b.val) && decide (b.val ≤ hi)

/-- The function `utf8.DecodeRuneInString` on a non-empty string with a valid encoding at
its start: the code point and the width; `none` where the library returns `RuneError`
with width 1. -/
def decodeRune : GoString → Option (Nat × Nat)
  | [] => none
  | b0 :: rest =>
    if b0.val < 0x80 then some (b0.val, 1)
    else if 0xC2 ≤ b0.val ∧ b0.val ≤ 0xDF then
      match rest with
      | b1 :: _ =>
        if contByte 0x80 0xBF b1 then some ((b0.val - 0xC0) * 64 + (b1.val - 0x80), 2)
        else none
      | [] => none
    else if 0xE0 ≤ b0.val ∧ b0.val ≤ 0xEF then
      match rest with
      | b1 :: b2 :: _ =>
        if contByte (if b0.val = 0xE0 then 0xA0 else 0x80)
              (if b0.val = 0xED then 0x9F else 0xBF) b1 && contByte 0x80 0xBF b2 then
          some ((b0.val - 0xE0) * 4096 + (b1.val - 0x80) * 64 + (b2.val - 0x80), 3)
        else none
      | _ => none
    else if 0xF0 ≤ b0.val ∧ b0.val ≤ 0xF4 then
      match rest with
      | b1 :: b2 :: b3 :: _ =>
        if contByte (if b0.val = 0xF0 then 0x90 else 0x80)
              (if b0.val = 0xF4 then 0x8F else 0xBF) b1 && contByte 0x80 0xBF b2
            && contByte 0x80 0xBF b3 then
          some ((b0.val - 0xF0) * 262144 + (b1.val - 0x80) * 4096 + (b2.val - 0x80) * 64
            + (b3.val - 0x80), 4)
        else none
      | _ => none
    else none

/-- The byte of a number, modulo 256. -/
def byteOfNat (n : Nat) : Byte := ⟨n % 256, Nat.mod_lt _ (by decide)⟩

/-- The UTF-8 encoding of a code point, as `utf8.AppendRune`: a surrogate or a value
above U+10FFFF is encoded as U+FFFD. -/
def encodeRune (r : Nat) : GoString :=
  if r < 0x80 then [byteOfNat r]
  else if r < 0x800 then [byteOfNat (0xC0 + r / 64), byteOfNat (0x80 + r % 64)]
  else if (0xD800 ≤ r ∧ r ≤ 0xDFFF) ∨ 0x10FFFF < r then [0xEF, 0xBF, 0xBD]
  else if r < 0x10000 then
    [byteOfNat (0xE0 + r / 4096), byteOfNat (0x80 + r / 64 % 64), byteOfNat (0x80 + r % 64)]
  else
    [byteOfNat (0xF0 + r / 262144), byteOfNat (0x80 + r / 4096 % 64),
     byteOfNat (0x80 + r / 64 % 64), byteOfNat (0x80 + r % 64)]

/-- The function `unicode.ToLower`, given its table for the code points above ASCII. -/
def toLowerRune (table : Nat → Nat) (r : Nat) : Nat :=
  if r < 0x80 then (if 65 ≤ r ∧ r ≤ 90 then r + 32 else r) else table r

/-- The call `strings.Map(unicode.ToLower, s)`, with a budget of runes. -/
def mapToLower (table : Nat → Nat) : Nat → GoString → GoString
  | 0, _ => []
  | _ + 1, [] => []
  | fuel + 1, b :: rest =>
    match decodeRune (b :: rest) with
    | some (r, width) =>
      encodeRune (toLowerRune table r) ++ mapToLower table fuel ((b :: rest).drop width)
    | none => [0xEF, 0xBF, 0xBD] ++ mapToLower table fuel rest

/-- The function `strings.ToLower`. -/
def ToLower (table : Nat → Nat) (s : GoString) : GoString :=
  if isASCII s then ToLowerASCII s else mapToLower table s.length s

/-- The entries of the table of `unicode.ToLower` that map a code point above ASCII to an
ASCII letter: U+0130 to `i` and U+212A to `k`. The other entries map code points above
ASCII to code points above ASCII; they are left out, and such a code point is kept. -/
def caseTable (r : Nat) : Nat :=
  if r = 0x130 then 0x69 else if r = 0x212A then 0x6B else r

/-- The library with `strings.ToLower` on UTF-8 text. -/
def unicodeLib (table : Nat → Nat) : StdLib := { goLib with ToLower := ToLower table }

/-- The name `sİd`, with the letter U+0130 encoded as the bytes C4 B0. -/
def dottedName : GoString := [115, 0xC4, 0xB0, 100]

/-! ## Building a client (session.go, client.go) -/

/-- The method `HasValidSession`. -/
def HasValidSession (lib : StdLib) {J : JsonCodec} (sm : SessionManager J) : Bool :=
  (Cookies sm.jar).any (fun c => isSessionCookie lib c.Name)

/-- The function `NewSessionManager`, at the instant `now`: the jar is new, and holds what
`jar.SetCookies` makes of the cookies that `loadCookies` hands to it, if it hands any;
the error of `loadCookies` is dropped. -/
def NewSessionManager (J : JsonCodec) (faults : IOFaults) (now : Int)
    (SetCookies : List Cookie → List Cookie) (userID : GoString) (disk : Disk J.Blob) :
    SessionManager J :=
  match loadCookies J faults now { userID := userID, jar := [], disk := disk } with
  | .ok cookies => { userID := userID, jar := SetCookies cookies, disk := disk }
  | .error _ => { userID := userID, jar := [], disk := disk }

/-- The function `NewClient`, when the base URL is set and parses. -/
def NewClient (lib : StdLib) (J : JsonCodec) (faults : IOFaults) (now : Int)
    (SetCookies : List Cookie → List Cookie) (userID : GoString) (disk : Disk J.Blob) :
    Client J :=
  { sessionManager := NewSessionManager J faults now SetCookies userID disk
    userID := userID
    loggedIn := HasValidSession lib (NewSessionManager J faults now SetCookies userID disk) }

/-! ## The order on Go strings -/

theorem strLt_irrefl (a : GoString) : strLt a a = false := by
  induction a with
  | nil => rfl
  | cons x xs ih => simp [strLt, ih]

theorem strLt_trichotomy (a b : GoString) : strLt a b = true ∨ a = b ∨ strLt b a = true := by
  induction a generalizing b with
  | nil => cases b <;> simp [strLt]
  | cons x xs ih =>
    cases b with
    | nil => simp [strLt]
    | cons y ys =>
      rcases lt_trichotomy x y with h | h | h
      · simp [strLt, h]
      · subst h
        rcases ih ys with h1 | h1 | h1
        · simp [strLt, h1]
        · simp [h1]
        · simp [strLt, h1]
      · simp [strLt, h]

theorem strLt_asymm {a b : GoString} (h : strLt a b = true) : strLt b a = false := by
  induction a generalizing b with
  | nil => cases b <;> simp_all [strLt]
  | cons x xs ih =>
    cases b with
    | nil => simp [strLt] at h
    | cons y ys =>
      rcases lt_trichotomy x y with h1 | h1 | h1
      · simp [strLt, h1, not_lt_of_lt h1]
      · subst h1
        simp [strLt] at h ⊢
        exact ih h
      · simp [strLt, h1, not_lt_of_lt h1] at h

theorem strLt_trans {a b c : GoString} (h1 : strLt a b = true) (h2 : strLt b c = true) :
    strLt a c = true := by
  induction a generalizing b c with
  | nil =>
    cases b with
    | nil => simp [strLt] at h1
    | cons y ys => cases c <;> simp_all [strLt]
  | cons x xs ih =>
    cases b with
    | nil => simp [strLt] at h1
    | cons y ys =>
      cases c with
      | nil => simp [strLt] at h2
      | cons z zs =>
        rcases lt_trichotomy x y with hxy | hxy | hxy
        · rcases lt_trichotomy y z with hyz | hyz | hyz
          · simp [strLt, lt_trans hxy hyz]
          · subst hyz; simp [strLt, hxy]
          · simp [strLt, hyz, not_lt_of_lt hyz] at h2
        · subst hxy
          rcases lt_trichotomy x z with hyz | hyz | hyz
          · simp [strLt, hyz]
          · subst hyz
            simp [strLt] at h1 h2 ⊢
            exact ih h1 h2
          · simp [strLt, hyz, not_lt_of_lt hyz] at h2
        · simp [strLt, hxy, not_lt_of_lt hxy] at h1

instance : IsTotal GoString StrLE :=
  ⟨fun a b => by
    unfold StrLE
    cases h : strLt b a with
    | false => exact Or.inl rfl
    | true => exact Or.inr (strLt_asymm h)⟩

instance : IsTrans GoString StrLE :=
  ⟨fun a b c hab hbc => by
    unfold StrLE at *
    cases h : strLt c a with
    | false => rfl
    | true =>
      rcases strLt_trichotomy a b with h1 | h1 | h1
      · rw [strLt_trans h h1] at hbc; cases hbc
      · subst h1; rw [h] at hbc; cases hbc
      · rw [h1] at hab; cases hab⟩

instance : IsAntisymm GoString StrLE :=
  ⟨fun a b hab hba => by
    unfold StrLE at *
    rcases strLt_trichotomy a b with h1 | h1 | h1
    · rw [h1] at hba; cases hba
    · exact h1
    · rw [h1] at hab; cases hab⟩

theorem sortStrings_sorted (l : List GoString) : (sortStrings l).Sorted StrLE :=
  List.sorted_insertionSort StrLE l

theorem sortStrings_perm (l : List GoString) : (sortStrings l).Perm l :=
  List.perm_insertionSort StrLE l

theorem sortStrings_eq_of_perm {l₁ l₂ : List GoString} (h : l₁.Perm l₂) :
    sortStrings l₁ = sortStrings l₂ :=
  List.eq_of_perm_of_sorted (((sortStrings_perm l₁).trans h).trans (sortStrings_perm l₂).symm)
    (sortStrings_sorted l₁) (sortStrings_sorted l₂)

theorem mem_sortStrings {l : List GoString} {k : GoString} : k ∈ sortStrings l ↔ k ∈ l :=
  (sortStrings_perm l).mem_iff

theorem sortStrings_nodup {l : List GoString} (h : l.Nodup) : (sortStrings l).Nodup :=
  (sortStrings_perm l).nodup_iff.mpr h

/-- A duplicate-free sorted slice is strictly increasing. -/
theorem sortStrings_strict {l : List GoString} (h : l.Nodup) :
    (sortStrings l).Pairwise (fun a b => strLt a b = true) := by
  have hs : (sortStrings l).Pairwise StrLE := sortStrings_sorted l
  have hn : (sortStrings l).Pairwise (fun a b => a ≠ b) := sortStrings_nodup h
  refine (hs.and hn).imp ?_
  intro a b hab
  rcases strLt_trichotomy a b with h1 | h1 | h1
  · exact h1
  · exact absurd h1 hab.2
  · have := hab.1; unfold StrLE at this; rw [h1] at this; cases this

/-! ## Go maps -/

namespace GoMap

variable {β : Type}

theorem keys_set (m : GoMap β) (k : GoString) (v : β) (k' : GoString) :
    k' ∈ (m.set k v).keys ↔ k' = k ∨ k' ∈ m.keys := by
  induction m with
  | nil => simp [set, keys]
  | cons p m ih =>
    obtain ⟨a, b⟩ := p
    unfold set
    by_cases h : a = k
    · subst h; simp [keys]
    · simp only [h, if_false]
      simp only [keys, List.map_cons, List.mem_cons] at ih ⊢
      rw [ih]; tauto

theorem get?_set (m : GoMap β) (k : GoString) (v : β) (k' : GoString) :
    (m.set k v).get? k' = if k' = k then some v else m.get? k' := by
  induction m with
  | nil =>
    by_cases h : k' = k
    · subst h; simp [set, get?]
    · have h' : ¬ k = k' := fun e => h e.symm
      simp [set, get?, h, h']
  | cons p m ih =>
    obtain ⟨a, b⟩ := p
    unfold set
    by_cases h : a = k
    · subst h
      by_cases h2 : k' = a
      · subst h2; simp [get?]
      · have h' : ¬ a = k' := fun e => h2 e.symm
        simp [get?, h2, h']
    · simp only [h, if_false]
      by_cases h2 : a = k'
      · subst h2
        have h' : ¬ a = k := h
        simp [get?, h']
      · simp [get?, h2, ih]

theorem nodup_keys_set (m : GoMap β) (k : GoString) (v : β) (h : m.keys.Nodup) :
    (m.set k v).keys.Nodup := by
  induction m with
  | nil => simp [set, keys]
  | cons p m ih =>
    obtain ⟨a, b⟩ := p
    unfold set
    by_cases h1 : a = k
    · subst h1; simpa [keys] using h
    · simp only [h1, if_false]
      have h2 : a ∉ keys m ∧ (keys m).Nodup := by simpa [keys] using h
      have h3 := ih h2.2
      have h4 : a ∉ keys (set m k v) := by
        rw [keys_set]; intro hc; rcases hc with hc | hc
        · exact h1 hc
        · exact h2.1 hc
      simp only [keys, List.map_cons, List.nodup_cons] at h3 h4 ⊢
      exact ⟨h4, h3⟩

theorem get?_isSome (m : GoMap β) (k : GoString) : (m.get? k).isSome ↔ k ∈ m.keys := by
  induction m with
  | nil => simp [get?, keys]
  | cons p m ih =>
    obtain ⟨a, b⟩ := p
    by_cases h : a = k
    · subst h; simp [get?, keys]
    · have h' : ¬ k = a := fun e => h e.symm
      simp only [get?, h, if_false, ih]
      simp [keys, h']

theorem writeAll_nil (m : GoMap β) : m.writeAll [] = m := rfl

theorem writeAll_cons (m : GoMap β) (w : GoString × β) (ws : List (GoString × β)) :
    m.writeAll (w :: ws) = (m.set w.1 w.2).writeAll ws := rfl

theorem writeAll_append (m : GoMap β) (ws₁ ws₂ : List (GoString × β)) :
    m.writeAll (ws₁ ++ ws₂) = (m.writeAll ws₁).writeAll ws₂ := by
  simp [writeAll, List.foldl_append]

theorem keys_writeAll (m : GoMap β) (ws : List (GoString × β)) (k : GoString) :
    k ∈ (m.writeAll ws).keys ↔ k ∈ ws.map Prod.fst ∨ k ∈ m.keys := by
  induction ws generalizing m with
  | nil => simp [writeAll]
  | cons w ws ih =>
    rw [writeAll_cons, ih, keys_set]
    simp only [List.map_cons, List.mem_cons]
    tauto

theorem nodup_keys_writeAll (m : GoMap β) (ws : List (GoString × β)) (h : m.keys.Nodup) :
    (m.writeAll ws).keys.Nodup := by
  induction ws generalizing m with
  | nil => simpa [writeAll] using h
  | cons w ws ih => rw [writeAll_cons]; exact ih _ (nodup_keys_set m _ _ h)

/-- A key that the run does not write keeps its value. -/
theorem get?_writeAll_of_not_mem (m : GoMap β) (ws : List (GoString × β)) (k : GoString)
    (h : k ∉ ws.map Prod.fst) : (m.writeAll ws).get? k = m.get? k := by
  induction ws generalizing m with
  | nil => rfl
  | cons w ws ih =>
    simp only [List.map_cons, List.mem_cons, not_or] at h
    rw [writeAll_cons, ih _ h.2, get?_set, if_neg h.1]

/-- A run whose writes to `k` all store `v`, and that writes `k`, leaves `v` there. -/
theorem get?_writeAll_of_forall (m : GoMap β) (ws : List (GoString × β)) (k : GoString) (v : β)
    (hk : k ∈ ws.map Prod.fst) (hv : ∀ w ∈ ws, w.1 = k → w.2 = v) :
    (m.writeAll ws).get? k = some v := by
  induction ws generalizing m with
  | nil => simp at hk
  | cons w ws ih =>
    rw [writeAll_cons]
    by_cases h : k ∈ ws.map Prod.fst
    · exact ih _ h (fun w' hw' => hv w' (List.mem_cons_of_mem _ hw'))
    · rw [get?_writeAll_of_not_mem _ _ _ h, get?_set]
      have h1 : k = w.1 := by
        simp only [List.map_cons, List.mem_cons] at hk
        rcases hk with hk | hk
        · exact hk
        · exact absurd hk h
      rw [if_pos h1, hv w (List.mem_cons_self _ _) h1.symm]

end GoMap

/-! ## Decimal numerals -/

theorem isDigit_digitByte (d : Nat) : isDigit (digitByte d) = true := by
  simp only [isDigit, digitByte, Bool.and_eq_true, decide_eq_true_eq, Fin.le_def]
  constructor
  · show 48 ≤ 48 + d % 10; omega
  · show 48 + d % 10 ≤ 57; omega

theorem decDigits_isDigit (fuel n : Nat) : ∀ b ∈ decDigits fuel n, isDigit b = true := by
  induction fuel generalizing n with
  | zero => simp [decDigits]
  | succ f ih =>
    intro b hb
    unfold decDigits at hb
    split at hb
    · simp only [List.mem_singleton] at hb; subst hb; exact isDigit_digitByte n
    · simp only [List.mem_append, List.mem_singleton] at hb
      rcases hb with hb | hb
      · exact ih _ b hb
      · subst hb; exact isDigit_digitByte n

theorem decDigits_ne_nil (fuel n : Nat) : decDigits (fuel + 1) n ≠ [] := by
  unfold decDigits
  split <;> simp

theorem decVal_append_singleton (s : GoString) (b : Byte) :
    decVal (s ++ [b]) = decVal s * 10 + (b.val - 48) := by
  simp [decVal, List.foldl_append]

theorem decVal_decDigits (fuel n : Nat) (h : n < fuel) : decVal (decDigits fuel n) = n := by
  induction fuel generalizing n with
  | zero => omega
  | succ f ih =>
    unfold decDigits
    split
    · rename_i h10
      simp only [decVal, List.foldl_cons, List.foldl_nil, digitByte]
      omega
    · rename_i h10
      rw [decVal_append_singleton, ih (n / 10) (by omega)]
      simp only [digitByte]
      omega

theorem natDec_isDigit (n : Nat) : ∀ b ∈ natDec n, isDigit b = true :=
  decDigits_isDigit (n + 1) n

theorem natDec_ne_nil (n : Nat) : natDec n ≠ [] := decDigits_ne_nil n n

theorem decVal_natDec (n : Nat) : decVal (natDec n) = n :=
  decVal_decDigits (n + 1) n (Nat.lt_succ_self n)

theorem natDec_injective {i j : Nat} (h : natDec i = natDec j) : i = j := by
  rw [← decVal_natDec i, ← decVal_natDec j, h]

/-- Splitting at the first occurrence of a byte is unambiguous. -/
theorem append_cons_inj {a : Byte} {l₁ l₂ r₁ r₂ : GoString} (h₁ : a ∉ l₁) (h₂ : a ∉ l₂)
    (h : l₁ ++ a :: r₁ = l₂ ++ a :: r₂) : l₁ = l₂ ∧ r₁ = r₂ := by
  induction l₁ generalizing l₂ with
  | nil =>
    cases l₂ with
    | nil => simpa using h
    | cons y ys =>
      simp only [List.nil_append, List.cons_append, List.cons.injEq] at h
      exact absurd (h.1 ▸ List.mem_cons_self _ _) h₂
  | cons x xs ih =>
    cases l₂ with
    | nil =>
      simp only [List.nil_append, List.cons_append, List.cons.injEq] at h
      exact absurd (h.1 ▸ List.mem_cons_self _ _) h₁
    | cons y ys =>
      simp only [List.cons_append, List.cons.injEq] at h
      have := ih (fun hc => h₁ (List.mem_cons_of_mem _ hc)) (fun hc => h₂ (List.mem_cons_of_mem _ hc)) h.2
      exact ⟨by rw [h.1, this.1], this.2⟩

theorem underscore_not_mem_natDec (n : Nat) : (95 : Byte) ∉ natDec n := by
  intro h
  have := natDec_isDigit n _ h
  revert this; decide

/-! ## Field names -/

theorem append_ne_of_diverge {p q : GoString} (h : diverge p q = true) (x y : GoString) :
    p ++ x ≠ q ++ y := by
  induction p generalizing q with
  | nil => simp [diverge] at h
  | cons a as ih =>
    cases q with
    | nil => simp [diverge] at h
    | cons b bs =>
      simp only [diverge, Bool.or_eq_true, bne_iff_ne, ne_eq] at h
      simp only [List.cons_append, ne_eq, List.cons.injEq, not_and]
      intro hab
      rcases h with h | h
      · exact absurd hab h
      · exact ih h

theorem hasPrefix_of_diverge {p q : GoString} (h : diverge p q = true) (x : GoString) :
    HasPrefix (p ++ x) q = false := by
  induction p generalizing q with
  | nil => simp [diverge] at h
  | cons a as ih =>
    cases q with
    | nil => simp [diverge] at h
    | cons b bs =>
      simp only [diverge, Bool.or_eq_true, bne_iff_ne, ne_eq] at h
      simp only [HasPrefix, List.cons_append, List.isPrefixOf, Bool.and_eq_false_imp, beq_iff_eq]
      intro hab
      rcases h with h | h
      · exact absurd hab.symm h
      · exact ih h

theorem hasPrefix_of_isPrefixOf {p q : GoString} (h : q.isPrefixOf p = true) (x : GoString) :
    HasPrefix (p ++ x) q = true := by
  unfold HasPrefix
  rw [List.isPrefixOf_iff_prefix] at h ⊢
  exact h.trans (List.prefix_append p x)

theorem fmtD_inj (pre : String) {i j : Nat} (h : fmtD pre i = fmtD pre j) : i = j :=
  natDec_injective (List.append_cancel_left h)

theorem fmtDD_eq (pre : String) (i d : Nat) :
    fmtDD pre i d = str pre ++ (natDec i ++ (95 : Byte) :: natDec d) := by
  simp [fmtDD, show str "_" = [(95 : Byte)] from rfl]

theorem fmtDD_inj (pre : String) {i j d e : Nat} (h : fmtDD pre i d = fmtDD pre j e) :
    i = j ∧ d = e := by
  rw [fmtDD_eq, fmtDD_eq] at h
  have := append_cons_inj (underscore_not_mem_natDec i) (underscore_not_mem_natDec j)
    (List.append_cancel_left h)
  exact ⟨natDec_injective this.1, natDec_injective this.2⟩

theorem fmtD_ne_of_diverge {p q : String} (h : diverge (str p) (str q) = true) (i j : Nat) :
    fmtD p i ≠ fmtD q j := append_ne_of_diverge h _ _


/-! ## `params` as a run of assignments -/

namespace SaveWeekTimecard

variable (fl : Float64Model)

theorem foldl_set_eq_writeAll {α : Type} (g : α → List (GoString × GoString))
    (step : GoMap GoString → α → GoMap GoString)
    (h : ∀ m x, step m x = GoMap.writeAll m (g x)) (l : List α) (m : GoMap GoString) :
    l.foldl step m = GoMap.writeAll m (l.flatMap g) := by
  induction l generalizing m with
  | nil => rfl
  | cons x xs ih =>
    rw [List.foldl_cons, ih, h, List.flatMap_cons, GoMap.writeAll_append]

theorem foldl_params_eq_writeAll {α : Type} (g : α → List (GoString × GoString))
    (step : SaveState fl.F → α → SaveState fl.F)
    (h : ∀ st x, (step st x).params = GoMap.writeAll st.params (g x)) (l : List α)
    (st : SaveState fl.F) :
    (l.foldl step st).params = GoMap.writeAll st.params (l.flatMap g) := by
  induction l generalizing st with
  | nil => rfl
  | cons x xs ih =>
    rw [List.foldl_cons, ih, h, List.flatMap_cons, GoMap.writeAll_append]

theorem dayStep_params (idx : Nat) (st : SaveState fl.F) (d : Nat × SaveDayEntry fl.F) :
    (dayStep fl idx st d).params = GoMap.writeAll st.params (dayWrites fl idx d) := rfl

theorem entryStep_params (st : SaveState fl.F) (e : Nat × SaveEntry fl.F) :
    (entryStep fl st e).params = GoMap.writeAll st.params (entryWrites fl e) := by
  unfold entryStep entryWrites
  by_cases h : e.2.ProjectID = []
  · simp [h, GoMap.writeAll]
  · simp only [h, if_false]
    rw [foldl_params_eq_writeAll fl (dayWrites fl e.1) (dayStep fl e.1) (dayStep_params fl e.1),
      GoMap.writeAll_append]
    rfl

theorem afterEntries_params (entries : List (SaveEntry fl.F)) :
    (afterEntries fl entries).params
      = GoMap.writeAll [] (entries.enum.flatMap (entryWrites fl)) := by
  unfold afterEntries
  rw [foldl_params_eq_writeAll fl (entryWrites fl) (entryStep fl) (entryStep_params fl)]

theorem fillStep_eq (m : GoMap GoString) (i : Nat) :
    fillStep m i = GoMap.writeAll m (fillWrites i) := by
  unfold fillStep fillWrites
  rw [GoMap.writeAll_append,
    foldl_set_eq_writeAll (fun dayIdx => [(fmtDD "note" i dayIdx, []), (fmtDD "progress" i dayIdx, [])])]
  · rfl
  · intro m x; rfl

theorem overStep_eq (m : GoMap GoString) (i : Nat) :
    overStep m i = GoMap.writeAll m (overWrites i) := by
  unfold overStep overWrites
  rw [GoMap.writeAll_cons,
    foldl_set_eq_writeAll (fun dayIdx =>
        [(fmtDD "overrecord" i dayIdx, []), (fmtDD "overnote" i dayIdx, []),
         (fmtDD "overprogress" i dayIdx, str "0")])]
  intro m x; rfl

theorem afterFill_eq (n : Nat) (m : GoMap GoString) :
    afterFill n m = GoMap.writeAll m ((List.range' n (25 - n)).flatMap fillWrites) :=
  foldl_set_eq_writeAll fillWrites fillStep fillStep_eq _ m

theorem afterTotals_eq (totals : List fl.F) (m : GoMap GoString) :
    afterTotals fl totals m = GoMap.writeAll m (totalWrites fl totals) := by
  unfold afterTotals totalWrites GoMap.writeAll
  rw [List.foldl_map]

theorem afterOver_eq (m : GoMap GoString) :
    afterOver m = GoMap.writeAll (GoMap.writeAll m ((List.range 25).flatMap overWrites))
      oveTotalWrites := by
  unfold afterOver
  rw [foldl_set_eq_writeAll overWrites overStep overStep_eq]
  unfold oveTotalWrites GoMap.writeAll
  rw [List.foldl_map]

theorem params_eq_writeAll (entries : List (SaveEntry fl.F)) :
    params fl entries = GoMap.writeAll [] (writes fl entries) := by
  unfold params writes
  simp only [GoMap.writeAll_append]
  rw [afterOver_eq, afterTotals_eq, afterFill_eq, afterEntries_params]

theorem hoursTotals_length (totals : List fl.F) (d : Nat) (h : HoursValue fl.F) :
    (hoursTotals fl totals d h).length = totals.length := by
  cases h with
  | float64 v => simp [hoursTotals, addTotal]
  | int v => simp [hoursTotals, addTotal]
  | string v =>
    simp only [hoursTotals]
    split <;> simp [addTotal]
  | other => rfl

theorem foldl_dayStep_length (idx : Nat) (l : List (Nat × SaveDayEntry fl.F))
    (st : SaveState fl.F) :
    (l.foldl (dayStep fl idx) st).dailyTotals.length = st.dailyTotals.length := by
  induction l generalizing st with
  | nil => rfl
  | cons x xs ih =>
    rw [List.foldl_cons, ih]
    exact hoursTotals_length fl _ _ _

theorem entryStep_length (st : SaveState fl.F) (e : Nat × SaveEntry fl.F) :
    (entryStep fl st e).dailyTotals.length = st.dailyTotals.length := by
  unfold entryStep
  by_cases h : e.2.ProjectID = []
  · simp [h]
  · simp only [h, if_false]
    rw [foldl_dayStep_length]

theorem afterEntries_length (entries : List (SaveEntry fl.F)) :
    (afterEntries fl entries).dailyTotals.length = 7 := by
  unfold afterEntries
  have : ∀ (l : List (Nat × SaveEntry fl.F)) (st : SaveState fl.F),
      (l.foldl (entryStep fl) st).dailyTotals.length = st.dailyTotals.length := by
    intro l
    induction l with
    | nil => intro st; rfl
    | cons x xs ih => intro st; rw [List.foldl_cons, ih, entryStep_length]
  rw [this]; simp

end SaveWeekTimecard

namespace SaveWeekTimecard

variable (fl : Float64Model)

theorem mem_take7_enum {α : Type} (l : List α) (d : Nat) (x : α) :
    (d, x) ∈ (l.take 7).enum ↔ d < 7 ∧ l[d]? = some x := by
  rw [List.mk_mem_enum_iff_getElem?, List.getElem?_take]
  by_cases h : d < 7 <;> simp [h]

theorem mem_entryWrites (e : Nat × SaveEntry fl.F) (k v : GoString) :
    (k, v) ∈ entryWrites fl e ↔
      e.2.ProjectID ≠ [] ∧
        ((k, v) = (fmtD "project" e.1, e.2.ProjectID) ∨
         (k, v) = (fmtD "activity" e.1, activityData fl e.2) ∨
         (k, v) = (fmtD "actprogress" e.1, Itoa e.2.Progress) ∨
         ∃ d day, d < 7 ∧ e.2.Days[d]? = some day ∧
           ((k, v) = (fmtDD "record" e.1 d, hoursStr fl day.Hours) ∨
            (k, v) = (fmtDD "note" e.1 d, day.Note) ∨
            (k, v) = (fmtDD "progress" e.1 d, Itoa day.Progress))) := by
  unfold entryWrites
  by_cases h : e.2.ProjectID = []
  · simp [h]
  · simp only [h, if_false, List.mem_append, List.mem_cons, List.mem_singleton, List.mem_flatMap,
      Prod.exists, mem_take7_enum, dayWrites, ne_eq, not_false_eq_true, true_and,
      List.not_mem_nil, or_false]
    constructor
    · rintro (h1 | ⟨d, day, ⟨hd, hday⟩, h2⟩)
      · tauto
      · exact Or.inr (Or.inr (Or.inr ⟨d, day, hd, hday, h2⟩))
    · rintro (h1 | h1 | h1 | ⟨d, day, hd, hday, h2⟩)
      · tauto
      · tauto
      · tauto
      · exact Or.inr ⟨d, day, ⟨hd, hday⟩, h2⟩

theorem mem_fillWrites (i : Nat) (k v : GoString) :
    (k, v) ∈ fillWrites i ↔
      v = [] ∧ (k = fmtD "project" i ∨ k = fmtD "activity" i ∨ k = fmtD "actprogress" i ∨
        ∃ d, d < 7 ∧ (k = fmtDD "note" i d ∨ k = fmtDD "progress" i d)) := by
  unfold fillWrites
  simp only [List.mem_append, List.mem_cons, List.mem_singleton, List.mem_flatMap,
    List.mem_range, Prod.mk.injEq, List.not_mem_nil, or_false]
  constructor
  · rintro ((h | h | h) | ⟨d, hd, h | h⟩)
    · exact ⟨h.2, Or.inl h.1⟩
    · exact ⟨h.2, Or.inr (Or.inl h.1)⟩
    · exact ⟨h.2, Or.inr (Or.inr (Or.inl h.1))⟩
    · exact ⟨h.2, Or.inr (Or.inr (Or.inr ⟨d, hd, Or.inl h.1⟩))⟩
    · exact ⟨h.2, Or.inr (Or.inr (Or.inr ⟨d, hd, Or.inr h.1⟩))⟩
  · rintro ⟨hv, h | h | h | ⟨d, hd, h | h⟩⟩
    · exact Or.inl (Or.inl ⟨h, hv⟩)
    · exact Or.inl (Or.inr (Or.inl ⟨h, hv⟩))
    · exact Or.inl (Or.inr (Or.inr ⟨h, hv⟩))
    · exact Or.inr ⟨d, hd, Or.inl ⟨h, hv⟩⟩
    · exact Or.inr ⟨d, hd, Or.inr ⟨h, hv⟩⟩

theorem mem_overWrites (i : Nat) (k v : GoString) :
    (k, v) ∈ overWrites i ↔
      (k = fmtD "overactprogress" i ∧ v = str "0") ∨
        ∃ d, d < 7 ∧ ((k = fmtDD "overrecord" i d ∧ v = []) ∨
          (k = fmtDD "overnote" i d ∧ v = []) ∨ (k = fmtDD "overprogress" i d ∧ v = str "0")) := by
  unfold overWrites
  simp only [List.mem_cons, List.mem_flatMap, List.mem_range, Prod.mk.injEq, List.not_mem_nil,
    or_false]

theorem mem_totalWrites (totals : List fl.F) (k v : GoString) :
    (k, v) ∈ totalWrites fl totals ↔
      ∃ d, d < totals.length ∧ k = fmtD "norTotal" d ∧
        v = fl.formatFloat (totals.getD d fl.zero) := by
  unfold totalWrites
  simp only [List.mem_map, Prod.exists, List.mk_mem_enum_iff_getElem?, Prod.mk.injEq]
  constructor
  · rintro ⟨d, t, ht, hk, hv⟩
    obtain ⟨hlt, hget⟩ := List.getElem?_eq_some.mp ht
    refine ⟨d, hlt, hk.symm, ?_⟩
    rw [List.getD_eq_getElem?_getD, ht]
    exact hv.symm
  · rintro ⟨d, hd, hk, hv⟩
    refine ⟨d, totals[d], by simp [hd], hk.symm, ?_⟩
    rw [hv, List.getD_eq_getElem?_getD]
    simp [hd]

theorem mem_oveTotalWrites (k v : GoString) :
    (k, v) ∈ oveTotalWrites ↔ ∃ d, d < 7 ∧ k = fmtD "oveTotal" d ∧ v = str "0" := by
  unfold oveTotalWrites
  simp only [List.mem_map, List.mem_range, Prod.mk.injEq]
  constructor
  · rintro ⟨d, hd, hk, hv⟩; exact ⟨d, hd, hk.symm, hv.symm⟩
  · rintro ⟨d, hd, hk, hv⟩; exact ⟨d, hd, hk.symm, hv.symm⟩

/-- The assignments of the code are exactly the ones `Written` lists. -/
theorem mem_writes_iff (entries : List (SaveEntry fl.F)) (k v : GoString) :
    (k, v) ∈ writes fl entries ↔ Written fl entries k v := by
  unfold writes
  simp only [List.mem_append, List.mem_flatMap, Prod.exists, List.mk_mem_enum_iff_getElem?,
    mem_entryWrites, mem_fillWrites, mem_overWrites, mem_totalWrites, mem_oveTotalWrites,
    List.mem_range'_1, List.mem_range, afterEntries_length, Prod.mk.injEq]
  constructor
  · rintro ((((⟨idx, e, he, hp, h⟩ | ⟨i, ⟨h1, h2⟩, hv, h⟩) | ⟨d, hd, hk, hv⟩) | ⟨i, hi, h⟩) |
      ⟨d, hd, hk, hv⟩)
    · rcases h with ⟨hk, hv⟩ | ⟨hk, hv⟩ | ⟨hk, hv⟩ | ⟨d, day, hd, hday, h⟩
      · subst hk hv; exact .project idx e he hp
      · subst hk hv; exact .activity idx e he hp
      · subst hk hv; exact .actprogress idx e he hp
      · rcases h with ⟨hk, hv⟩ | ⟨hk, hv⟩ | ⟨hk, hv⟩
        · subst hk hv; exact .record idx e he hp d day hd hday
        · subst hk hv; exact .note idx e he hp d day hd hday
        · subst hk hv; exact .progress idx e he hp d day hd hday
    · have h2 : i < 25 := by omega
      subst hv
      rcases h with hk | hk | hk | ⟨d, hd, hk | hk⟩
      · subst hk; exact .fillProject i h1 h2
      · subst hk; exact .fillActivity i h1 h2
      · subst hk; exact .fillActprogress i h1 h2
      · subst hk; exact .fillNote i h1 h2 d hd
      · subst hk; exact .fillProgress i h1 h2 d hd
    · subst hk hv; exact .norTotal d hd
    · rcases h with ⟨hk, hv⟩ | ⟨d, hd, ⟨hk, hv⟩ | ⟨hk, hv⟩ | ⟨hk, hv⟩⟩
      · subst hk hv; exact .overactprogress i hi
      · subst hk hv; exact .overrecord i hi d hd
      · subst hk hv; exact .overnote i hi d hd
      · subst hk hv; exact .overprogress i hi d hd
    · subst hk hv; exact .oveTotal d hd
  · intro h
    cases h with
    | project idx e h hp => exact Or.inl (Or.inl (Or.inl (Or.inl ⟨idx, e, h, hp, Or.inl ⟨rfl, rfl⟩⟩)))
    | activity idx e h hp =>
      exact Or.inl (Or.inl (Or.inl (Or.inl ⟨idx, e, h, hp, Or.inr (Or.inl ⟨rfl, rfl⟩)⟩)))
    | actprogress idx e h hp =>
      exact Or.inl (Or.inl (Or.inl (Or.inl ⟨idx, e, h, hp, Or.inr (Or.inr (Or.inl ⟨rfl, rfl⟩))⟩)))
    | record idx e h hp d day hd hday =>
      exact Or.inl (Or.inl (Or.inl (Or.inl ⟨idx, e, h, hp,
        Or.inr (Or.inr (Or.inr ⟨d, day, hd, hday, Or.inl ⟨rfl, rfl⟩⟩))⟩)))
    | note idx e h hp d day hd hday =>
      exact Or.inl (Or.inl (Or.inl (Or.inl ⟨idx, e, h, hp,
        Or.inr (Or.inr (Or.inr ⟨d, day, hd, hday, Or.inr (Or.inl ⟨rfl, rfl⟩)⟩))⟩)))
    | progress idx e h hp d day hd hday =>
      exact Or.inl (Or.inl (Or.inl (Or.inl ⟨idx, e, h, hp,
        Or.inr (Or.inr (Or.inr ⟨d, day, hd, hday, Or.inr (Or.inr ⟨rfl, rfl⟩)⟩))⟩)))
    | fillProject i h1 h2 =>
      exact Or.inl (Or.inl (Or.inl (Or.inr ⟨i, ⟨h1, by omega⟩, rfl, Or.inl rfl⟩)))
    | fillActivity i h1 h2 =>
      exact Or.inl (Or.inl (Or.inl (Or.inr ⟨i, ⟨h1, by omega⟩, rfl, Or.inr (Or.inl rfl)⟩)))
    | fillActprogress i h1 h2 =>
      exact Or.inl (Or.inl (Or.inl (Or.inr ⟨i, ⟨h1, by omega⟩, rfl,
        Or.inr (Or.inr (Or.inl rfl))⟩)))
    | fillNote i h1 h2 d hd =>
      exact Or.inl (Or.inl (Or.inl (Or.inr ⟨i, ⟨h1, by omega⟩, rfl,
        Or.inr (Or.inr (Or.inr ⟨d, hd, Or.inl rfl⟩))⟩)))
    | fillProgress i h1 h2 d hd =>
      exact Or.inl (Or.inl (Or.inl (Or.inr ⟨i, ⟨h1, by omega⟩, rfl,
        Or.inr (Or.inr (Or.inr ⟨d, hd, Or.inr rfl⟩))⟩)))
    | norTotal d hd => exact Or.inl (Or.inl (Or.inr ⟨d, hd, rfl, rfl⟩))
    | overactprogress i h => exact Or.inl (Or.inr ⟨i, h, Or.inl ⟨rfl, rfl⟩⟩)
    | overrecord i h d hd => exact Or.inl (Or.inr ⟨i, h, Or.inr ⟨d, hd, Or.inl ⟨rfl, rfl⟩⟩⟩)
    | overnote i h d hd =>
      exact Or.inl (Or.inr ⟨i, h, Or.inr ⟨d, hd, Or.inr (Or.inl ⟨rfl, rfl⟩)⟩⟩)
    | overprogress i h d hd =>
      exact Or.inl (Or.inr ⟨i, h, Or.inr ⟨d, hd, Or.inr (Or.inr ⟨rfl, rfl⟩)⟩⟩)
    | oveTotal d hd => exact Or.inr ⟨d, hd, rfl, rfl⟩

/-- The keys of `params` are the keys some statement assigns. -/
theorem mem_keys_params (entries : List (SaveEntry fl.F)) (k : GoString) :
    k ∈ (params fl entries).keys ↔ ∃ v, Written fl entries k v := by
  rw [params_eq_writeAll, GoMap.keys_writeAll]
  simp only [List.mem_map, Prod.exists, exists_and_right, exists_eq_right, GoMap.keys,
    List.map_nil, List.not_mem_nil, or_false]
  exact exists_congr (fun v => mem_writes_iff fl entries k v)

/-- A key whose assignments all store `v` holds `v`. -/
theorem get?_params (entries : List (SaveEntry fl.F)) (k v : GoString)
    (h : Written fl entries k v) (hu : ∀ v', Written fl entries k v' → v' = v) :
    (params fl entries).get? k = some v := by
  rw [params_eq_writeAll]
  apply GoMap.get?_writeAll_of_forall
  · exact List.mem_map.mpr ⟨(k, v), (mem_writes_iff fl entries k v).mpr h, rfl⟩
  · rintro ⟨k', v'⟩ hw hk
    simp only at hk
    subst hk
    exact hu v' ((mem_writes_iff fl entries k' v').mp hw)

theorem get?_params_none (entries : List (SaveEntry fl.F)) (k : GoString)
    (h : ∀ v, ¬ Written fl entries k v) : (params fl entries).get? k = none := by
  have h1 : ¬ k ∈ (params fl entries).keys := by
    rw [mem_keys_params]; rintro ⟨v, hv⟩; exact h v hv
  rw [← GoMap.get?_isSome] at h1
  simpa using h1

theorem nodup_keys_params (entries : List (SaveEntry fl.F)) :
    (params fl entries).keys.Nodup := by
  rw [params_eq_writeAll]
  exact GoMap.nodup_keys_writeAll _ _ (by simp [GoMap.keys])

end SaveWeekTimecard

/-! ## `url.QueryEscape` -/

theorem unhex_upperhex (n : Nat) (h : n < 16) : unhex (upperhex n) = some n := by
  interval_cases n <;> decide

theorem unreserved_ne_special {c : Byte} (h : unreserved c = true) : c ≠ 37 ∧ c ≠ 43 ∧ c ≠ 38 := by
  refine ⟨?_, ?_, ?_⟩ <;> (rintro rfl; revert h; decide)

theorem formSafe_upperhex (n : Nat) : formSafe (upperhex n) = true := by
  have h : ∀ m, m < 16 → formSafe (upperhex m) = true := by
    intro m hm; interval_cases m <;> decide
  have h2 : upperhex n = upperhex (n % 16) := by simp [upperhex]
  rw [h2]; exact h _ (Nat.mod_lt _ (by decide))

theorem escapeByte_safe (c b : Byte) (h : b ∈ escapeByte c) : formSafe b = true := by
  unfold escapeByte at h
  split at h
  · simp only [List.mem_singleton] at h; subst h; decide
  · split at h
    · rename_i hu
      simp only [List.mem_singleton] at h; subst h
      simp [formSafe, hu]
    · simp only [List.mem_cons, List.mem_singleton, List.not_mem_nil, or_false] at h
      rcases h with h | h | h
      · subst h; decide
      · subst h; exact formSafe_upperhex _
      · subst h; exact formSafe_upperhex _

/-- Every byte of an escaped value is a letter, a digit, `-`, `_`, `.`, `~`, `+` or part
of a `%XX` escape. -/
theorem QueryEscape_safe (s : GoString) : ∀ b ∈ QueryEscape s, formSafe b = true := by
  induction s with
  | nil => simp [QueryEscape]
  | cons c rest ih =>
    intro b hb
    simp only [QueryEscape, List.mem_append] at hb
    rcases hb with hb | hb
    · exact escapeByte_safe c b hb
    · exact ih b hb

theorem QueryUnescape_plus (r : GoString) :
    QueryUnescape ((43 : Byte) :: r) = (QueryUnescape r).map ((32 : Byte) :: ·) := by
  cases r with
  | nil => rfl
  | cons a r => cases r <;> rfl

theorem QueryUnescape_plain (c : Byte) (r : GoString) (h37 : c ≠ 37) (h43 : c ≠ 43) :
    QueryUnescape (c :: r) = (QueryUnescape r).map (c :: ·) := by
  cases r with
  | nil => simp [QueryUnescape, h37, h43]
  | cons a r => cases r <;> simp [QueryUnescape, h37, h43]

theorem QueryUnescape_percent (h l : Byte) (r : GoString) (a b : Nat) (ha : unhex h = some a)
    (hb : unhex l = some b) :
    QueryUnescape ((37 : Byte) :: h :: l :: r)
      = (QueryUnescape r).map
          ((⟨(a * 16 + b) % 256, Nat.mod_lt _ (by decide)⟩ : Byte) :: ·) := by
  rw [QueryUnescape]
  simp only [if_true, ha, hb]
  cases QueryUnescape r <;> rfl

theorem QueryUnescape_escapeByte_append (c : Byte) (r : GoString) :
    QueryUnescape (escapeByte c ++ r) = (QueryUnescape r).map (c :: ·) := by
  unfold escapeByte
  split
  · rename_i h; subst h
    exact QueryUnescape_plus r
  · split
    · rename_i h1 hu
      obtain ⟨h37, h43, _⟩ := unreserved_ne_special hu
      exact QueryUnescape_plain c r h37 h43
    · have h1 : c.val / 16 < 16 := by omega
      have h2 : c.val % 16 < 16 := by omega
      have h3 : (⟨(c.val / 16 * 16 + c.val % 16) % 256, Nat.mod_lt _ (by decide)⟩ : Byte) = c := by
        apply Fin.ext
        show (c.val / 16 * 16 + c.val % 16) % 256 = c.val
        omega
      show QueryUnescape ((37 : Byte) :: upperhex (c.val / 16) :: upperhex (c.val % 16) :: r) = _
      rw [QueryUnescape_percent _ _ r _ _ (unhex_upperhex _ h1) (unhex_upperhex _ h2), h3]

/-- Decoding an escaped value gives the value back. -/
theorem QueryUnescape_QueryEscape (s : GoString) : QueryUnescape (QueryEscape s) = some s := by
  induction s with
  | nil => rfl
  | cons c rest ih =>
    simp only [QueryEscape]
    rw [QueryUnescape_escapeByte_append, ih]
    rfl

/-! ## Splitting the body at `&` -/

theorem formSafe_ne_amp {b : Byte} (h : formSafe b = true) : b ≠ 38 := by
  rintro rfl; revert h; decide

theorem splitAmp_ne_nil (s : GoString) : splitAmp s ≠ [] := by
  induction s with
  | nil => simp [splitAmp]
  | cons c rest ih =>
    unfold splitAmp
    split
    · simp
    · split <;> simp

theorem splitAmp_of_no_amp (s : GoString) (h : ∀ b ∈ s, b ≠ 38) : splitAmp s = [s] := by
  induction s with
  | nil => rfl
  | cons c rest ih =>
    have hc : c ≠ 38 := h c (List.mem_cons_self _ _)
    have hr := ih (fun b hb => h b (List.mem_cons_of_mem _ hb))
    simp [splitAmp, hc, hr]

theorem splitAmp_append_amp (s t : GoString) (h : ∀ b ∈ s, b ≠ 38) :
    splitAmp (s ++ (38 : Byte) :: t) = s :: splitAmp t := by
  induction s with
  | nil => simp [splitAmp]
  | cons c rest ih =>
    have hc : c ≠ 38 := h c (List.mem_cons_self _ _)
    have hr := ih (fun b hb => h b (List.mem_cons_of_mem _ hb))
    simp [splitAmp, hc, hr]

/-- Splitting a joined list of parts that contain no `&` gives the parts back. -/
theorem splitAmp_Join (parts : List GoString) (hne : parts ≠ [])
    (h : ∀ p ∈ parts, ∀ b ∈ p, b ≠ 38) : splitAmp (Join parts (str "&")) = parts := by
  induction parts with
  | nil => exact absurd rfl hne
  | cons a rest ih =>
    cases rest with
    | nil => simpa [Join] using splitAmp_of_no_amp a (h a (List.mem_cons_self _ _))
    | cons b rest2 =>
      have h1 : Join (a :: b :: rest2) (str "&") = a ++ (38 : Byte) :: Join (b :: rest2) (str "&") := by
        simp [Join, show str "&" = [(38 : Byte)] from rfl]
      rw [h1, splitAmp_append_amp _ _ (h a (List.mem_cons_self _ _)),
        ih (by simp) (fun p hp => h p (List.mem_cons_of_mem _ hp))]

/-! ## Field names: equalities and prefixes -/

theorem fmtD_eq_iff (pre : String) (i j : Nat) : fmtD pre i = fmtD pre j ↔ i = j :=
  ⟨fmtD_inj pre, fun h => by rw [h]⟩

theorem fmtDD_eq_iff (pre : String) (i j d e : Nat) :
    fmtDD pre i d = fmtDD pre j e ↔ i = j ∧ d = e :=
  ⟨fmtDD_inj pre, fun h => by rw [h.1, h.2]⟩

theorem fmtD_eq_fmtD_false {p q : String} (h : diverge (str p) (str q) = true) (i j : Nat) :
    (fmtD p i = fmtD q j) ↔ False :=
  iff_false_intro (append_ne_of_diverge h _ _)

theorem fmtD_eq_fmtDD_false {p q : String} (h : diverge (str p) (str q) = true) (i j d : Nat) :
    (fmtD p i = fmtDD q j d) ↔ False := by
  rw [fmtDD_eq]; exact iff_false_intro (append_ne_of_diverge h _ _)

theorem fmtDD_eq_fmtD_false {p q : String} (h : diverge (str p) (str q) = true) (i j d : Nat) :
    (fmtDD p i d = fmtD q j) ↔ False := by
  rw [fmtDD_eq]; exact iff_false_intro (append_ne_of_diverge h _ _)

theorem fmtDD_eq_fmtDD_false {p q : String} (h : diverge (str p) (str q) = true)
    (i j d e : Nat) : (fmtDD p i d = fmtDD q j e) ↔ False := by
  rw [fmtDD_eq, fmtDD_eq]; exact iff_false_intro (append_ne_of_diverge h _ _)

theorem str_eq_fmtD_false {p q : String} (h : diverge (str p) (str q) = true) (j : Nat) :
    (str p = fmtD q j) ↔ False := by
  have := append_ne_of_diverge h [] (natDec j)
  rw [List.append_nil] at this
  exact iff_false_intro this

theorem str_eq_fmtDD_false {p q : String} (h : diverge (str p) (str q) = true) (j d : Nat) :
    (str p = fmtDD q j d) ↔ False := by
  have := append_ne_of_diverge h [] (natDec j ++ (95 : Byte) :: natDec d)
  rw [List.append_nil] at this
  rw [fmtDD_eq]
  exact iff_false_intro this

theorem hasPrefix_fmtD_false {p : String} {q : GoString} (h : diverge (str p) q = true)
    (i : Nat) : HasPrefix (fmtD p i) q = false := hasPrefix_of_diverge h _

theorem hasPrefix_fmtDD_false {p : String} {q : GoString} (h : diverge (str p) q = true)
    (i d : Nat) : HasPrefix (fmtDD p i d) q = false := by
  rw [fmtDD_eq]; exact hasPrefix_of_diverge h _

theorem hasPrefix_fmtD_true {p : String} {q : GoString} (h : q.isPrefixOf (str p) = true)
    (i : Nat) : HasPrefix (fmtD p i) q = true := hasPrefix_of_isPrefixOf h _

theorem hasPrefix_fmtDD_true {p : String} {q : GoString} (h : q.isPrefixOf (str p) = true)
    (i d : Nat) : HasPrefix (fmtDD p i d) q = true := by
  rw [fmtDD_eq]; exact hasPrefix_of_isPrefixOf h _

/-- A string has no two prefixes that differ at a position both have. -/
theorem not_hasPrefix_of_diverge {k p q : GoString} (h : diverge p q = true)
    (hp : HasPrefix k p = true) : HasPrefix k q = false := by
  unfold HasPrefix at hp
  rw [List.isPrefixOf_iff_prefix] at hp
  obtain ⟨t, rfl⟩ := hp
  exact hasPrefix_of_diverge h t


/-! ## The fields of the payload -/

theorem fieldValues_append (a b : List (GoString × GoString)) (k : GoString) :
    fieldValues (a ++ b) k = fieldValues a k ++ fieldValues b k := by
  simp [fieldValues]

theorem fieldValues_nil (k : GoString) : fieldValues [] k = [] := rfl

theorem fieldValues_cons (f : GoString × GoString) (l : List (GoString × GoString))
    (k : GoString) :
    fieldValues (f :: l) k = if f.1 = k then f.2 :: fieldValues l k else fieldValues l k := by
  unfold fieldValues
  by_cases h : f.1 = k <;> simp [List.filter_cons, h]

theorem fieldValues_eq_nil {l : List (GoString × GoString)} {k : GoString}
    (h : k ∉ l.map Prod.fst) : fieldValues l k = [] := by
  induction l with
  | nil => rfl
  | cons f l ih =>
    simp only [List.map_cons, List.mem_cons, not_or] at h
    rw [fieldValues_cons, if_neg (fun e => h.1 e.symm), ih h.2]

namespace SaveWeekTimecard

variable (fl : Float64Model)

theorem map_fst_map_part (m : GoMap GoString) (l : List GoString) :
    (l.map (part m)).map Prod.fst = l := by
  induction l with
  | nil => rfl
  | cons a l ih => simp [part, ih]

/-- In a block built from distinct keys, a name occurs once, with the escaped value
the map holds for it. -/
theorem fieldValues_map_part (m : GoMap GoString) (l : List GoString) (hl : l.Nodup)
    (k : GoString) :
    fieldValues (l.map (part m)) k = if k ∈ l then [(part m k).2] else [] := by
  induction l with
  | nil => simp [fieldValues]
  | cons a l ih =>
    have hn : a ∉ l ∧ l.Nodup := List.nodup_cons.mp hl
    rw [List.map_cons, fieldValues_cons, ih hn.2]
    by_cases h : a = k
    · subst h
      simp [part, hn.1]
    · have h' : ¬ k = a := fun e => h e.symm
      simp [part, h, h']

theorem projectKeys_eq (o : MapOrder) (m : GoMap GoString) :
    projectKeys o m = sortStrings (m.keys.filter isProjectKey) :=
  sortStrings_eq_of_perm ((o.perm m.keys).filter isProjectKey)

theorem overKeys_eq (o : MapOrder) (m : GoMap GoString) :
    overKeys o m = sortStrings (m.keys.filter isOverKey) :=
  sortStrings_eq_of_perm ((o.perm m.keys).filter isOverKey)

theorem mem_projectKeys (o : MapOrder) (m : GoMap GoString) (k : GoString) :
    k ∈ projectKeys o m ↔ k ∈ m.keys ∧ isProjectKey k = true := by
  rw [projectKeys_eq, mem_sortStrings, List.mem_filter]

theorem mem_overKeys (o : MapOrder) (m : GoMap GoString) (k : GoString) :
    k ∈ overKeys o m ↔ k ∈ m.keys ∧ isOverKey k = true := by
  rw [overKeys_eq, mem_sortStrings, List.mem_filter]

theorem projectKeys_nodup (o : MapOrder) (m : GoMap GoString) (h : m.keys.Nodup) :
    (projectKeys o m).Nodup := by
  rw [projectKeys_eq]; exact sortStrings_nodup (h.filter _)

theorem overKeys_nodup (o : MapOrder) (m : GoMap GoString) (h : m.keys.Nodup) :
    (overKeys o m).Nodup := by
  rw [overKeys_eq]; exact sortStrings_nodup (h.filter _)

theorem projectKeys_strict (o : MapOrder) (m : GoMap GoString) (h : m.keys.Nodup) :
    (projectKeys o m).Pairwise (fun a b => strLt a b = true) := by
  rw [projectKeys_eq]; exact sortStrings_strict (h.filter _)

theorem overKeys_strict (o : MapOrder) (m : GoMap GoString) (h : m.keys.Nodup) :
    (overKeys o m).Pairwise (fun a b => strLt a b = true) := by
  rw [overKeys_eq]; exact sortStrings_strict (h.filter _)

theorem formFields_eq (o₁ o₂ : MapOrder) (weekStartDate : GoString)
    (entries : List (SaveEntry fl.F)) :
    formFields fl o₁ o₂ weekStartDate entries
      = headFields weekStartDate ++ projectBlock fl o₁ entries ++ norTotalBlock fl entries
        ++ [(str "caller", str "this_week")] ++ overBlock fl o₂ entries := rfl

theorem norTotalBlock_eq (entries : List (SaveEntry fl.F)) :
    norTotalBlock fl entries
      = ((List.range 7).map (fmtD "norTotal")).map (part (params fl entries)) := by
  simp [norTotalBlock, List.map_map, Function.comp_def]

theorem norTotal_keys_nodup : ((List.range 7).map (fmtD "norTotal")).Nodup :=
  (List.nodup_range 7).map (fun _ _ h => fmtD_inj "norTotal" h)

/-- The values of the fields with a given name, block by block. -/
theorem fieldValues_formFields (o₁ o₂ : MapOrder) (weekStartDate : GoString)
    (entries : List (SaveEntry fl.F)) (k : GoString) :
    fieldValues (formFields fl o₁ o₂ weekStartDate entries) k
      = fieldValues (headFields weekStartDate) k
        ++ (if k ∈ (params fl entries).keys ∧ isProjectKey k = true
            then [(part (params fl entries) k).2] else [])
        ++ (if k ∈ (List.range 7).map (fmtD "norTotal")
            then [(part (params fl entries) k).2] else [])
        ++ fieldValues [(str "caller", str "this_week")] k
        ++ (if k ∈ (params fl entries).keys ∧ isOverKey k = true
            then [(part (params fl entries) k).2] else []) := by
  rw [formFields_eq]
  simp only [fieldValues_append]
  rw [norTotalBlock_eq, fieldValues_map_part _ _ norTotal_keys_nodup]
  unfold projectBlock overBlock
  rw [fieldValues_map_part _ _ (projectKeys_nodup o₁ _ (nodup_keys_params fl entries)),
    fieldValues_map_part _ _ (overKeys_nodup o₂ _ (nodup_keys_params fl entries))]
  simp only [mem_projectKeys, mem_overKeys]

end SaveWeekTimecard

/-! ## Which statement assigns a given key -/

namespace SaveWeekTimecard

variable (fl : Float64Model)

theorem written_project {entries : List (SaveEntry fl.F)} {k v : GoString}
    (h : Written fl entries k v) (i : Nat) (hk : k = fmtD "project" i) :
    (∃ e, entries[i]? = some e ∧ e.ProjectID ≠ [] ∧ v = e.ProjectID) ∨
      (entries.length ≤ i ∧ i < 25 ∧ v = []) := by
  cases h <;>
    simp (disch := decide) only [fmtD_eq_fmtDD_false, fmtDD_eq_fmtD_false, fmtDD_eq_fmtDD_false,
      fmtD_eq_fmtD_false, fmtD_eq_iff, fmtDD_eq_iff] at hk
  case project idx e h hp =>
    subst hk
    exact Or.inl ⟨e, h, hp, rfl⟩
  case fillProject j h₁ h₂ =>
    subst hk
    exact Or.inr ⟨h₁, h₂, rfl⟩

theorem written_activity {entries : List (SaveEntry fl.F)} {k v : GoString}
    (h : Written fl entries k v) (i : Nat) (hk : k = fmtD "activity" i) :
    (∃ e, entries[i]? = some e ∧ e.ProjectID ≠ [] ∧ v = activityData fl e) ∨
      (entries.length ≤ i ∧ i < 25 ∧ v = []) := by
  cases h <;>
    simp (disch := decide) only [fmtD_eq_fmtDD_false, fmtDD_eq_fmtD_false, fmtDD_eq_fmtDD_false,
      fmtD_eq_fmtD_false, fmtD_eq_iff, fmtDD_eq_iff] at hk
  case activity idx e h hp =>
    subst hk
    exact Or.inl ⟨e, h, hp, rfl⟩
  case fillActivity j h₁ h₂ =>
    subst hk
    exact Or.inr ⟨h₁, h₂, rfl⟩

theorem written_actprogress {entries : List (SaveEntry fl.F)} {k v : GoString}
    (h : Written fl entries k v) (i : Nat) (hk : k = fmtD "actprogress" i) :
    (∃ e, entries[i]? = some e ∧ e.ProjectID ≠ [] ∧ v = Itoa e.Progress) ∨
      (entries.length ≤ i ∧ i < 25 ∧ v = []) := by
  cases h <;>
    simp (disch := decide) only [fmtD_eq_fmtDD_false, fmtDD_eq_fmtD_false, fmtDD_eq_fmtDD_false,
      fmtD_eq_fmtD_false, fmtD_eq_iff, fmtDD_eq_iff] at hk
  case actprogress idx e h hp =>
    subst hk
    exact Or.inl ⟨e, h, hp, rfl⟩
  case fillActprogress j h₁ h₂ =>
    subst hk
    exact Or.inr ⟨h₁, h₂, rfl⟩

theorem written_record {entries : List (SaveEntry fl.F)} {k v : GoString}
    (h : Written fl entries k v) (i d : Nat) (hk : k = fmtDD "record" i d) :
    ∃ e day, entries[i]? = some e ∧ e.ProjectID ≠ [] ∧ d < 7 ∧ e.Days[d]? = some day ∧
      v = hoursStr fl day.Hours := by
  cases h <;>
    simp (disch := decide) only [fmtD_eq_fmtDD_false, fmtDD_eq_fmtD_false, fmtDD_eq_fmtDD_false,
      fmtD_eq_fmtD_false, fmtD_eq_iff, fmtDD_eq_iff] at hk
  case record idx e h hp d' day hd hday =>
    obtain ⟨rfl, rfl⟩ := hk
    exact ⟨e, day, h, hp, hd, hday, rfl⟩

theorem written_note {entries : List (SaveEntry fl.F)} {k v : GoString}
    (h : Written fl entries k v) (i d : Nat) (hk : k = fmtDD "note" i d) :
    (∃ e day, entries[i]? = some e ∧ e.ProjectID ≠ [] ∧ d < 7 ∧ e.Days[d]? = some day ∧
      v = day.Note) ∨ (entries.length ≤ i ∧ i < 25 ∧ d < 7 ∧ v = []) := by
  cases h <;>
    simp (disch := decide) only [fmtD_eq_fmtDD_false, fmtDD_eq_fmtD_false, fmtDD_eq_fmtDD_false,
      fmtD_eq_fmtD_false, fmtD_eq_iff, fmtDD_eq_iff] at hk
  case note idx e h hp d' day hd hday =>
    obtain ⟨rfl, rfl⟩ := hk
    exact Or.inl ⟨e, day, h, hp, hd, hday, rfl⟩
  case fillNote j h₁ h₂ d' hd =>
    obtain ⟨rfl, rfl⟩ := hk
    exact Or.inr ⟨h₁, h₂, hd, rfl⟩

theorem written_progress {entries : List (SaveEntry fl.F)} {k v : GoString}
    (h : Written fl entries k v) (i d : Nat) (hk : k = fmtDD "progress" i d) :
    (∃ e day, entries[i]? = some e ∧ e.ProjectID ≠ [] ∧ d < 7 ∧ e.Days[d]? = some day ∧
      v = Itoa day.Progress) ∨ (entries.length ≤ i ∧ i < 25 ∧ d < 7 ∧ v = []) := by
  cases h <;>
    simp (disch := decide) only [fmtD_eq_fmtDD_false, fmtDD_eq_fmtD_false, fmtDD_eq_fmtDD_false,
      fmtD_eq_fmtD_false, fmtD_eq_iff, fmtDD_eq_iff] at hk
  case progress idx e h hp d' day hd hday =>
    obtain ⟨rfl, rfl⟩ := hk
    exact Or.inl ⟨e, day, h, hp, hd, hday, rfl⟩
  case fillProgress j h₁ h₂ d' hd =>
    obtain ⟨rfl, rfl⟩ := hk
    exact Or.inr ⟨h₁, h₂, hd, rfl⟩

theorem written_norTotal {entries : List (SaveEntry fl.F)} {k v : GoString}
    (h : Written fl entries k v) (d : Nat) (hk : k = fmtD "norTotal" d) :
    d < 7 ∧ v = fl.formatFloat ((afterEntries fl entries).dailyTotals.getD d fl.zero) := by
  cases h <;>
    simp (disch := decide) only [fmtD_eq_fmtDD_false, fmtDD_eq_fmtD_false, fmtDD_eq_fmtDD_false,
      fmtD_eq_fmtD_false, fmtD_eq_iff, fmtDD_eq_iff] at hk
  case norTotal d' hd =>
    subst hk
    exact ⟨hd, rfl⟩

theorem written_overactprogress {entries : List (SaveEntry fl.F)} {k v : GoString}
    (h : Written fl entries k v) (i : Nat) (hk : k = fmtD "overactprogress" i) :
    i < 25 ∧ v = str "0" := by
  cases h <;>
    simp (disch := decide) only [fmtD_eq_fmtDD_false, fmtDD_eq_fmtD_false, fmtDD_eq_fmtDD_false,
      fmtD_eq_fmtD_false, fmtD_eq_iff, fmtDD_eq_iff] at hk
  case overactprogress j hj =>
    subst hk
    exact ⟨hj, rfl⟩

theorem written_oveTotal {entries : List (SaveEntry fl.F)} {k v : GoString}
    (h : Written fl entries k v) (d : Nat) (hk : k = fmtD "oveTotal" d) :
    d < 7 ∧ v = str "0" := by
  cases h <;>
    simp (disch := decide) only [fmtD_eq_fmtDD_false, fmtDD_eq_fmtD_false, fmtDD_eq_fmtDD_false,
      fmtD_eq_fmtD_false, fmtD_eq_iff, fmtDD_eq_iff] at hk
  case oveTotal d' hd =>
    subst hk
    exact ⟨hd, rfl⟩

end SaveWeekTimecard

/-! ## The fields of a project key and of an overtime key -/

namespace SaveWeekTimecard

variable (fl : Float64Model)

theorem isOverKey_eq (k : GoString) : isOverKey k = HasPrefix k (str "ove") := by
  unfold isOverKey
  cases h : HasPrefix k (str "over") with
  | false => simp
  | true =>
    simp only [Bool.true_or]
    unfold HasPrefix at h ⊢
    rw [List.isPrefixOf_iff_prefix] at h
    have h2 : (str "ove") <+: k :=
      List.IsPrefix.trans (List.isPrefixOf_iff_prefix.mp (by decide)) h
    exact (List.isPrefixOf_iff_prefix.mpr h2).symm

theorem isOverKey_of_isProjectKey {k : GoString} (h : isProjectKey k = true) :
    isOverKey k = false := by
  rw [isOverKey_eq]
  simp only [isProjectKey, Bool.and_eq_true, Bool.or_eq_true] at h
  rcases h.1 with ((((h1 | h1) | h1) | h1) | h1) | h1
  · exact not_hasPrefix_of_diverge (by decide) h1
  · exact not_hasPrefix_of_diverge (by decide) h1
  · exact not_hasPrefix_of_diverge (by decide) h1
  · exact not_hasPrefix_of_diverge (by decide) h1
  · exact not_hasPrefix_of_diverge (by decide) h1
  · exact not_hasPrefix_of_diverge (by decide) h1

theorem isProjectKey_norTotal (d : Nat) : isProjectKey (fmtD "norTotal" d) = false := by
  simp (disch := decide) [isProjectKey, hasPrefix_fmtD_false, hasPrefix_fmtD_true]

theorem isOverKey_norTotal (d : Nat) : isOverKey (fmtD "norTotal" d) = false := by
  simp (disch := decide) [isOverKey, hasPrefix_fmtD_false, hasPrefix_fmtD_true]

theorem fieldValues_headFields_of_ne (weekStartDate k : GoString) (h1 : k ≠ str "save2")
    (h2 : k ≠ str "caller") (h3 : k ≠ str "cdate") :
    fieldValues (headFields weekStartDate) k = [] := by
  apply fieldValues_eq_nil
  simp [headFields, h1, h2, h3]

theorem fieldValues_caller_of_ne (k : GoString) (h2 : k ≠ str "caller") :
    fieldValues [(str "caller", str "this_week")] k = [] := by
  apply fieldValues_eq_nil
  simp [h2]

/-- A name of the project block occurs in the payload exactly when `params` has the key,
and then once, with the escaped value of the key. -/
theorem fieldValues_of_isProjectKey (o₁ o₂ : MapOrder) (weekStartDate : GoString)
    (entries : List (SaveEntry fl.F)) (k : GoString) (hp : isProjectKey k = true) :
    fieldValues (formFields fl o₁ o₂ weekStartDate entries) k
      = if k ∈ (params fl entries).keys then [(part (params fl entries) k).2] else [] := by
  have h1 : k ≠ str "save2" := by rintro rfl; revert hp; decide
  have h2 : k ≠ str "caller" := by rintro rfl; revert hp; decide
  have h3 : k ≠ str "cdate" := by rintro rfl; revert hp; decide
  have h4 : k ∉ (List.range 7).map (fmtD "norTotal") := by
    intro hm
    obtain ⟨d, _, rfl⟩ := List.mem_map.mp hm
    rw [isProjectKey_norTotal] at hp
    cases hp
  rw [fieldValues_formFields, fieldValues_headFields_of_ne _ _ h1 h2 h3,
    fieldValues_caller_of_ne _ h2, if_neg h4, isOverKey_of_isProjectKey hp]
  simp [hp]

/-- A name of the overtime block occurs in the payload exactly when `params` has the key,
and then once, with the escaped value of the key. -/
theorem fieldValues_of_isOverKey (o₁ o₂ : MapOrder) (weekStartDate : GoString)
    (entries : List (SaveEntry fl.F)) (k : GoString) (hp : isOverKey k = true) :
    fieldValues (formFields fl o₁ o₂ weekStartDate entries) k
      = if k ∈ (params fl entries).keys then [(part (params fl entries) k).2] else [] := by
  have h1 : k ≠ str "save2" := by rintro rfl; revert hp; decide
  have h2 : k ≠ str "caller" := by rintro rfl; revert hp; decide
  have h3 : k ≠ str "cdate" := by rintro rfl; revert hp; decide
  have h4 : k ∉ (List.range 7).map (fmtD "norTotal") := by
    intro hm
    obtain ⟨d, _, rfl⟩ := List.mem_map.mp hm
    rw [isOverKey_norTotal] at hp
    cases hp
  have h5 : isProjectKey k = false := by
    cases h : isProjectKey k with
    | false => rfl
    | true => rw [isOverKey_of_isProjectKey h] at hp; cases hp
  rw [fieldValues_formFields, fieldValues_headFields_of_ne _ _ h1 h2 h3,
    fieldValues_caller_of_ne _ h2, if_neg h4, h5]
  simp [hp]

/-- The escaped value stored for a key that has a single possible value. -/
theorem part_of_written (entries : List (SaveEntry fl.F)) (k v : GoString)
    (h : Written fl entries k v) (hu : ∀ v', Written fl entries k v' → v' = v) :
    k ∈ (params fl entries).keys ∧ (part (params fl entries) k).2 = QueryEscape v := by
  refine ⟨(mem_keys_params fl entries k).mpr ⟨v, h⟩, ?_⟩
  simp [part, get?_params fl entries k v h hu]

end SaveWeekTimecard

/-! ## The project and activity fields of a slot -/

namespace SaveWeekTimecard

variable (fl : Float64Model)

theorem isProjectKey_project (i : Nat) : isProjectKey (fmtD "project" i) = true := by
  simp (disch := decide) [isProjectKey, hasPrefix_fmtD_false, hasPrefix_fmtD_true]

theorem isProjectKey_activity (i : Nat) : isProjectKey (fmtD "activity" i) = true := by
  simp (disch := decide) [isProjectKey, hasPrefix_fmtD_false, hasPrefix_fmtD_true]

theorem isOverKey_overactprogress (i : Nat) : isOverKey (fmtD "overactprogress" i) = true := by
  simp (disch := decide) [isOverKey, hasPrefix_fmtD_false, hasPrefix_fmtD_true]

theorem isOverKey_oveTotal (d : Nat) : isOverKey (fmtD "oveTotal" d) = true := by
  simp (disch := decide) [isOverKey, hasPrefix_fmtD_false, hasPrefix_fmtD_true]

/-- The field `project{i}` of an entry with a project id. -/
theorem fieldValues_project_of_entry (o₁ o₂ : MapOrder) (weekStartDate : GoString)
    (entries : List (SaveEntry fl.F)) (i : Nat) (e : SaveEntry fl.F)
    (he : entries[i]? = some e) (hp : e.ProjectID ≠ []) :
    fieldValues (formFields fl o₁ o₂ weekStartDate entries) (fmtD "project" i)
      = [QueryEscape e.ProjectID] := by
  have hlt := (List.getElem?_eq_some.mp he).1
  have hw := part_of_written fl entries _ _ (Written.project i e he hp) (by
    intro v' hv'
    rcases written_project fl hv' i rfl with ⟨e', he', _, hv⟩ | ⟨hlen, _, _⟩
    · rw [he] at he'; cases he'; exact hv
    · omega)
  rw [fieldValues_of_isProjectKey fl _ _ _ _ _ (isProjectKey_project i), if_pos hw.1, hw.2]

/-- The field `activity{i}` of an entry with a project id. -/
theorem fieldValues_activity_of_entry (o₁ o₂ : MapOrder) (weekStartDate : GoString)
    (entries : List (SaveEntry fl.F)) (i : Nat) (e : SaveEntry fl.F)
    (he : entries[i]? = some e) (hp : e.ProjectID ≠ []) :
    fieldValues (formFields fl o₁ o₂ weekStartDate entries) (fmtD "activity" i)
      = [QueryEscape (activityData fl e)] := by
  have hlt := (List.getElem?_eq_some.mp he).1
  have hw := part_of_written fl entries _ _ (Written.activity i e he hp) (by
    intro v' hv'
    rcases written_activity fl hv' i rfl with ⟨e', he', _, hv⟩ | ⟨hlen, _, _⟩
    · rw [he] at he'; cases he'; exact hv
    · omega)
  rw [fieldValues_of_isProjectKey fl _ _ _ _ _ (isProjectKey_activity i), if_pos hw.1, hw.2]

/-- The field `note{i}_{d}` of a day of an entry with a project id. -/
theorem fieldValues_note_of_entry (o₁ o₂ : MapOrder) (weekStartDate : GoString)
    (entries : List (SaveEntry fl.F)) (i d : Nat) (e : SaveEntry fl.F) (day : SaveDayEntry fl.F)
    (he : entries[i]? = some e) (hp : e.ProjectID ≠ []) (hd : d < 7)
    (hday : e.Days[d]? = some day) :
    fieldValues (formFields fl o₁ o₂ weekStartDate entries) (fmtDD "note" i d)
      = [QueryEscape day.Note] := by
  have hlt := (List.getElem?_eq_some.mp he).1
  have hw := part_of_written fl entries _ _ (Written.note i e he hp d day hd hday) (by
    intro v' hv'
    rcases written_note fl hv' i d rfl with ⟨e', day', he', _, _, hday', hv⟩ | ⟨hlen, _, _⟩
    · rw [he] at he'; cases he'
      rw [hday] at hday'; cases hday'
      exact hv
    · omega)
  rw [fieldValues_of_isProjectKey fl _ _ _ _ _ (by
    simp (disch := decide) [isProjectKey, hasPrefix_fmtDD_false, hasPrefix_fmtDD_true]),
    if_pos hw.1, hw.2]

/-- The field `project{i}` of an empty slot. -/
theorem fieldValues_project_of_fill (o₁ o₂ : MapOrder) (weekStartDate : GoString)
    (entries : List (SaveEntry fl.F)) (i : Nat) (h₁ : entries.length ≤ i) (h₂ : i < 25) :
    fieldValues (formFields fl o₁ o₂ weekStartDate entries) (fmtD "project" i) = [[]] := by
  have hw := part_of_written fl entries _ [] (Written.fillProject i h₁ h₂) (by
    intro v' hv'
    rcases written_project fl hv' i rfl with ⟨e, he, _⟩ | ⟨_, _, hv⟩
    · have := (List.getElem?_eq_some.mp he).1
      omega
    · exact hv)
  rw [fieldValues_of_isProjectKey fl _ _ _ _ _ (isProjectKey_project i), if_pos hw.1, hw.2]
  rfl

/-- No field `project{i}` for an entry without a project id, nor past the entries and
the 25 slots. -/
theorem fieldValues_project_absent (o₁ o₂ : MapOrder) (weekStartDate : GoString)
    (entries : List (SaveEntry fl.F)) (i : Nat)
    (h : (∃ e, entries[i]? = some e ∧ e.ProjectID = []) ∨ (entries.length ≤ i ∧ 25 ≤ i)) :
    fieldValues (formFields fl o₁ o₂ weekStartDate entries) (fmtD "project" i) = [] := by
  rw [fieldValues_of_isProjectKey fl _ _ _ _ _ (isProjectKey_project i), if_neg]
  rw [mem_keys_params]
  rintro ⟨v, hv⟩
  rcases written_project fl hv i rfl with ⟨e', he', hp', _⟩ | ⟨hlen, h25, _⟩
  · rcases h with ⟨e, he, hp⟩ | ⟨hlen, _⟩
    · rw [he] at he'; cases he'; exact hp' hp
    · have := (List.getElem?_eq_some.mp he').1
      omega
  · rcases h with ⟨e, he, _⟩ | ⟨_, h25'⟩
    · have := (List.getElem?_eq_some.mp he).1
      omega
    · omega

/-- The field `overactprogress{i}`: present, with value `0`, exactly for `i < 25`. -/
theorem fieldValues_overactprogress (o₁ o₂ : MapOrder) (weekStartDate : GoString)
    (entries : List (SaveEntry fl.F)) (i : Nat) :
    fieldValues (formFields fl o₁ o₂ weekStartDate entries) (fmtD "overactprogress" i)
      = if i < 25 then [str "0"] else [] := by
  rw [fieldValues_of_isOverKey fl _ _ _ _ _ (isOverKey_overactprogress i)]
  by_cases h : i < 25
  · have hw := part_of_written fl entries _ _ (Written.overactprogress i h) (by
      intro v' hv'
      exact (written_overactprogress fl hv' i rfl).2)
    rw [if_pos hw.1, hw.2, if_pos h]
    rfl
  · rw [if_neg h, if_neg]
    rw [mem_keys_params]
    rintro ⟨v, hv⟩
    exact h (written_overactprogress fl hv i rfl).1

theorem isOverKey_of_hasProjectPrefix {k : GoString} (h : hasProjectPrefix k = true) :
    isOverKey k = false := by
  rw [isOverKey_eq]
  simp only [hasProjectPrefix, Bool.or_eq_true] at h
  rcases h with ((((h1 | h1) | h1) | h1) | h1) | h1
  · exact not_hasPrefix_of_diverge (by decide) h1
  · exact not_hasPrefix_of_diverge (by decide) h1
  · exact not_hasPrefix_of_diverge (by decide) h1
  · exact not_hasPrefix_of_diverge (by decide) h1
  · exact not_hasPrefix_of_diverge (by decide) h1
  · exact not_hasPrefix_of_diverge (by decide) h1

theorem hasProjectPrefix_of_isProjectKey {k : GoString} (h : isProjectKey k = true) :
    hasProjectPrefix k = true := by
  simp only [isProjectKey, Bool.and_eq_true] at h
  exact h.1

theorem hasProjectPrefix_norTotal (d : Nat) : hasProjectPrefix (fmtD "norTotal" d) = false := by
  simp (disch := decide) [hasProjectPrefix, hasPrefix_fmtD_false, hasPrefix_fmtD_true]

theorem mem_projectBlock (o₁ : MapOrder) (entries : List (SaveEntry fl.F))
    (f : GoString × GoString) (h : f ∈ projectBlock fl o₁ entries) :
    f.1 ∈ (params fl entries).keys ∧ isProjectKey f.1 = true ∧
      f = part (params fl entries) f.1 := by
  obtain ⟨k, hk, rfl⟩ := List.mem_map.mp h
  have := (mem_projectKeys o₁ _ k).mp hk
  exact ⟨this.1, this.2, rfl⟩

theorem mem_overBlock (o₂ : MapOrder) (entries : List (SaveEntry fl.F))
    (f : GoString × GoString) (h : f ∈ overBlock fl o₂ entries) :
    f.1 ∈ (params fl entries).keys ∧ isOverKey f.1 = true ∧
      f = part (params fl entries) f.1 := by
  obtain ⟨k, hk, rfl⟩ := List.mem_map.mp h
  have := (mem_overKeys o₂ _ k).mp hk
  exact ⟨this.1, this.2, rfl⟩

theorem mem_norTotalBlock (entries : List (SaveEntry fl.F)) (f : GoString × GoString)
    (h : f ∈ norTotalBlock fl entries) :
    ∃ d, d < 7 ∧ f = part (params fl entries) (fmtD "norTotal" d) := by
  obtain ⟨d, hd, rfl⟩ := List.mem_map.mp h
  exact ⟨d, List.mem_range.mp hd, rfl⟩

theorem mem_headFields (weekStartDate : GoString) (f : GoString × GoString)
    (h : f ∈ headFields weekStartDate) :
    f.1 = str "save2" ∨ f.1 = str "caller" ∨ f.1 = str "cdate" := by
  simp only [headFields, List.mem_cons, List.mem_singleton, List.not_mem_nil, or_false] at h
  rcases h with rfl | rfl | rfl
  · exact Or.inl rfl
  · exact Or.inr (Or.inl rfl)
  · exact Or.inr (Or.inr rfl)

/-- A field of the payload lies in the project block exactly when its name starts with
one of the six prefixes of the block. -/
theorem mem_projectBlock_iff (o₁ o₂ : MapOrder) (weekStartDate : GoString)
    (entries : List (SaveEntry fl.F)) (f : GoString × GoString)
    (hf : f ∈ formFields fl o₁ o₂ weekStartDate entries) :
    f ∈ projectBlock fl o₁ entries ↔ hasProjectPrefix f.1 = true := by
  constructor
  · intro h
    exact hasProjectPrefix_of_isProjectKey (mem_projectBlock fl o₁ entries f h).2.1
  · intro hp
    rw [formFields_eq] at hf
    simp only [List.mem_append, List.mem_singleton] at hf
    rcases hf with (((h | h) | h) | h) | h
    · rcases mem_headFields _ _ h with h1 | h1 | h1 <;> (rw [h1] at hp; exact absurd hp (by decide))
    · exact h
    · obtain ⟨d, _, rfl⟩ := mem_norTotalBlock fl entries f h
      simp only [part] at hp
      rw [hasProjectPrefix_norTotal] at hp
      cases hp
    · subst h
      exact absurd hp (by decide)
    · have := (mem_overBlock fl o₂ entries f h).2.1
      rw [isOverKey_of_hasProjectPrefix hp] at this
      cases this

end SaveWeekTimecard

/-! ## The overtime block -/

theorem strLt_of_divergeLt {p q : GoString} (h : divergeLt p q = true) (x y : GoString) :
    strLt (p ++ x) (q ++ y) = true := by
  induction p generalizing q with
  | nil => simp [divergeLt] at h
  | cons a as ih =>
    cases q with
    | nil => simp [divergeLt] at h
    | cons b bs =>
      simp only [divergeLt] at h
      simp only [List.cons_append, strLt]
      by_cases h1 : a < b
      · simp [h1]
      · by_cases h2 : b < a
        · simp [h1, h2] at h
        · simp only [h1, h2, if_false] at h ⊢
          exact ih h

namespace SaveWeekTimecard

variable (fl : Float64Model)

set_option linter.unusedTactic false in
theorem written_isOverKey {entries : List (SaveEntry fl.F)} {k v : GoString}
    (h : Written fl entries k v) (hk : isOverKey k = true) :
    (∃ d, d < 7 ∧ k = fmtD "oveTotal" d) ∨ HasPrefix k (str "over") = true := by
  cases h <;>
    first
    | (exfalso; revert hk
       simp (disch := decide) [isOverKey, hasPrefix_fmtD_false, hasPrefix_fmtDD_false]
       done)
    | (right
       simp (disch := decide) [hasPrefix_fmtD_true, hasPrefix_fmtDD_true]
       done)
    | skip
  case oveTotal d hd => exact Or.inl ⟨d, hd, rfl⟩

theorem hasPrefix_over_oveTotal (d : Nat) : HasPrefix (fmtD "oveTotal" d) (str "over") = false :=
  hasPrefix_fmtD_false (by decide) d

theorem oveTotal_keys_nodup : ((List.range 7).map (fmtD "oveTotal")).Nodup :=
  (List.nodup_range 7).map (fun _ _ h => fmtD_inj "oveTotal" h)

theorem oveTotal_keys_sorted : ((List.range 7).map (fmtD "oveTotal")).Sorted StrLE := by
  decide

theorem strLE_oveTotal_over (d : Nat) (k : GoString) (hk : HasPrefix k (str "over") = true) :
    StrLE (fmtD "oveTotal" d) k := by
  unfold HasPrefix at hk
  rw [List.isPrefixOf_iff_prefix] at hk
  obtain ⟨t, rfl⟩ := hk
  exact strLt_asymm (strLt_of_divergeLt (by decide) (natDec d) t)

/-- The sorted overtime keys: the seven totals first, then the keys of the slots. -/
theorem overKeys_split (o₂ : MapOrder) (entries : List (SaveEntry fl.F)) :
    overKeys o₂ (params fl entries)
      = (List.range 7).map (fmtD "oveTotal")
        ++ sortStrings ((params fl entries).keys.filter (fun k => HasPrefix k (str "over"))) := by
  have hnd := nodup_keys_params fl entries
  rw [overKeys_eq]
  apply List.eq_of_perm_of_sorted (r := StrLE) _ (sortStrings_sorted _)
  · unfold List.Sorted
    rw [List.pairwise_append]
    refine ⟨oveTotal_keys_sorted, sortStrings_sorted _, ?_⟩
    intro a ha b hb
    obtain ⟨d, _, rfl⟩ := List.mem_map.mp ha
    rw [mem_sortStrings, List.mem_filter] at hb
    exact strLE_oveTotal_over d b hb.2
  · refine (sortStrings_perm _).trans ?_
    rw [List.perm_ext_iff_of_nodup (hnd.filter _)]
    · intro k
      simp only [List.mem_filter, List.mem_append, List.mem_map, List.mem_range, mem_sortStrings]
      constructor
      · rintro ⟨hk, hov⟩
        obtain ⟨v, hv⟩ := (mem_keys_params fl entries k).mp hk
        rcases written_isOverKey fl hv hov with ⟨d, hd, rfl⟩ | hpre
        · exact Or.inl ⟨d, hd, rfl⟩
        · exact Or.inr ⟨hk, hpre⟩
      · rintro (⟨d, hd, rfl⟩ | ⟨hk, hpre⟩)
        · exact ⟨(mem_keys_params fl entries _).mpr ⟨_, Written.oveTotal d hd⟩,
            isOverKey_oveTotal d⟩
        · refine ⟨hk, ?_⟩
          simp [isOverKey, hpre]
    · rw [List.nodup_append]
      refine ⟨oveTotal_keys_nodup, sortStrings_nodup (hnd.filter _), ?_⟩
      intro a ha hb
      obtain ⟨d, _, rfl⟩ := List.mem_map.mp ha
      rw [mem_sortStrings, List.mem_filter] at hb
      have := hb.2
      rw [hasPrefix_over_oveTotal] at this
      cases this

theorem part_oveTotal (entries : List (SaveEntry fl.F)) (d : Nat) (hd : d < 7) :
    part (params fl entries) (fmtD "oveTotal" d) = (fmtD "oveTotal" d, str "0") := by
  have hw := part_of_written fl entries _ _ (Written.oveTotal d hd) (by
    intro v' hv'
    exact (written_oveTotal fl hv' d rfl).2)
  have h2 : (part (params fl entries) (fmtD "oveTotal" d)).1 = fmtD "oveTotal" d := rfl
  have h3 : QueryEscape (str "0") = str "0" := by decide
  rw [h3] at hw
  exact Prod.ext h2 hw.2

/-- The overtime block: the seven totals with value `0`, then the fields of the slots. -/
theorem overBlock_split (o₂ : MapOrder) (entries : List (SaveEntry fl.F)) :
    overBlock fl o₂ entries = oveTotalFields ++ overSlotFields fl entries := by
  have h : ((List.range 7).map (fmtD "oveTotal")).map (part (params fl entries))
      = oveTotalFields := by
    unfold oveTotalFields
    rw [List.map_map]
    apply List.map_congr_left
    intro d hd
    exact part_oveTotal fl entries d (List.mem_range.mp hd)
  unfold overBlock overSlotFields
  rw [overKeys_split, List.map_append, h]

theorem mem_overSlotFields (entries : List (SaveEntry fl.F)) (f : GoString × GoString)
    (h : f ∈ overSlotFields fl entries) : HasPrefix f.1 (str "over") = true := by
  obtain ⟨k, hk, rfl⟩ := List.mem_map.mp h
  rw [mem_sortStrings, List.mem_filter] at hk
  exact hk.2

theorem overSlotFields_ne_nil (entries : List (SaveEntry fl.F)) :
    overSlotFields fl entries ≠ [] := by
  have h1 : fmtD "overactprogress" 0 ∈ (params fl entries).keys :=
    (mem_keys_params fl entries _).mpr ⟨_, Written.overactprogress 0 (by decide)⟩
  have h2 : HasPrefix (fmtD "overactprogress" 0) (str "over") = true := by decide
  have h3 : fmtD "overactprogress" 0 ∈
      sortStrings ((params fl entries).keys.filter (fun k => HasPrefix k (str "over"))) := by
    rw [mem_sortStrings, List.mem_filter]
    exact ⟨h1, h2⟩
  intro hnil
  unfold overSlotFields at hnil
  rw [List.map_eq_nil_iff] at hnil
  rw [hnil] at h3
  cases h3

theorem overSlotFields_strict (entries : List (SaveEntry fl.F)) :
    ((overSlotFields fl entries).map Prod.fst).Pairwise (fun a b => strLt a b = true) := by
  unfold overSlotFields
  rw [map_fst_map_part]
  exact sortStrings_strict ((nodup_keys_params fl entries).filter _)

end SaveWeekTimecard

namespace SaveWeekTimecard

variable (fl : Float64Model)

/-- The payload, with the overtime totals ahead of the overtime slots. -/
theorem formFields_over_split (o₁ o₂ : MapOrder) (weekStartDate : GoString)
    (entries : List (SaveEntry fl.F)) :
    formFields fl o₁ o₂ weekStartDate entries
      = headFields weekStartDate ++ projectBlock fl o₁ entries ++ norTotalBlock fl entries
        ++ [(str "caller", str "this_week")] ++ oveTotalFields ++ overSlotFields fl entries := by
  rw [formFields_eq, overBlock_split]
  simp only [List.append_assoc]

/-- No field ahead of the second `caller` field, nor that field, is an overtime field. -/
theorem not_isOverKey_before_over (o₁ : MapOrder) (weekStartDate : GoString)
    (entries : List (SaveEntry fl.F)) (f : GoString × GoString)
    (hf : f ∈ headFields weekStartDate ++ projectBlock fl o₁ entries ++ norTotalBlock fl entries
      ++ [(str "caller", str "this_week")]) : isOverKey f.1 = false := by
  simp only [List.mem_append, List.mem_singleton] at hf
  rcases hf with ((h | h) | h) | h
  · rcases mem_headFields _ _ h with h1 | h1 | h1 <;> (rw [h1]; decide)
  · exact isOverKey_of_isProjectKey (mem_projectBlock fl o₁ entries f h).2.1
  · obtain ⟨d, _, rfl⟩ := mem_norTotalBlock fl entries f h
    exact isOverKey_norTotal d
  · subst h; decide

theorem getLast?_formFields (o₁ o₂ : MapOrder) (weekStartDate : GoString)
    (entries : List (SaveEntry fl.F)) :
    ∃ f, (formFields fl o₁ o₂ weekStartDate entries).getLast? = some f ∧
      HasPrefix f.1 (str "over") = true := by
  have hne := overSlotFields_ne_nil fl entries
  refine ⟨(overSlotFields fl entries).getLast hne, ?_,
    mem_overSlotFields fl entries _ (List.getLast_mem hne)⟩
  rw [formFields_over_split, List.getLast?_append, List.getLast?_eq_getLast _ hne]
  rfl

end SaveWeekTimecard

/-! ## Names without `&`, and inputs of the same shape -/

theorem isDigit_ne_amp {b : Byte} (h : isDigit b = true) : b ≠ 38 := by
  rintro rfl; revert h; decide

theorem noAmp_iff (s : GoString) : noAmp s = true ↔ ∀ b ∈ s, b ≠ 38 := by
  simp [noAmp, List.all_eq_true]

theorem fmtD_noAmp (pre : String) (hp : noAmp (str pre) = true) (i : Nat) :
    ∀ b ∈ fmtD pre i, b ≠ 38 := by
  intro b hb
  simp only [fmtD, List.mem_append] at hb
  rcases hb with hb | hb
  · exact (noAmp_iff _).mp hp b hb
  · exact isDigit_ne_amp (natDec_isDigit i b hb)

theorem fmtDD_noAmp (pre : String) (hp : noAmp (str pre) = true) (i d : Nat) :
    ∀ b ∈ fmtDD pre i d, b ≠ 38 := by
  intro b hb
  rw [fmtDD_eq] at hb
  simp only [List.mem_append, List.mem_cons] at hb
  rcases hb with hb | hb | hb | hb
  · exact (noAmp_iff _).mp hp b hb
  · exact isDigit_ne_amp (natDec_isDigit i b hb)
  · subst hb; decide
  · exact isDigit_ne_amp (natDec_isDigit d b hb)

namespace SaveWeekTimecard

variable (fl : Float64Model)

theorem written_noAmp {entries : List (SaveEntry fl.F)} {k v : GoString}
    (h : Written fl entries k v) : ∀ b ∈ k, b ≠ 38 := by
  cases h <;>
    first
    | exact fmtD_noAmp _ (by decide) _
    | exact fmtDD_noAmp _ (by decide) _ _

theorem params_key_noAmp (entries : List (SaveEntry fl.F)) (k : GoString)
    (h : k ∈ (params fl entries).keys) : ∀ b ∈ k, b ≠ 38 := by
  obtain ⟨v, hv⟩ := (mem_keys_params fl entries k).mp h
  exact written_noAmp fl hv

theorem part_snd (m : GoMap GoString) (k : GoString) :
    (part m k).2 = QueryEscape ((m.get? k).getD []) := rfl

theorem snd_of_eq_part (m : GoMap GoString) (f : GoString × GoString) (k : GoString)
    (h : f = part m k) : ∃ raw, f.2 = QueryEscape raw :=
  ⟨(m.get? k).getD [], by rw [h, part_snd]⟩

/-- Every field of the payload: its name has no `&`, its value is the escape of a string. -/
theorem formFields_shape (o₁ o₂ : MapOrder) (weekStartDate : GoString)
    (entries : List (SaveEntry fl.F)) (f : GoString × GoString)
    (hf : f ∈ formFields fl o₁ o₂ weekStartDate entries) :
    (∀ b ∈ f.1, b ≠ 38) ∧ ∃ raw, f.2 = QueryEscape raw := by
  rw [formFields_eq] at hf
  simp only [List.mem_append, List.mem_singleton] at hf
  rcases hf with (((h | h) | h) | h) | h
  · simp only [headFields, List.mem_cons, List.mem_singleton, List.not_mem_nil, or_false] at h
    rcases h with rfl | rfl | rfl
    · exact ⟨(noAmp_iff (str "save2")).mp (by decide), _, rfl⟩
    · exact ⟨(noAmp_iff (str "caller")).mp (by decide), str "this_week", by decide⟩
    · exact ⟨(noAmp_iff (str "cdate")).mp (by decide), _, rfl⟩
  · obtain ⟨hk, _, he⟩ := mem_projectBlock fl o₁ entries f h
    exact ⟨params_key_noAmp fl entries _ hk, snd_of_eq_part _ f _ he⟩
  · obtain ⟨d, hd, rfl⟩ := mem_norTotalBlock fl entries f h
    exact ⟨fmtD_noAmp "norTotal" (by decide) d, snd_of_eq_part _ _ _ rfl⟩
  · subst h
    exact ⟨(noAmp_iff (str "caller")).mp (by decide), str "this_week", by decide⟩
  · obtain ⟨hk, _, he⟩ := mem_overBlock fl o₂ entries f h
    exact ⟨params_key_noAmp fl entries _ hk, snd_of_eq_part _ f _ he⟩

theorem formParts_noAmp (o₁ o₂ : MapOrder) (weekStartDate : GoString)
    (entries : List (SaveEntry fl.F)) :
    ∀ p ∈ formParts fl o₁ o₂ weekStartDate entries, ∀ b ∈ p, b ≠ 38 := by
  intro p hp b hb
  obtain ⟨f, hf, rfl⟩ := List.mem_map.mp hp
  obtain ⟨hname, raw, hraw⟩ := formFields_shape fl o₁ o₂ weekStartDate entries f hf
  simp only [List.mem_append, show str "=" = [(61 : Byte)] from rfl, List.mem_singleton] at hb
  rcases hb with (hb | hb) | hb
  · exact hname b hb
  · subst hb; decide
  · rw [hraw] at hb
    exact formSafe_ne_amp (QueryEscape_safe raw b hb)

theorem formParts_ne_nil (o₁ o₂ : MapOrder) (weekStartDate : GoString)
    (entries : List (SaveEntry fl.F)) : formParts fl o₁ o₂ weekStartDate entries ≠ [] := by
  unfold formParts
  rw [formFields_eq]
  simp [headFields]

theorem names_formFields (o₁ o₂ : MapOrder) (weekStartDate : GoString)
    (entries : List (SaveEntry fl.F)) :
    (formFields fl o₁ o₂ weekStartDate entries).map Prod.fst
      = [str "save2", str "caller", str "cdate"]
        ++ sortStrings ((params fl entries).keys.filter isProjectKey)
        ++ (List.range 7).map (fmtD "norTotal") ++ [str "caller"]
        ++ sortStrings ((params fl entries).keys.filter isOverKey) := by
  rw [formFields_eq]
  simp only [List.map_append]
  unfold projectBlock overBlock
  rw [map_fst_map_part, map_fst_map_part, norTotalBlock_eq, map_fst_map_part, projectKeys_eq,
    overKeys_eq]
  rfl

theorem sameShape_getElem? {F : Type} {es es' : List (SaveEntry F)} (h : sameShape es es')
    (i : Nat) (e : SaveEntry F) (he : es[i]? = some e) :
    ∃ e', es'[i]? = some e' ∧ e.sameShape e' := by
  induction h generalizing i with
  | nil => simp at he
  | cons hab _ ih =>
    cases i with
    | zero =>
      simp only [List.getElem?_cons_zero, Option.some.injEq] at he
      subst he
      exact ⟨_, List.getElem?_cons_zero, hab⟩
    | succ j =>
      simp only [List.getElem?_cons_succ] at he ⊢
      exact ih j he

theorem sameShape_symm {F : Type} {es es' : List (SaveEntry F)} (h : sameShape es es') :
    sameShape es' es := by
  induction h with
  | nil => exact List.Forall₂.nil
  | cons hab _ ih => exact List.Forall₂.cons ⟨hab.1.symm, hab.2.symm⟩ ih

theorem written_of_sameShape {entries entries' : List (SaveEntry fl.F)}
    (hs : sameShape entries entries') {k v : GoString} (h : Written fl entries k v) :
    ∃ v', Written fl entries' k v' := by
  have hlen : entries.length = entries'.length := List.Forall₂.length_eq hs
  have hday : ∀ (e e' : SaveEntry fl.F) (d : Nat) (day : SaveDayEntry fl.F),
      e.sameShape e' → e.Days[d]? = some day → ∃ day', e'.Days[d]? = some day' := by
    intro e e' d day hsh hd
    have h1 := (List.getElem?_eq_some.mp hd).1
    have h2 : d < e'.Days.length := by rw [← hsh.2]; exact h1
    exact ⟨e'.Days[d], by simp [h2]⟩
  cases h with
  | project idx e he hp =>
    obtain ⟨e', he', hsh⟩ := sameShape_getElem? hs idx e he
    exact ⟨_, .project idx e' he' (fun hc => hp (hsh.1.mpr hc))⟩
  | activity idx e he hp =>
    obtain ⟨e', he', hsh⟩ := sameShape_getElem? hs idx e he
    exact ⟨_, .activity idx e' he' (fun hc => hp (hsh.1.mpr hc))⟩
  | actprogress idx e he hp =>
    obtain ⟨e', he', hsh⟩ := sameShape_getElem? hs idx e he
    exact ⟨_, .actprogress idx e' he' (fun hc => hp (hsh.1.mpr hc))⟩
  | record idx e he hp d day hd hday' =>
    obtain ⟨e', he', hsh⟩ := sameShape_getElem? hs idx e he
    obtain ⟨day', hd'⟩ := hday e e' d day hsh hday'
    exact ⟨_, .record idx e' he' (fun hc => hp (hsh.1.mpr hc)) d day' hd hd'⟩
  | note idx e he hp d day hd hday' =>
    obtain ⟨e', he', hsh⟩ := sameShape_getElem? hs idx e he
    obtain ⟨day', hd'⟩ := hday e e' d day hsh hday'
    exact ⟨_, .note idx e' he' (fun hc => hp (hsh.1.mpr hc)) d day' hd hd'⟩
  | progress idx e he hp d day hd hday' =>
    obtain ⟨e', he', hsh⟩ := sameShape_getElem? hs idx e he
    obtain ⟨day', hd'⟩ := hday e e' d day hsh hday'
    exact ⟨_, .progress idx e' he' (fun hc => hp (hsh.1.mpr hc)) d day' hd hd'⟩
  | fillProject i h1 h2 => exact ⟨_, .fillProject i (by omega) h2⟩
  | fillActivity i h1 h2 => exact ⟨_, .fillActivity i (by omega) h2⟩
  | fillActprogress i h1 h2 => exact ⟨_, .fillActprogress i (by omega) h2⟩
  | fillNote i h1 h2 d hd => exact ⟨_, .fillNote i (by omega) h2 d hd⟩
  | fillProgress i h1 h2 d hd => exact ⟨_, .fillProgress i (by omega) h2 d hd⟩
  | norTotal d hd => exact ⟨_, .norTotal d hd⟩
  | overactprogress i h => exact ⟨_, .overactprogress i h⟩
  | overrecord i h d hd => exact ⟨_, .overrecord i h d hd⟩
  | overnote i h d hd => exact ⟨_, .overnote i h d hd⟩
  | overprogress i h d hd => exact ⟨_, .overprogress i h d hd⟩
  | oveTotal d hd => exact ⟨_, .oveTotal d hd⟩

/-- Inputs of the same shape give the same field names, in the same order. -/
theorem names_formFields_of_sameShape (o₁ o₂ o₁' o₂' : MapOrder)
    (weekStartDate weekStartDate' : GoString) {entries entries' : List (SaveEntry fl.F)}
    (hs : sameShape entries entries') :
    (formFields fl o₁' o₂' weekStartDate' entries').map Prod.fst
      = (formFields fl o₁ o₂ weekStartDate entries).map Prod.fst := by
  have hk : ∀ k, k ∈ (params fl entries').keys ↔ k ∈ (params fl entries).keys := by
    intro k
    rw [mem_keys_params, mem_keys_params]
    constructor
    · rintro ⟨v, hv⟩; exact written_of_sameShape fl (sameShape_symm hs) hv
    · rintro ⟨v, hv⟩; exact written_of_sameShape fl hs hv
  have hperm : (params fl entries').keys.Perm (params fl entries).keys :=
    (List.perm_ext_iff_of_nodup (nodup_keys_params fl entries')
      (nodup_keys_params fl entries)).mpr hk
  rw [names_formFields, names_formFields,
    sortStrings_eq_of_perm (hperm.filter isProjectKey),
    sortStrings_eq_of_perm (hperm.filter isOverKey)]

end SaveWeekTimecard

/-! ## `parseJSArrays`: every activity has its project -/

namespace parseJSArrays

variable (lib : StdLib)

theorem inv_add (st : ParseState) (h : Inv st) (k name : GoString) (seen : GoMap Bool) :
    Inv { st with
      seen := seen
      projectMap := st.projectMap.set k name
      projects := st.projects ++ [{ ID := k, Name := name, Activities := [] }] } := by
  constructor
  · intro k' hk'
    simp only at hk'
    rcases (GoMap.keys_set _ _ _ _).mp hk' with rfl | hk'
    · exact ⟨_, List.mem_append_right _ (List.mem_singleton.mpr rfl), rfl⟩
    · obtain ⟨p, hp, hid⟩ := h.1 k' hk'
      exact ⟨p, List.mem_append_left _ hp, hid⟩
  · intro a ha
    obtain ⟨p, hp, hid⟩ := h.2 a ha
    exact ⟨p, List.mem_append_left _ hp, hid⟩

theorem optionStep_inv (st : ParseState) (m : List GoString) (h : Inv st) :
    Inv (optionStep lib st m) := by
  unfold optionStep
  split
  · dsimp only
    split
    · exact h
    · split
      · exact h
      · exact inv_add st h _ _ _
  · exact h

theorem synthStep_inv (ms : List (List GoString)) (st : ParseState) (k : GoString)
    (h : Inv st) : Inv (synthStep lib ms st k) := by
  unfold synthStep
  split
  · exact inv_add st h _ _ st.seen
  · exact h

theorem ensureProject_inv (st : ParseState) (k : GoString) (h : Inv st) :
    Inv (ensureProject st k) ∧ k ∈ (ensureProject st k).projectMap.keys ∧
      (ensureProject st k).activities = st.activities := by
  unfold ensureProject
  split
  · rename_i hs
    exact ⟨h, (GoMap.get?_isSome _ _).mp hs, rfl⟩
  · exact ⟨inv_add st h _ _ st.seen, (GoMap.keys_set _ _ _ _).mpr (Or.inl rfl), rfl⟩

theorem activityStep_inv (st : ParseState) (m : List GoString) (h : Inv st) :
    Inv (activityStep lib st m) := by
  unfold activityStep
  split
  · obtain ⟨hinv, hk, hact⟩ := ensureProject_inv st (m.getD 1 []) h
    constructor
    · exact hinv.1
    · intro a ha
      simp only [List.mem_append, List.mem_singleton] at ha
      rcases ha with ha | rfl
      · exact hinv.2 a ha
      · exact hinv.1 _ hk
  · exact h

theorem foldl_inv {α : Type} (step : ParseState → α → ParseState)
    (hstep : ∀ st x, Inv st → Inv (step st x)) (l : List α) (st : ParseState) (h : Inv st) :
    Inv (l.foldl step st) := by
  induction l generalizing st with
  | nil => exact h
  | cons x xs ih => exact ih _ (hstep st x h)

theorem afterSynth_inv (o : MapOrder) (htmlContent : GoString) :
    Inv (afterSynth lib o htmlContent) := by
  have h0 : Inv (afterOptions lib htmlContent) := by
    unfold afterOptions
    apply foldl_inv _ (optionStep_inv lib)
    constructor <;> simp [GoMap.keys]
  unfold afterSynth
  simp only
  split
  · exact foldl_inv _ (synthStep_inv lib _) _ _ h0
  · exact h0

theorem final_inv (o : MapOrder) (htmlContent : GoString) : Inv (final lib o htmlContent) :=
  foldl_inv _ (activityStep_inv lib) _ _ (afterSynth_inv lib o htmlContent)

theorem activityStep_activities (st : ParseState) (m : List GoString) :
    ∃ l, (activityStep lib st m).activities = st.activities ++ l ∧
      (6 ≤ m.length → ∃ a ∈ l, a.ProjectID = m.getD 1 []) := by
  unfold activityStep
  split
  · rename_i h6
    have hact : (ensureProject st (m.getD 1 [])).activities = st.activities := by
      unfold ensureProject; split <;> rfl
    dsimp only
    rw [hact]
    exact ⟨[_], rfl, fun _ => ⟨_, List.mem_singleton.mpr rfl, rfl⟩⟩
  · rename_i h6
    exact ⟨[], by simp, fun h => absurd h h6⟩

theorem foldl_activityStep_mono (l : List (List GoString)) (st : ParseState) :
    ∀ a ∈ st.activities, a ∈ (l.foldl (activityStep lib) st).activities := by
  induction l generalizing st with
  | nil => intro a ha; exact ha
  | cons x xs ih =>
    intro a ha
    apply ih
    obtain ⟨l', hl', _⟩ := activityStep_activities lib st x
    rw [hl']
    exact List.mem_append_left _ ha

/-- Every match with the five arguments gives an activity of its project id. -/
theorem foldl_activityStep_mem (l : List (List GoString)) (st : ParseState)
    (m : List GoString) (hm : m ∈ l) (h6 : 6 ≤ m.length) :
    ∃ a ∈ (l.foldl (activityStep lib) st).activities, a.ProjectID = m.getD 1 [] := by
  induction l generalizing st with
  | nil => cases hm
  | cons x xs ih =>
    rcases List.mem_cons.mp hm with rfl | hm'
    · obtain ⟨l', hl', hex⟩ := activityStep_activities lib st m
      obtain ⟨a, ha, hid⟩ := hex h6
      refine ⟨a, ?_, hid⟩
      rw [List.foldl_cons]
      apply foldl_activityStep_mono
      rw [hl']
      exact List.mem_append_right _ ha
    · exact ih _ hm'

end parseJSArrays

/-! ## `ParseProjectsAndActivities`: the activities under their projects -/

namespace ParseProjectsAndActivities

theorem initMap_spec (projects : List Project) :
    Keyed (initMap projects) ∧
      ∀ k, k ∈ (initMap projects).keys ↔ ∃ p ∈ projects, p.ID = k := by
  unfold initMap
  suffices h : ∀ (m : GoMap Project), Keyed m →
      Keyed (projects.foldl
          (fun m p => m.set p.ID { ID := p.ID, Name := p.Name, Activities := [] }) m) ∧
        ∀ k, k ∈ (projects.foldl
          (fun m p => m.set p.ID { ID := p.ID, Name := p.Name, Activities := [] }) m).keys ↔
            (∃ p ∈ projects, p.ID = k) ∨ k ∈ m.keys by
    have := h [] (by intro k p hp; simp [GoMap.get?] at hp)
    refine ⟨this.1, fun k => ?_⟩
    rw [this.2 k]
    simp [GoMap.keys]
  induction projects with
  | nil => intro m hm; exact ⟨hm, fun k => by simp⟩
  | cons q qs ih =>
    intro m hm
    have hm' : Keyed (m.set q.ID { ID := q.ID, Name := q.Name, Activities := [] }) := by
      intro k p hp
      rw [GoMap.get?_set] at hp
      by_cases hk : k = q.ID
      · rw [if_pos hk] at hp
        cases hp
        exact ⟨hk.symm, by simp⟩
      · rw [if_neg hk] at hp
        exact hm k p hp
    obtain ⟨h1, h2⟩ := ih _ hm'
    refine ⟨h1, fun k => ?_⟩
    rw [List.foldl_cons, h2 k, GoMap.keys_set]
    simp only [List.mem_cons, exists_eq_or_imp]
    constructor
    · rintro (h | h | h)
      · exact Or.inl (Or.inr h)
      · exact Or.inl (Or.inl h.symm)
      · exact Or.inr h
    · rintro ((h | h) | h)
      · exact Or.inr (Or.inl h.symm)
      · exact Or.inl h
      · exact Or.inr (Or.inr h)

theorem addActivity_keyed (m : GoMap Project) (act : Activity) (h : Keyed m) :
    Keyed (addActivity m act) := by
  unfold addActivity
  split
  · rename_i proj hproj
    intro k p hp
    rw [GoMap.get?_set] at hp
    by_cases hk : k = act.ProjectID
    · rw [if_pos hk] at hp
      cases hp
      obtain ⟨h1, h2⟩ := h _ _ hproj
      refine ⟨by rw [hk]; exact h1, ?_⟩
      intro a ha
      simp only [List.mem_append, List.mem_singleton] at ha
      rcases ha with ha | rfl
      · rw [hk]; exact h2 a ha
      · exact hk.symm
    · rw [if_neg hk] at hp
      exact h k p hp
  · exact h

theorem addActivity_keys (m : GoMap Project) (act : Activity) (k : GoString) :
    k ∈ (addActivity m act).keys ↔ k ∈ m.keys := by
  unfold addActivity
  split
  · rename_i proj hproj
    rw [GoMap.keys_set]
    constructor
    · rintro (rfl | h)
      · exact (GoMap.get?_isSome _ _).mp (by rw [hproj]; rfl)
      · exact h
    · exact Or.inr
  · rfl

theorem addActivity_nodup (m : GoMap Project) (act : Activity) (h : m.keys.Nodup) :
    (addActivity m act).keys.Nodup := by
  unfold addActivity
  split
  · exact GoMap.nodup_keys_set _ _ _ h
  · exact h

/-- Adding an activity keeps every activity already stored. -/
theorem addActivity_mono (m : GoMap Project) (act : Activity) (k : GoString) (p : Project)
    (hp : m.get? k = some p) :
    ∃ p', (addActivity m act).get? k = some p' ∧ ∀ a ∈ p.Activities, a ∈ p'.Activities := by
  unfold addActivity
  split
  · rename_i proj hproj
    rw [GoMap.get?_set]
    by_cases hk : k = act.ProjectID
    · rw [if_pos hk]
      rw [hk, hproj] at hp
      cases hp
      exact ⟨_, rfl, fun a ha => List.mem_append_left _ ha⟩
    · rw [if_neg hk]
      exact ⟨p, hp, fun a ha => ha⟩
  · exact ⟨p, hp, fun a ha => ha⟩

/-- An activity whose project is in the map is stored under that project. -/
theorem addActivity_mem (m : GoMap Project) (act : Activity) (h : act.ProjectID ∈ m.keys) :
    ∃ p, (addActivity m act).get? act.ProjectID = some p ∧
      { act with ID := act.UID } ∈ p.Activities := by
  have hs := (GoMap.get?_isSome m act.ProjectID).mpr h
  obtain ⟨proj, hproj⟩ := Option.isSome_iff_exists.mp hs
  unfold addActivity
  rw [hproj]
  simp only
  rw [GoMap.get?_set, if_pos rfl]
  exact ⟨_, rfl, List.mem_append_right _ (List.mem_singleton.mpr rfl)⟩

theorem foldl_addActivity_spec (acts : List Activity) (m : GoMap Project) (hm : Keyed m) :
    Keyed (acts.foldl addActivity m) ∧
    (∀ k, k ∈ (acts.foldl addActivity m).keys ↔ k ∈ m.keys) ∧
    (∀ k p, m.get? k = some p →
      ∃ p', (acts.foldl addActivity m).get? k = some p' ∧
        ∀ a ∈ p.Activities, a ∈ p'.Activities) ∧
    (∀ act ∈ acts, act.ProjectID ∈ m.keys →
      ∃ p, (acts.foldl addActivity m).get? act.ProjectID = some p ∧
        { act with ID := act.UID } ∈ p.Activities) := by
  induction acts generalizing m with
  | nil =>
    refine ⟨hm, fun k => Iff.rfl, fun k p hp => ⟨p, hp, fun a ha => ha⟩, ?_⟩
    intro act hact; cases hact
  | cons x xs ih =>
    obtain ⟨h1, h2, h3, h4⟩ := ih (addActivity m x) (addActivity_keyed m x hm)
    refine ⟨h1, ?_, ?_, ?_⟩
    · intro k
      rw [List.foldl_cons, h2 k, addActivity_keys]
    · intro k p hp
      obtain ⟨p₁, hp₁, hsub₁⟩ := addActivity_mono m x k p hp
      obtain ⟨p₂, hp₂, hsub₂⟩ := h3 k p₁ hp₁
      exact ⟨p₂, hp₂, fun a ha => hsub₂ a (hsub₁ a ha)⟩
    · intro act hact hk
      rcases List.mem_cons.mp hact with rfl | hact'
      · obtain ⟨p₁, hp₁, hmem⟩ := addActivity_mem m act hk
        obtain ⟨p₂, hp₂, hsub⟩ := h3 _ p₁ hp₁
        exact ⟨p₂, hp₂, hsub _ hmem⟩
      · exact h4 act hact' ((addActivity_keys m x _).mpr hk)

end ParseProjectsAndActivities

/-- The projects of the result are the values of `projectMap`. -/
theorem mem_Projects (lib : StdLib) (o o' : MapOrder) (htmlContent date : GoString)
    (p : Project) :
    p ∈ (ParseProjectsAndActivities lib o o' htmlContent date).Projects ↔
      ∃ k, (ParseProjectsAndActivities.projectMap (parseJSArrays lib o htmlContent).1
        (parseJSArrays lib o htmlContent).2).get? k = some p := by
  unfold ParseProjectsAndActivities
  simp only [List.mem_filterMap]
  constructor
  · rintro ⟨k, _, hk⟩; exact ⟨k, hk⟩
  · rintro ⟨k, hk⟩
    refine ⟨k, ?_, hk⟩
    rw [(o'.perm _).mem_iff]
    exact (GoMap.get?_isSome _ _).mp (by rw [hk]; rfl)

/-! ## Positions in a strictly increasing slice -/

/-- In a strictly increasing slice, of two members the smaller one comes first. -/
theorem sublist_pair_of_strict {l : List GoString}
    (h : l.Pairwise (fun a b => strLt a b = true)) {a b : GoString} (ha : a ∈ l) (hb : b ∈ l)
    (hab : strLt a b = true) : List.Sublist [a, b] l := by
  induction l with
  | nil => cases ha
  | cons x xs ih =>
    rw [List.pairwise_cons] at h
    rcases List.mem_cons.mp ha with rfl | ha'
    · rcases List.mem_cons.mp hb with rfl | hb'
      · rw [strLt_irrefl] at hab
        cases hab
      · exact List.Sublist.cons₂ _ (List.singleton_sublist.mpr hb')
    · rcases List.mem_cons.mp hb with rfl | hb'
      · have h1 := h.1 a ha'
        rw [strLt_asymm hab] at h1
        cases h1
      · exact List.Sublist.cons _ (ih h.2 ha' hb')

namespace SaveWeekTimecard

variable (fl : Float64Model)

theorem isProjectKey_actprogress (i : Nat) : isProjectKey (fmtD "actprogress" i) = true := by
  simp (disch := decide) [isProjectKey, hasPrefix_fmtD_false, hasPrefix_fmtD_true]

theorem isProjectKey_of_hasProjectPrefix {k : GoString} (h : hasProjectPrefix k = true) :
    isProjectKey k = true := by
  have h1 := isOverKey_of_hasProjectPrefix h
  rw [isOverKey_eq] at h1
  have h2 : HasPrefix k (str "norTotal") = false := by
    simp only [hasProjectPrefix, Bool.or_eq_true] at h
    rcases h with ((((h | h) | h) | h) | h) | h
    · exact not_hasPrefix_of_diverge (by decide) h
    · exact not_hasPrefix_of_diverge (by decide) h
    · exact not_hasPrefix_of_diverge (by decide) h
    · exact not_hasPrefix_of_diverge (by decide) h
    · exact not_hasPrefix_of_diverge (by decide) h
    · exact not_hasPrefix_of_diverge (by decide) h
  have h3 : HasPrefix k (str "over") = false := by
    cases h4 : HasPrefix k (str "over") with
    | false => rfl
    | true =>
      have : HasPrefix k (str "ove") = true := by
        unfold HasPrefix at h4 ⊢
        cases k with
        | nil => cases h4
        | cons a k1 =>
          cases k1 with
          | nil => simp [str, List.isPrefixOf] at h4
          | cons b k2 =>
            cases k2 with
            | nil => simp [str, List.isPrefixOf] at h4
            | cons c k3 =>
              simp [str, List.isPrefixOf] at h4 ⊢
              exact ⟨h4.1, h4.2.1, h4.2.2.1⟩
      rw [this] at h1
      cases h1
  unfold isProjectKey
  unfold hasProjectPrefix at h
  rw [h, h2, h3]
  rfl

/-- The keys `project{i}` and `activity{i}` of a slot that receives its fields, from an
entry with a project id or from the loop that fills the empty slots. -/
theorem slot_keys_params (entries : List (SaveEntry fl.F)) (i : Nat)
    (h : (∃ e, entries[i]? = some e ∧ e.ProjectID ≠ []) ∨ (entries.length ≤ i ∧ i < 25)) :
    fmtD "project" i ∈ (params fl entries).keys ∧
    fmtD "activity" i ∈ (params fl entries).keys := by
  rw [mem_keys_params, mem_keys_params]
  rcases h with ⟨e, he, hp⟩ | ⟨h1, h2⟩
  · exact ⟨⟨_, .project i e he hp⟩, ⟨_, .activity i e he hp⟩⟩
  · exact ⟨⟨_, .fillProject i h1 h2⟩, ⟨_, .fillActivity i h1 h2⟩⟩

theorem names_projectBlock (o₁ : MapOrder) (entries : List (SaveEntry fl.F)) :
    (projectBlock fl o₁ entries).map Prod.fst = projectKeys o₁ (params fl entries) := by
  unfold projectBlock
  rw [map_fst_map_part]

theorem strLt_activity_project (i j : Nat) :
    strLt (fmtD "activity" i) (fmtD "project" j) = true :=
  strLt_of_divergeLt (by decide) _ _

end SaveWeekTimecard

/-! ## The number of fields, and the decoded values -/

namespace SaveWeekTimecard

variable (fl : Float64Model)

/-- The field `record{i}_{d}` of a day of an entry with a project id. -/
theorem fieldValues_record_of_entry (o₁ o₂ : MapOrder) (weekStartDate : GoString)
    (entries : List (SaveEntry fl.F)) (i d : Nat) (e : SaveEntry fl.F) (day : SaveDayEntry fl.F)
    (he : entries[i]? = some e) (hp : e.ProjectID ≠ []) (hd : d < 7)
    (hday : e.Days[d]? = some day) :
    fieldValues (formFields fl o₁ o₂ weekStartDate entries) (fmtDD "record" i d)
      = [QueryEscape (hoursStr fl day.Hours)] := by
  have hw := part_of_written fl entries _ _ (Written.record i e he hp d day hd hday) (by
    intro v' hv'
    obtain ⟨e', day', he', _, _, hday', hv⟩ := written_record fl hv' i d rfl
    rw [he] at he'; cases he'
    rw [hday] at hday'; cases hday'
    exact hv)
  rw [fieldValues_of_isProjectKey fl _ _ _ _ _ (by
    simp (disch := decide) [isProjectKey, hasPrefix_fmtDD_false, hasPrefix_fmtDD_true]),
    if_pos hw.1, hw.2]

/-- The number of fields of the payload, from the keys of `params`. -/
theorem length_formFields (o₁ o₂ : MapOrder) (weekStartDate : GoString)
    (entries : List (SaveEntry fl.F)) :
    (formFields fl o₁ o₂ weekStartDate entries).length
      = 11 + ((params fl entries).keys.filter isProjectKey).length
        + ((params fl entries).keys.filter isOverKey).length := by
  have h := congrArg List.length (names_formFields fl o₁ o₂ weekStartDate entries)
  rw [List.length_map] at h
  rw [h]
  simp only [List.length_append, List.length_map, List.length_range, List.length_cons,
    List.length_nil, (sortStrings_perm _).length_eq]
  omega

/-- The parts of the body are the fields of the payload. -/
theorem splitAmp_formData (o₁ o₂ : MapOrder) (weekStartDate : GoString)
    (entries : List (SaveEntry fl.F)) :
    splitAmp (formData fl o₁ o₂ weekStartDate entries)
      = (formFields fl o₁ o₂ weekStartDate entries).map (fun f => f.1 ++ str "=" ++ f.2) :=
  splitAmp_Join _ (formParts_ne_nil fl o₁ o₂ weekStartDate entries)
    (formParts_noAmp fl o₁ o₂ weekStartDate entries)

theorem getElem?_singleton_some {α : Type} {a e : α} {i : Nat} (h : [a][i]? = some e) :
    i = 0 ∧ e = a := by
  cases i with
  | zero =>
    simp only [List.getElem?_cons_zero, Option.some.injEq] at h
    exact ⟨rfl, h.symm⟩
  | succ j => simp at h

/-- The keys that a single entry with a project id and no day gives: its three fields,
and the keys that a single entry without a project id gives. -/
theorem written_single_blank {e e' : SaveEntry fl.F} (hd : e.Days = []) {k v : GoString}
    (h : Written fl [e] k v) :
    k = fmtD "project" 0 ∨ k = fmtD "activity" 0 ∨ k = fmtD "actprogress" 0 ∨
      ∃ v', Written fl [e'] k v' := by
  cases h with
  | project idx e0 he hp =>
    obtain ⟨rfl, rfl⟩ := getElem?_singleton_some he
    exact Or.inl rfl
  | activity idx e0 he hp =>
    obtain ⟨rfl, rfl⟩ := getElem?_singleton_some he
    exact Or.inr (Or.inl rfl)
  | actprogress idx e0 he hp =>
    obtain ⟨rfl, rfl⟩ := getElem?_singleton_some he
    exact Or.inr (Or.inr (Or.inl rfl))
  | record idx e0 he hp d day hd0 hday =>
    obtain ⟨rfl, rfl⟩ := getElem?_singleton_some he
    rw [hd] at hday
    cases hday
  | note idx e0 he hp d day hd0 hday =>
    obtain ⟨rfl, rfl⟩ := getElem?_singleton_some he
    rw [hd] at hday
    cases hday
  | progress idx e0 he hp d day hd0 hday =>
    obtain ⟨rfl, rfl⟩ := getElem?_singleton_some he
    rw [hd] at hday
    cases hday
  | fillProject i h1 h2 =>
    exact Or.inr (Or.inr (Or.inr ⟨_, .fillProject i (show [e'].length ≤ i from h1) h2⟩))
  | fillActivity i h1 h2 =>
    exact Or.inr (Or.inr (Or.inr ⟨_, .fillActivity i (show [e'].length ≤ i from h1) h2⟩))
  | fillActprogress i h1 h2 =>
    exact Or.inr (Or.inr (Or.inr ⟨_, .fillActprogress i (show [e'].length ≤ i from h1) h2⟩))
  | fillNote i h1 h2 d hd0 =>
    exact Or.inr (Or.inr (Or.inr
      ⟨_, .fillNote i (show [e'].length ≤ i from h1) h2 d hd0⟩))
  | fillProgress i h1 h2 d hd0 =>
    exact Or.inr (Or.inr (Or.inr
      ⟨_, .fillProgress i (show [e'].length ≤ i from h1) h2 d hd0⟩))
  | norTotal d hd0 => exact Or.inr (Or.inr (Or.inr ⟨_, .norTotal d hd0⟩))
  | overactprogress i h => exact Or.inr (Or.inr (Or.inr ⟨_, .overactprogress i h⟩))
  | overrecord i h d hd0 => exact Or.inr (Or.inr (Or.inr ⟨_, .overrecord i h d hd0⟩))
  | overnote i h d hd0 => exact Or.inr (Or.inr (Or.inr ⟨_, .overnote i h d hd0⟩))
  | overprogress i h d hd0 => exact Or.inr (Or.inr (Or.inr ⟨_, .overprogress i h d hd0⟩))
  | oveTotal d hd0 => exact Or.inr (Or.inr (Or.inr ⟨_, .oveTotal d hd0⟩))

/-- The keys that a single entry without a project id gives are keys that any single
entry gives. -/
theorem written_blank_single {e e' : SaveEntry fl.F} (hb : e'.ProjectID = [])
    {k v : GoString} (h : Written fl [e'] k v) : ∃ v', Written fl [e] k v' := by
  cases h with
  | project idx e0 he hp =>
    obtain ⟨rfl, rfl⟩ := getElem?_singleton_some he
    exact absurd hb hp
  | activity idx e0 he hp =>
    obtain ⟨rfl, rfl⟩ := getElem?_singleton_some he
    exact absurd hb hp
  | actprogress idx e0 he hp =>
    obtain ⟨rfl, rfl⟩ := getElem?_singleton_some he
    exact absurd hb hp
  | record idx e0 he hp d day hd0 hday =>
    obtain ⟨rfl, rfl⟩ := getElem?_singleton_some he
    exact absurd hb hp
  | note idx e0 he hp d day hd0 hday =>
    obtain ⟨rfl, rfl⟩ := getElem?_singleton_some he
    exact absurd hb hp
  | progress idx e0 he hp d day hd0 hday =>
    obtain ⟨rfl, rfl⟩ := getElem?_singleton_some he
    exact absurd hb hp
  | fillProject i h1 h2 => exact ⟨_, .fillProject i (show [e].length ≤ i from h1) h2⟩
  | fillActivity i h1 h2 => exact ⟨_, .fillActivity i (show [e].length ≤ i from h1) h2⟩
  | fillActprogress i h1 h2 => exact ⟨_, .fillActprogress i (show [e].length ≤ i from h1) h2⟩
  | fillNote i h1 h2 d hd0 => exact ⟨_, .fillNote i (show [e].length ≤ i from h1) h2 d hd0⟩
  | fillProgress i h1 h2 d hd0 =>
    exact ⟨_, .fillProgress i (show [e].length ≤ i from h1) h2 d hd0⟩
  | norTotal d hd0 => exact ⟨_, .norTotal d hd0⟩
  | overactprogress i h => exact ⟨_, .overactprogress i h⟩
  | overrecord i h d hd0 => exact ⟨_, .overrecord i h d hd0⟩
  | overnote i h d hd0 => exact ⟨_, .overnote i h d hd0⟩
  | overprogress i h d hd0 => exact ⟨_, .overprogress i h d hd0⟩
  | oveTotal d hd0 => exact ⟨_, .oveTotal d hd0⟩

/-- A single entry without a project id gives none of the three keys that the entry at
index 0 writes first. -/
theorem not_mem_keys_blank {e' : SaveEntry fl.F} (hb : e'.ProjectID = []) (k : GoString)
    (hk : k = fmtD "project" 0 ∨ k = fmtD "activity" 0 ∨ k = fmtD "actprogress" 0) :
    k ∉ (params fl [e']).keys := by
  rw [mem_keys_params]
  rintro ⟨v, hv⟩
  have hne : ∀ e0 : SaveEntry fl.F, [e'][0]? = some e0 → e0.ProjectID ≠ [] → False := by
    intro e0 he hp
    obtain ⟨-, rfl⟩ := getElem?_singleton_some he
    exact hp hb
  have hlen : ¬ [e'].length ≤ 0 := by simp
  rcases hk with rfl | rfl | rfl
  · rcases written_project fl hv 0 rfl with ⟨e0, he, hp, -⟩ | ⟨hl, -, -⟩
    · exact hne e0 he hp
    · exact hlen hl
  · rcases written_activity fl hv 0 rfl with ⟨e0, he, hp, -⟩ | ⟨hl, -, -⟩
    · exact hne e0 he hp
    · exact hlen hl
  · rcases written_actprogress fl hv 0 rfl with ⟨e0, he, hp, -⟩ | ⟨hl, -, -⟩
    · exact hne e0 he hp
    · exact hlen hl

/-- The payload of a single entry with a project id and no day has three fields more than
the payload of a single entry without a project id. -/
theorem length_formFields_single (o₁ o₂ o₁' o₂' : MapOrder) (w w' : GoString)
    {e e' : SaveEntry fl.F} (hp : e.ProjectID ≠ []) (hd : e.Days = [])
    (hb : e'.ProjectID = []) :
    (formFields fl o₁ o₂ w [e]).length = (formFields fl o₁' o₂' w' [e']).length + 3 := by
  have hs : ∀ k, k ∈ (params fl [e]).keys ↔
      (k = fmtD "project" 0 ∨ k = fmtD "activity" 0 ∨ k = fmtD "actprogress" 0) ∨
        k ∈ (params fl [e']).keys := by
    intro k
    rw [mem_keys_params, mem_keys_params]
    constructor
    · rintro ⟨v, hv⟩
      rcases written_single_blank fl hd hv with h | h | h | h
      · exact Or.inl (Or.inl h)
      · exact Or.inl (Or.inr (Or.inl h))
      · exact Or.inl (Or.inr (Or.inr h))
      · exact Or.inr h
    · rintro ((rfl | rfl | rfl) | ⟨v, hv⟩)
      · exact ⟨_, .project 0 e rfl hp⟩
      · exact ⟨_, .activity 0 e rfl hp⟩
      · exact ⟨_, .actprogress 0 e rfl hp⟩
      · exact written_blank_single fl hb hv
  have hnb := nodup_keys_params fl [e']
  have hns := nodup_keys_params fl [e]
  have hproj : ((params fl [e]).keys.filter isProjectKey).Perm
      (fmtD "project" 0 :: fmtD "activity" 0 :: fmtD "actprogress" 0 ::
        (params fl [e']).keys.filter isProjectKey) := by
    rw [List.perm_ext_iff_of_nodup (hns.filter _)]
    · intro k
      simp only [List.mem_filter, List.mem_cons, hs]
      constructor
      · rintro ⟨(h | h), hk⟩
        · rcases h with h | h | h
          · exact Or.inl h
          · exact Or.inr (Or.inl h)
          · exact Or.inr (Or.inr (Or.inl h))
        · exact Or.inr (Or.inr (Or.inr ⟨h, hk⟩))
      · rintro (rfl | rfl | rfl | ⟨h, hk⟩)
        · exact ⟨Or.inl (Or.inl rfl), isProjectKey_project 0⟩
        · exact ⟨Or.inl (Or.inr (Or.inl rfl)), isProjectKey_activity 0⟩
        · exact ⟨Or.inl (Or.inr (Or.inr rfl)), isProjectKey_actprogress 0⟩
        · exact ⟨Or.inr h, hk⟩
    · refine List.nodup_cons.mpr ⟨?_, List.nodup_cons.mpr ⟨?_, List.nodup_cons.mpr
        ⟨?_, hnb.filter _⟩⟩⟩
      · simp only [List.mem_cons, List.mem_filter]
        rintro (h | h | ⟨h, -⟩)
        · exact absurd h (by decide)
        · exact absurd h (by decide)
        · exact not_mem_keys_blank fl hb _ (Or.inl rfl) h
      · simp only [List.mem_cons, List.mem_filter]
        rintro (h | ⟨h, -⟩)
        · exact absurd h (by decide)
        · exact not_mem_keys_blank fl hb _ (Or.inr (Or.inl rfl)) h
      · simp only [List.mem_filter]
        rintro ⟨h, -⟩
        exact not_mem_keys_blank fl hb _ (Or.inr (Or.inr rfl)) h
  have hover : ((params fl [e]).keys.filter isOverKey).Perm
      ((params fl [e']).keys.filter isOverKey) := by
    rw [List.perm_ext_iff_of_nodup (hns.filter _) (hnb.filter _)]
    intro k
    simp only [List.mem_filter, hs]
    constructor
    · rintro ⟨(h | h), hk⟩
      · rcases h with rfl | rfl | rfl <;> exact absurd hk (by decide)
      · exact ⟨h, hk⟩
    · rintro ⟨h, hk⟩
      exact ⟨Or.inr h, hk⟩
  rw [length_formFields, length_formFields, hproj.length_eq, hover.length_eq]
  simp only [List.length_cons]
  omega

end SaveWeekTimecard

/-! ## The save payload: claims -/

namespace SaveWeekTimecard

/-- C1, as the code behaves: for a slot index `i` from `len(entries)` to 24 and a day `d`
in 0..6 the payload has the fields `project{i}`, `activity{i}`, `actprogress{i}`,
`note{i}_{d}` and `progress{i}_{d}`, once each and with an empty value, but it has no
field `record{i}_{d}` at all: the loop that fills the empty slots never assigns it. -/
theorem C1_fill_slot_lacks_record (fl : Float64Model) (o₁ o₂ : MapOrder)
    (weekStartDate : GoString) (entries : List (SaveEntry fl.F)) (i d : Nat)
    (h₁ : entries.length ≤ i) (h₂ : i < 25) (hd : d < 7) :
    fieldValues (formFields fl o₁ o₂ weekStartDate entries) (fmtD "project" i) = [[]] ∧
    fieldValues (formFields fl o₁ o₂ weekStartDate entries) (fmtD "activity" i) = [[]] ∧
    fieldValues (formFields fl o₁ o₂ weekStartDate entries) (fmtD "actprogress" i) = [[]] ∧
    fieldValues (formFields fl o₁ o₂ weekStartDate entries) (fmtDD "note" i d) = [[]] ∧
    fieldValues (formFields fl o₁ o₂ weekStartDate entries) (fmtDD "progress" i d) = [[]] ∧
    fieldValues (formFields fl o₁ o₂ weekStartDate entries) (fmtDD "record" i d) = [] := by
  have hnone : ∀ e : SaveEntry fl.F, entries[i]? ≠ some e := by
    intro e he
    have := (List.getElem?_eq_some.mp he).1
    omega
  refine ⟨?_, ?_, ?_, ?_, ?_, ?_⟩
  · have hw := part_of_written fl entries _ [] (Written.fillProject i h₁ h₂) (by
      intro v' hv'
      rcases written_project fl hv' i rfl with ⟨e, he, _⟩ | ⟨_, _, hv⟩
      · exact absurd he (hnone e)
      · exact hv)
    rw [fieldValues_of_isProjectKey fl _ _ _ _ _ (by
      simp (disch := decide) [isProjectKey, hasPrefix_fmtD_false, hasPrefix_fmtD_true]),
      if_pos hw.1, hw.2]
    rfl
  · have hw := part_of_written fl entries _ [] (Written.fillActivity i h₁ h₂) (by
      intro v' hv'
      rcases written_activity fl hv' i rfl with ⟨e, he, _⟩ | ⟨_, _, hv⟩
      · exact absurd he (hnone e)
      · exact hv)
    rw [fieldValues_of_isProjectKey fl _ _ _ _ _ (by
      simp (disch := decide) [isProjectKey, hasPrefix_fmtD_false, hasPrefix_fmtD_true]),
      if_pos hw.1, hw.2]
    rfl
  · have hw := part_of_written fl entries _ [] (Written.fillActprogress i h₁ h₂) (by
      intro v' hv'
      rcases written_actprogress fl hv' i rfl with ⟨e, he, _⟩ | ⟨_, _, hv⟩
      · exact absurd he (hnone e)
      · exact hv)
    rw [fieldValues_of_isProjectKey fl _ _ _ _ _ (by
      simp (disch := decide) [isProjectKey, hasPrefix_fmtD_false, hasPrefix_fmtD_true]),
      if_pos hw.1, hw.2]
    rfl
  · have hw := part_of_written fl entries _ [] (Written.fillNote i h₁ h₂ d hd) (by
      intro v' hv'
      rcases written_note fl hv' i d rfl with ⟨e, _, he, _⟩ | ⟨_, _, _, hv⟩
      · exact absurd he (hnone e)
      · exact hv)
    rw [fieldValues_of_isProjectKey fl _ _ _ _ _ (by
      simp (disch := decide) [isProjectKey, hasPrefix_fmtDD_false, hasPrefix_fmtDD_true]),
      if_pos hw.1, hw.2]
    rfl
  · have hw := part_of_written fl entries _ [] (Written.fillProgress i h₁ h₂ d hd) (by
      intro v' hv'
      rcases written_progress fl hv' i d rfl with ⟨e, _, he, _⟩ | ⟨_, _, _, hv⟩
      · exact absurd he (hnone e)
      · exact hv)
    rw [fieldValues_of_isProjectKey fl _ _ _ _ _ (by
      simp (disch := decide) [isProjectKey, hasPrefix_fmtDD_false, hasPrefix_fmtDD_true]),
      if_pos hw.1, hw.2]
    rfl
  · rw [fieldValues_of_isProjectKey fl _ _ _ _ _ (by
      simp (disch := decide) [isProjectKey, hasPrefix_fmtDD_false, hasPrefix_fmtDD_true]),
      if_neg]
    rw [mem_keys_params]
    rintro ⟨v, hv⟩
    obtain ⟨e, _, he, _⟩ := written_record fl hv i d rfl
    exact hnone e he

/-- C1, evaluated: with the single entry `sampleEntry` the empty slot 1 has `note1_0` with
an empty value and no `record1_0`. -/
theorem C1_fill_slot_lacks_record_witness :
    [sampleEntry].length ≤ 1 ∧ 1 < 25 ∧ 0 < 7 ∧
    fieldValues (formFields wholeHours .storage .storage (str "2024-01-01") [sampleEntry])
      (fmtDD "note" 1 0) = [[]] ∧
    fieldValues (formFields wholeHours .storage .storage (str "2024-01-01") [sampleEntry])
      (fmtDD "record" 1 0) = [] :=
  have h := C1_fill_slot_lacks_record wholeHours .storage .storage (str "2024-01-01")
    [sampleEntry] 1 0 (by decide) (by decide) (by decide)
  ⟨by decide, by decide, by decide, h.2.2.2.1, h.2.2.2.2.2⟩

/-- C2, refuted as stated: an entry without a project id leaves its slot without a
`project{i}` field (here `project0`), and a list of 30 entries puts `project25` into the
payload. -/
theorem C2_counterexample :
    fieldValues (formFields wholeHours .storage .storage (str "2024-01-01") [blankEntry])
      (fmtD "project" 0) = [] ∧
    fieldValues
      (formFields wholeHours .storage .storage (str "2024-01-01") (List.replicate 30 sampleEntry))
      (fmtD "project" 25) = [str "7"] := by
  constructor
  · exact fieldValues_project_absent wholeHours _ _ _ _ 0 (Or.inl ⟨blankEntry, rfl, rfl⟩)
  · have h := fieldValues_project_of_entry wholeHours .storage .storage (str "2024-01-01")
      (List.replicate 30 sampleEntry) 25 sampleEntry (by simp) (by decide)
    rw [h]
    decide

/-- C2, amended: when every entry has a project id, the payload has exactly one
`project{i}` field for each `i` below the larger of `len(entries)` and 25 and none for
any other `i` (so exactly `project0` to `project24` for at most 25 entries); and for
every list of entries, of any length and content, it has exactly one
`overactprogress{i}` field for each `i` in 0..24 and none for any other `i`. -/
theorem C2_slot_groups (fl : Float64Model) (o₁ o₂ : MapOrder) (weekStartDate : GoString)
    (entries : List (SaveEntry fl.F)) (i : Nat) :
    ((∀ e ∈ entries, e.ProjectID ≠ []) →
      (fieldValues (formFields fl o₁ o₂ weekStartDate entries) (fmtD "project" i)).length
        = (if i < max entries.length 25 then 1 else 0)) ∧
    (fieldValues (formFields fl o₁ o₂ weekStartDate entries) (fmtD "overactprogress" i)).length
      = (if i < 25 then 1 else 0) := by
  constructor
  · intro hp
    by_cases hi : i < entries.length
    · have he : entries[i]? = some entries[i] := by simp [hi]
      rw [fieldValues_project_of_entry fl _ _ _ _ i _ he (hp _ (List.getElem_mem hi))]
      simp [hi]
    · by_cases h25 : i < 25
      · rw [fieldValues_project_of_fill fl _ _ _ _ i (by omega) h25]
        simp [h25]
      · rw [fieldValues_project_absent fl _ _ _ _ i (Or.inr ⟨by omega, by omega⟩)]
        have : ¬ i < max entries.length 25 := by omega
        simp [this]
  · rw [fieldValues_overactprogress]
    by_cases h25 : i < 25 <;> simp [h25]

/-- C2, evaluated: one entry with project id "7", slot 3; and an entry without a project
id, overtime slot 0. -/
theorem C2_slot_groups_witness :
    (∀ e ∈ [sampleEntry], e.ProjectID ≠ []) ∧
    (fieldValues (formFields wholeHours .storage .storage (str "2024-01-01") [sampleEntry])
      (fmtD "project" 3)).length = 1 ∧
    (fieldValues (formFields wholeHours .storage .storage (str "2024-01-01") [blankEntry])
      (fmtD "overactprogress" 0)).length = 1 :=
  have hp : ∀ e ∈ [sampleEntry], e.ProjectID ≠ [] := by decide
  ⟨hp,
   (C2_slot_groups wholeHours .storage .storage (str "2024-01-01") [sampleEntry] 3).1 hp,
   (C2_slot_groups wholeHours .storage .storage (str "2024-01-01") [blankEntry] 0).2⟩

/-- C3: the payload is the three leading fields (the last one `cdate`), then the project
block, then the block of totals (the first one `norTotal0`) and the rest. The names of the
project block are strictly increasing in byte-wise lexicographic order, so each occurs
once, and of two names of the block the smaller one comes first. A field of the payload
is in the block exactly when its name starts with `project`, `activity`, `actprogress`,
`record`, `note` or `progress`; every key of `params` with such a name has its field in
the block, and the block has no other field. For a slot `i` that receives its fields
(from an entry with a project id, or from the loop over the empty slots), `activity{i}`
comes before `project{i}`, so `activity0` before `project0`; and for two such slots `i`
and `j` whose names `project{i}` and `project{j}` are in byte-wise order, `project{i}`
comes before `project{j}`, so `project10` before `project2`. -/
theorem C3_project_block_sorted (fl : Float64Model) (o₁ o₂ : MapOrder)
    (weekStartDate : GoString) (entries : List (SaveEntry fl.F)) :
    formFields fl o₁ o₂ weekStartDate entries
      = headFields weekStartDate ++ projectBlock fl o₁ entries
        ++ (norTotalBlock fl entries ++ [(str "caller", str "this_week")]
            ++ overBlock fl o₂ entries) ∧
    (headFields weekStartDate).getLast? = some (str "cdate", QueryEscape weekStartDate) ∧
    ((norTotalBlock fl entries).head?.map Prod.fst) = some (fmtD "norTotal" 0) ∧
    ((projectBlock fl o₁ entries).map Prod.fst).Pairwise (fun a b => strLt a b = true) ∧
    (∀ f ∈ formFields fl o₁ o₂ weekStartDate entries,
      f ∈ projectBlock fl o₁ entries ↔ hasProjectPrefix f.1 = true) ∧
    (∀ k ∈ (params fl entries).keys, hasProjectPrefix k = true →
      part (params fl entries) k ∈ projectBlock fl o₁ entries) ∧
    (∀ f ∈ projectBlock fl o₁ entries,
      f.1 ∈ (params fl entries).keys ∧ f = part (params fl entries) f.1) ∧
    (∀ a b, a ∈ (projectBlock fl o₁ entries).map Prod.fst →
      b ∈ (projectBlock fl o₁ entries).map Prod.fst → strLt a b = true →
      List.Sublist [a, b] ((projectBlock fl o₁ entries).map Prod.fst)) ∧
    (∀ i, ((∃ e, entries[i]? = some e ∧ e.ProjectID ≠ []) ∨ (entries.length ≤ i ∧ i < 25)) →
      List.Sublist [fmtD "activity" i, fmtD "project" i]
        ((projectBlock fl o₁ entries).map Prod.fst)) ∧
    (∀ i j, ((∃ e, entries[i]? = some e ∧ e.ProjectID ≠ []) ∨ (entries.length ≤ i ∧ i < 25)) →
      ((∃ e, entries[j]? = some e ∧ e.ProjectID ≠ []) ∨ (entries.length ≤ j ∧ j < 25)) →
      strLt (fmtD "project" i) (fmtD "project" j) = true →
      List.Sublist [fmtD "project" i, fmtD "project" j]
        ((projectBlock fl o₁ entries).map Prod.fst)) ∧
    strLt (fmtD "activity" 0) (fmtD "project" 0) = true ∧
    strLt (fmtD "project" 10) (fmtD "project" 2) = true := by
  have hstrict : ((projectBlock fl o₁ entries).map Prod.fst).Pairwise
      (fun a b => strLt a b = true) := by
    rw [names_projectBlock]
    exact projectKeys_strict o₁ _ (nodup_keys_params fl entries)
  have hmem : ∀ k ∈ (params fl entries).keys, isProjectKey k = true →
      k ∈ (projectBlock fl o₁ entries).map Prod.fst := by
    intro k hk hp
    rw [names_projectBlock]
    exact (mem_projectKeys o₁ _ k).mpr ⟨hk, hp⟩
  refine ⟨?_, rfl, rfl, hstrict, ?_, ?_, ?_, ?_, ?_, ?_, by decide, by decide⟩
  · rw [formFields_eq]
    simp only [List.append_assoc]
  · intro f hf
    exact mem_projectBlock_iff fl o₁ o₂ weekStartDate entries f hf
  · intro k hk hp
    exact List.mem_map_of_mem _
      ((mem_projectKeys o₁ _ k).mpr ⟨hk, isProjectKey_of_hasProjectPrefix hp⟩)
  · intro f hf
    have h := mem_projectBlock fl o₁ entries f hf
    exact ⟨h.1, h.2.2⟩
  · intro a b ha hb hab
    exact sublist_pair_of_strict hstrict ha hb hab
  · intro i hi
    have hk := slot_keys_params fl entries i hi
    exact sublist_pair_of_strict hstrict (hmem _ hk.2 (isProjectKey_activity i))
      (hmem _ hk.1 (isProjectKey_project i)) (strLt_activity_project i i)
  · intro i j hi hj hij
    exact sublist_pair_of_strict hstrict
      (hmem _ (slot_keys_params fl entries i hi).1 (isProjectKey_project i))
      (hmem _ (slot_keys_params fl entries j hj).1 (isProjectKey_project j)) hij

/-- C3, evaluated: with the single entry `sampleEntry`, `activity0` comes before
`project0`, and `project10` before `project2`, among the names of the project block. -/
theorem C3_project_block_sorted_witness :
    List.Sublist [fmtD "activity" 0, fmtD "project" 0]
      ((projectBlock wholeHours .storage [sampleEntry]).map Prod.fst) ∧
    List.Sublist [fmtD "project" 10, fmtD "project" 2]
      ((projectBlock wholeHours .storage [sampleEntry]).map Prod.fst) :=
  have h := C3_project_block_sorted wholeHours .storage .storage (str "2024-01-01") [sampleEntry]
  ⟨h.2.2.2.2.2.2.2.2.1 0 (Or.inl ⟨sampleEntry, rfl, by decide⟩),
   h.2.2.2.2.2.2.2.2.2.1 10 2 (Or.inr ⟨by decide, by decide⟩) (Or.inr ⟨by decide, by decide⟩)
     (by decide)⟩

/-- C4, refuted as stated: for the single entry `sampleEntry` the payload does not end
with the seven fields `oveTotal0=0` to `oveTotal6=0`. -/
theorem C4_counterexample :
    ¬ ∃ pre, formFields wholeHours .storage .storage (str "2024-01-01") [sampleEntry]
      = pre ++ oveTotalFields := by
  rintro ⟨pre, h⟩
  obtain ⟨f, hf, hpre⟩ := getLast?_formFields wholeHours .storage .storage (str "2024-01-01")
    [sampleEntry]
  rw [h, List.getLast?_append] at hf
  have h6 : oveTotalFields.getLast? = some (fmtD "oveTotal" 6, str "0") := by decide
  rw [h6] at hf
  simp only [Option.or_some, Option.some.injEq] at hf
  subst hf
  exact absurd hpre (by decide)

/-- C4, amended: the overtime part of the payload starts with the seven fields
`oveTotal0=0` to `oveTotal6=0`, right after the second `caller` field, and the fields of
the overtime slots follow them and end the payload: every one has a name that starts with
`over`, their names are strictly increasing, and there is at least one; no field ahead
of the totals has a name that starts with `ove`. -/
theorem C4_overtime_totals_first (fl : Float64Model) (o₁ o₂ : MapOrder)
    (weekStartDate : GoString) (entries : List (SaveEntry fl.F)) :
    formFields fl o₁ o₂ weekStartDate entries
      = headFields weekStartDate ++ projectBlock fl o₁ entries ++ norTotalBlock fl entries
        ++ [(str "caller", str "this_week")] ++ oveTotalFields ++ overSlotFields fl entries ∧
    oveTotalFields
      = [(str "oveTotal0", str "0"), (str "oveTotal1", str "0"), (str "oveTotal2", str "0"),
         (str "oveTotal3", str "0"), (str "oveTotal4", str "0"), (str "oveTotal5", str "0"),
         (str "oveTotal6", str "0")] ∧
    (∀ f ∈ overSlotFields fl entries, HasPrefix f.1 (str "over") = true) ∧
    ((overSlotFields fl entries).map Prod.fst).Pairwise (fun a b => strLt a b = true) ∧
    overSlotFields fl entries ≠ [] ∧
    (∀ f ∈ headFields weekStartDate ++ projectBlock fl o₁ entries ++ norTotalBlock fl entries
        ++ [(str "caller", str "this_week")], HasPrefix f.1 (str "ove") = false) := by
  refine ⟨formFields_over_split fl o₁ o₂ weekStartDate entries, by decide,
    mem_overSlotFields fl entries, overSlotFields_strict fl entries,
    overSlotFields_ne_nil fl entries, ?_⟩
  intro f hf
  rw [← isOverKey_eq]
  exact not_isOverKey_before_over fl o₁ weekStartDate entries f hf

/-- C5: the payload starts with `save2` (encoded value `+save+`, the encoding of
`" save "`), `caller=this_week` and `cdate` with the percent-encoded week start date; the
fields named `caller` are exactly two, both `this_week`; and the payload splits as the
fields ahead of `norTotal6`, then `norTotal6`, then the second `caller=this_week`, then
the rest, where `caller` occurs once in the first part, no field of the first part is an
overtime field and every field of the rest is one. -/
theorem C5_control_fields (fl : Float64Model) (o₁ o₂ : MapOrder)
    (weekStartDate : GoString) (entries : List (SaveEntry fl.F)) :
    (formFields fl o₁ o₂ weekStartDate entries).take 3
      = [(str "save2", str "+save+"), (str "caller", str "this_week"),
         (str "cdate", QueryEscape weekStartDate)] ∧
    QueryEscape (str " save ") = str "+save+" ∧
    fieldValues (formFields fl o₁ o₂ weekStartDate entries) (str "caller")
      = [str "this_week", str "this_week"] ∧
    ∃ pre v post,
      formFields fl o₁ o₂ weekStartDate entries
        = pre ++ [(fmtD "norTotal" 6, v), (str "caller", str "this_week")] ++ post ∧
      fieldValues pre (str "caller") = [str "this_week"] ∧
      (∀ f ∈ pre, isOverKey f.1 = false) ∧
      (∀ f ∈ post, isOverKey f.1 = true) := by
  have hcaller : fieldValues (headFields weekStartDate ++ projectBlock fl o₁ entries)
      (str "caller") = [str "this_week"] := by
    rw [fieldValues_append]
    have h1 : fieldValues (headFields weekStartDate) (str "caller") = [str "this_week"] := by
      have e1 : ¬ str "save2" = str "caller" := by decide
      have e2 : ¬ str "cdate" = str "caller" := by decide
      simp only [headFields, fieldValues_cons, fieldValues_nil, e1, e2, if_true, if_false]
    have h2 : fieldValues (projectBlock fl o₁ entries) (str "caller") = [] := by
      apply fieldValues_eq_nil
      intro hm
      obtain ⟨f, hf, hk⟩ := List.mem_map.mp hm
      have := (mem_projectBlock fl o₁ entries f hf).2.1
      rw [hk] at this
      exact absurd this (by decide)
    rw [h1, h2]; rfl
  have hnor : ∀ l : List Nat,
      fieldValues (l.map (fun dayIdx => part (params fl entries) (fmtD "norTotal" dayIdx)))
        (str "caller") = [] := by
    intro l
    apply fieldValues_eq_nil
    intro hm
    simp only [List.map_map, List.mem_map, Function.comp_apply, part] at hm
    obtain ⟨d, _, hk⟩ := hm
    exact (str_eq_fmtD_false (p := "caller") (q := "norTotal") (by decide) d).mp hk.symm
  have hover : fieldValues (overBlock fl o₂ entries) (str "caller") = [] := by
    apply fieldValues_eq_nil
    intro hm
    obtain ⟨f, hf, hk⟩ := List.mem_map.mp hm
    have := (mem_overBlock fl o₂ entries f hf).2.1
    rw [hk] at this
    exact absurd this (by decide)
  refine ⟨rfl, by decide, ?_, ?_⟩
  · rw [formFields_eq]
    simp only [fieldValues_append] at hcaller ⊢
    rw [hcaller]
    unfold norTotalBlock
    rw [hnor, hover]
    rfl
  · refine ⟨headFields weekStartDate ++ projectBlock fl o₁ entries
        ++ (List.range 6).map (fun dayIdx => part (params fl entries) (fmtD "norTotal" dayIdx)),
      (part (params fl entries) (fmtD "norTotal" 6)).2, overBlock fl o₂ entries, ?_, ?_, ?_, ?_⟩
    · rw [formFields_eq]
      unfold norTotalBlock
      rw [List.range_succ, List.map_append]
      simp only [List.append_assoc, List.map_cons, List.map_nil, List.cons_append,
        List.nil_append, part]
    · rw [fieldValues_append, hcaller, hnor]
      rfl
    · intro f hf
      apply not_isOverKey_before_over fl o₁ weekStartDate entries f
      simp only [List.mem_append, List.mem_map, List.mem_range, List.mem_singleton] at hf ⊢
      rcases hf with (h | h) | ⟨d, hd, rfl⟩
      · exact Or.inl (Or.inl (Or.inl h))
      · exact Or.inl (Or.inl (Or.inr h))
      · refine Or.inl (Or.inr ?_)
        unfold norTotalBlock
        exact List.mem_map.mpr ⟨d, List.mem_range.mpr (by omega), rfl⟩
    · intro f hf
      exact (mem_overBlock fl o₂ entries f hf).2.1

/-- C6: for the entry at index `i`, with a non-empty project id `P`, the payload has one
field `activity{i}` and its decoded value is `true$A$P$0`, where `A` is the activity id of
the entry, or `xx` when that is empty; and it has one field `project{i}`, whose decoded
value is `P`. -/
theorem C6_activity_token (fl : Float64Model) (o₁ o₂ : MapOrder) (weekStartDate : GoString)
    (entries : List (SaveEntry fl.F)) (i : Nat) (e : SaveEntry fl.F)
    (he : entries[i]? = some e) (hp : e.ProjectID ≠ []) :
    (fieldValues (formFields fl o₁ o₂ weekStartDate entries) (fmtD "activity" i)).map
        QueryUnescape
      = [some (str "true$" ++ (if e.ActivityID = [] then str "xx" else e.ActivityID)
          ++ str "$" ++ e.ProjectID ++ str "$0")] ∧
    (fieldValues (formFields fl o₁ o₂ weekStartDate entries) (fmtD "project" i)).map
        QueryUnescape
      = [some e.ProjectID] := by
  rw [fieldValues_activity_of_entry fl o₁ o₂ weekStartDate entries i e he hp,
    fieldValues_project_of_entry fl o₁ o₂ weekStartDate entries i e he hp]
  simp only [List.map_cons, List.map_nil, QueryUnescape_QueryEscape]
  refine ⟨?_, trivial⟩
  rfl

/-- C6, evaluated: the entry `sampleEntry` (project id "7", no activity id) at index 0
gives `activity0` the token `true$xx$7$0` and `project0` the value `7`. -/
theorem C6_activity_token_witness :
    [sampleEntry][0]? = some sampleEntry ∧ sampleEntry.ProjectID ≠ [] ∧
    (fieldValues (formFields wholeHours .storage .storage (str "2024-01-01") [sampleEntry])
        (fmtD "activity" 0)).map QueryUnescape = [some (str "true$xx$7$0")] ∧
    (fieldValues (formFields wholeHours .storage .storage (str "2024-01-01") [sampleEntry])
        (fmtD "project" 0)).map QueryUnescape = [some (str "7")] :=
  have h := C6_activity_token wholeHours .storage .storage (str "2024-01-01") [sampleEntry] 0
    sampleEntry rfl (by decide)
  ⟨rfl, by decide, h.1, h.2⟩

/-- C8, counterexample: `sampleEntry` and `blankEntry` differ only in the contents of
the project id, `7` and the empty string, and the body of the first splits at `&` into
three parts more than the body of the second: the fields `project0`, `activity0` and
`actprogress0`, which an entry without a project id does not get. -/
theorem C8_counterexample :
    sampleEntry.ProjectID = str "7" ∧ blankEntry.ProjectID = [] ∧
    sampleEntry.ActivityID = blankEntry.ActivityID ∧
    sampleEntry.Progress = blankEntry.Progress ∧ sampleEntry.Days = blankEntry.Days ∧
    (splitAmp (formData wholeHours .storage .storage (str "2024-01-01") [sampleEntry])).length
      = (splitAmp
          (formData wholeHours .storage .storage (str "2024-01-01") [blankEntry])).length
        + 3 := by
  refine ⟨rfl, rfl, rfl, rfl, rfl, ?_⟩
  rw [splitAmp_formData, splitAmp_formData, List.length_map, List.length_map]
  exact length_formFields_single wholeHours _ _ _ _ _ _ (by decide) rfl rfl

/-- C8, amended: every value of the payload has only letters, digits, `-`, `_`, `.`,
`~`, `+` and the bytes of `%XX` escapes, and decoding it gives the original value back:
` save `, `this_week` and the week start date for the three leading fields, and the value
that `params` holds under the name for every field of the project block, of the block of
totals and of the overtime block; for an entry with a project id, whatever the bytes of
its values, `project{i}` decodes to the project id, `activity{i}` to the activity data,
`record{i}_{d}` to the hours string and `note{i}_{d}` to the note. Splitting the body at
`&` gives back the form parts `name=value`, one per emitted field. Another input of the
same shape (the same number of entries, the same entries without a project id, the same
numbers of days), whatever its values, gives the same field names in the same order, hence
as many fields. -/
theorem C8_values_form_urlencoded (fl : Float64Model) (o₁ o₂ : MapOrder)
    (weekStartDate weekStartDate' : GoString) (entries entries' : List (SaveEntry fl.F))
    (hs : sameShape entries entries') :
    (∀ f ∈ formFields fl o₁ o₂ weekStartDate entries, ∀ b ∈ f.2, formSafe b = true) ∧
    formFields fl o₁ o₂ weekStartDate entries
      = headFields weekStartDate ++ projectBlock fl o₁ entries ++ norTotalBlock fl entries
        ++ [(str "caller", str "this_week")] ++ overBlock fl o₂ entries ∧
    (headFields weekStartDate).map (fun f => (f.1, QueryUnescape f.2))
      = [(str "save2", some (str " save ")), (str "caller", some (str "this_week")),
         (str "cdate", some weekStartDate)] ∧
    QueryUnescape (str "this_week") = some (str "this_week") ∧
    (∀ f ∈ projectBlock fl o₁ entries ++ norTotalBlock fl entries ++ overBlock fl o₂ entries,
      QueryUnescape f.2 = some (((params fl entries).get? f.1).getD [])) ∧
    (∀ i e, entries[i]? = some e → e.ProjectID ≠ [] →
      (fieldValues (formFields fl o₁ o₂ weekStartDate entries) (fmtD "project" i)).map
        QueryUnescape = [some e.ProjectID] ∧
      (fieldValues (formFields fl o₁ o₂ weekStartDate entries) (fmtD "activity" i)).map
        QueryUnescape = [some (activityData fl e)] ∧
      ∀ d day, d < 7 → e.Days[d]? = some day →
        (fieldValues (formFields fl o₁ o₂ weekStartDate entries) (fmtDD "record" i d)).map
          QueryUnescape = [some (hoursStr fl day.Hours)] ∧
        (fieldValues (formFields fl o₁ o₂ weekStartDate entries) (fmtDD "note" i d)).map
          QueryUnescape = [some day.Note]) ∧
    splitAmp (formData fl o₁ o₂ weekStartDate entries)
      = (formFields fl o₁ o₂ weekStartDate entries).map (fun f => f.1 ++ str "=" ++ f.2) ∧
    (splitAmp (formData fl o₁ o₂ weekStartDate entries)).length
      = (formFields fl o₁ o₂ weekStartDate entries).length ∧
    (formFields fl o₁ o₂ weekStartDate' entries').map Prod.fst
      = (formFields fl o₁ o₂ weekStartDate entries).map Prod.fst ∧
    (splitAmp (formData fl o₁ o₂ weekStartDate' entries')).length
      = (splitAmp (formData fl o₁ o₂ weekStartDate entries)).length := by
  have hnames := names_formFields_of_sameShape fl o₁ o₂ o₁ o₂ weekStartDate weekStartDate' hs
  have hpart : ∀ k, QueryUnescape (part (params fl entries) k).2
      = some (((params fl entries).get? k).getD []) := by
    intro k
    rw [part_snd]
    exact QueryUnescape_QueryEscape _
  refine ⟨?_, formFields_eq fl o₁ o₂ weekStartDate entries, ?_, by decide, ?_, ?_,
    splitAmp_formData fl o₁ o₂ weekStartDate entries, ?_, hnames, ?_⟩
  · intro f hf
    obtain ⟨_, raw, hraw⟩ := formFields_shape fl o₁ o₂ weekStartDate entries f hf
    rw [hraw]
    exact QueryEscape_safe raw
  · simp only [headFields, List.map_cons, List.map_nil, QueryUnescape_QueryEscape]
    rw [show QueryUnescape (str "this_week") = some (str "this_week") from by decide]
  · intro f hf
    simp only [List.mem_append] at hf
    rcases hf with (h | h) | h
    · have he := (mem_projectBlock fl o₁ entries f h).2.2
      exact (congrArg QueryUnescape (congrArg Prod.snd he)).trans (hpart f.1)
    · obtain ⟨d, _, rfl⟩ := mem_norTotalBlock fl entries f h
      exact hpart _
    · have he := (mem_overBlock fl o₂ entries f h).2.2
      exact (congrArg QueryUnescape (congrArg Prod.snd he)).trans (hpart f.1)
  · intro i e he hp
    refine ⟨?_, ?_, ?_⟩
    · rw [fieldValues_project_of_entry fl o₁ o₂ weekStartDate entries i e he hp]
      simp only [List.map_cons, List.map_nil, QueryUnescape_QueryEscape]
    · rw [fieldValues_activity_of_entry fl o₁ o₂ weekStartDate entries i e he hp]
      simp only [List.map_cons, List.map_nil, QueryUnescape_QueryEscape]
    · intro d day hd hday
      rw [fieldValues_record_of_entry fl o₁ o₂ weekStartDate entries i d e day he hp hd hday,
        fieldValues_note_of_entry fl o₁ o₂ weekStartDate entries i d e day he hp hd hday]
      simp only [List.map_cons, List.map_nil, QueryUnescape_QueryEscape, and_self]
  · rw [splitAmp_formData, List.length_map]
  · rw [splitAmp_formData, splitAmp_formData, List.length_map, List.length_map]
    have := congrArg List.length hnames
    simpa only [List.length_map] using this

/-- C8, evaluated: `noisyEntry` has values with `&`, `=`, `%`, `+`, a space and a byte
above 127; its project id is what `project0` decodes to, its note what `note0_0` decodes
to, and its body splits into as many parts as the body of `plainEntry`, which has the same
shape. -/
theorem C8_values_form_urlencoded_witness :
    sameShape [noisyEntry] [plainEntry] ∧
    (fieldValues (formFields wholeHours .storage .storage (str "2024 01&01") [noisyEntry])
      (fmtD "project" 0)).map QueryUnescape = [some [38, 61, 37, 43, 32, 200]] ∧
    (fieldValues (formFields wholeHours .storage .storage (str "2024 01&01") [noisyEntry])
      (fmtDD "note" 0 0)).map QueryUnescape = [some [38, 61, 37, 43, 32, 200]] ∧
    (splitAmp (formData wholeHours .storage .storage (str "2024-01-01") [plainEntry])).length
      = (splitAmp
          (formData wholeHours .storage .storage (str "2024 01&01") [noisyEntry])).length :=
  have hs : sameShape [noisyEntry] [plainEntry] :=
    List.Forall₂.cons ⟨by decide, rfl⟩ List.Forall₂.nil
  have h := C8_values_form_urlencoded wholeHours .storage .storage (str "2024 01&01")
    (str "2024-01-01") [noisyEntry] [plainEntry] hs
  have he := h.2.2.2.2.2.1 0 noisyEntry rfl (by decide)
  ⟨hs, he.1, (he.2.2 0 _ (by decide) rfl).2, h.2.2.2.2.2.2.2.2.2⟩

/-- C9: the body does not depend on the order in which the two `range params` loops visit
the keys of the map: any two pairs of visiting orders give the same bytes. -/
theorem C9_payload_deterministic (fl : Float64Model) (o₁ o₂ o₁' o₂' : MapOrder)
    (weekStartDate : GoString) (entries : List (SaveEntry fl.F)) :
    formData fl o₁ o₂ weekStartDate entries = formData fl o₁' o₂' weekStartDate entries := by
  unfold formData formParts formFields
  simp only [projectKeys_eq, overKeys_eq]

end SaveWeekTimecard

/-! ## The project and activity extractor: claims -/

/-- C10: the result of `ParseProjectsAndActivities` has a project for the project id of
every match of the activity pattern with its five arguments (whatever the dropdown
declares); every activity listed under a project of the result has the id of that project
as its `ProjectID`; and every activity that `parseJSArrays` extracts is listed, with its
`ID` set to its `UID`, under a project of the result with the id of its `ProjectID`. -/
theorem C10_activities_have_projects (lib : StdLib) (o o' : MapOrder)
    (htmlContent date : GoString) :
    (∀ m ∈ lib.FindAllStringSubmatch activityPattern htmlContent, 6 ≤ m.length →
      ∃ p ∈ (ParseProjectsAndActivities lib o o' htmlContent date).Projects,
        p.ID = m.getD 1 []) ∧
    (∀ p ∈ (ParseProjectsAndActivities lib o o' htmlContent date).Projects,
      ∀ a ∈ p.Activities, a.ProjectID = p.ID) ∧
    (∀ a ∈ (parseJSArrays lib o htmlContent).2,
      ∃ p ∈ (ParseProjectsAndActivities lib o o' htmlContent date).Projects,
        p.ID = a.ProjectID ∧ { a with ID := a.UID } ∈ p.Activities) := by
  have hinv := parseJSArrays.final_inv lib o htmlContent
  obtain ⟨hkeyed0, hkeys0⟩ :=
    ParseProjectsAndActivities.initMap_spec (parseJSArrays lib o htmlContent).1
  obtain ⟨hkeyed, hkeys, _, hmem⟩ := ParseProjectsAndActivities.foldl_addActivity_spec
    (parseJSArrays lib o htmlContent).2 _ hkeyed0
  have hact : ∀ a ∈ (parseJSArrays lib o htmlContent).2,
      ∃ p ∈ (ParseProjectsAndActivities lib o o' htmlContent date).Projects,
        p.ID = a.ProjectID ∧ { a with ID := a.UID } ∈ p.Activities := by
    intro a ha
    obtain ⟨p₀, hp₀, hid₀⟩ := hinv.2 a ha
    have hk : a.ProjectID ∈
        (ParseProjectsAndActivities.initMap (parseJSArrays lib o htmlContent).1).keys :=
      (hkeys0 _).mpr ⟨p₀, hp₀, hid₀⟩
    obtain ⟨p, hp, hin⟩ := hmem a ha hk
    exact ⟨p, (mem_Projects lib o o' htmlContent date p).mpr ⟨_, hp⟩, (hkeyed _ _ hp).1, hin⟩
  refine ⟨?_, ?_, hact⟩
  · intro m hm h6
    obtain ⟨a, ha, hid⟩ := parseJSArrays.foldl_activityStep_mem lib _
      (parseJSArrays.afterSynth lib o htmlContent) m hm h6
    obtain ⟨p, hp, hpid, _⟩ := hact a ha
    exact ⟨p, hp, hpid.trans hid⟩
  · intro p hp a ha
    obtain ⟨k, hk⟩ := (mem_Projects lib o o' htmlContent date p).mp hp
    obtain ⟨h1, h2⟩ := hkeyed k p hk
    rw [h1]
    exact h2 a ha

/-- C10, evaluated on a page with one activity declaration and no dropdown: the result
has a project with id `101`. -/
theorem C10_activities_have_projects_witness :
    ∃ p ∈ (ParseProjectsAndActivities onePageLib .storage .storage [] (str "2024-01-01")).Projects,
      p.ID = str "101" :=
  (C10_activities_have_projects onePageLib .storage .storage [] (str "2024-01-01")).1
    [str "act.append('101','Task','true','u9','0')", str "101", str "Task", str "true",
      str "u9", str "0"]
    (by decide) (by decide)

/-! ## The activities of the result, match by match -/

namespace parseJSArrays

variable (lib : StdLib)

theorem optionStep_activities (st : ParseState) (m : List GoString) :
    (optionStep lib st m).activities = st.activities := by
  unfold optionStep
  split
  · dsimp only
    split
    · rfl
    · split <;> rfl
  · rfl

theorem synthStep_activities (ms : List (List GoString)) (st : ParseState) (k : GoString) :
    (synthStep lib ms st k).activities = st.activities := by
  unfold synthStep
  split <;> rfl

theorem foldl_activities_eq {α : Type} (step : ParseState → α → ParseState)
    (hstep : ∀ st x, (step st x).activities = st.activities) (l : List α) (st : ParseState) :
    (l.foldl step st).activities = st.activities := by
  induction l generalizing st with
  | nil => rfl
  | cons x xs ih => rw [List.foldl_cons, ih, hstep]

theorem afterSynth_activities (o : MapOrder) (htmlContent : GoString) :
    (afterSynth lib o htmlContent).activities = [] := by
  have h0 : (afterOptions lib htmlContent).activities = [] := by
    unfold afterOptions
    rw [foldl_activities_eq _ (optionStep_activities lib)]
  unfold afterSynth
  dsimp only
  split
  · rw [foldl_activities_eq _ (synthStep_activities lib _), h0]
  · exact h0

theorem activityStep_activities_eq (st : ParseState) (m : List GoString) :
    (activityStep lib st m).activities
      = st.activities ++ (if 6 ≤ m.length then [activityOfMatch lib m] else []) := by
  unfold activityStep
  split
  · have hact : (ensureProject st (m.getD 1 [])).activities = st.activities := by
      unfold ensureProject; split <;> rfl
    dsimp only
    rw [hact]
    rfl
  · simp

theorem foldl_activityStep_activities (l : List (List GoString)) (st : ParseState) :
    (l.foldl (activityStep lib) st).activities
      = st.activities
        ++ (l.filter (fun m => decide (6 ≤ m.length))).map (activityOfMatch lib) := by
  induction l generalizing st with
  | nil => simp
  | cons x xs ih =>
    rw [List.foldl_cons, ih, activityStep_activities_eq]
    by_cases h : 6 ≤ x.length
    · simp [List.filter_cons, h]
    · simp [List.filter_cons, h]

/-- The activities that `parseJSArrays` returns: one for each match with its five
submatches, in the order of the matches. -/
theorem parseJSArrays_activities (o : MapOrder) (htmlContent : GoString) :
    (parseJSArrays lib o htmlContent).2
      = ((lib.FindAllStringSubmatch activityPattern htmlContent).filter
          (fun m => decide (6 ≤ m.length))).map (activityOfMatch lib) := by
  show (final lib o htmlContent).activities = _
  unfold final
  rw [foldl_activityStep_activities, afterSynth_activities, List.nil_append]

end parseJSArrays

namespace ParseProjectsAndActivities

theorem foldl_set_activities (projects : List Project) (m : GoMap Project)
    (hm : ∀ k p, m.get? k = some p → p.Activities = []) (k : GoString) (p : Project)
    (h : (projects.foldl
      (fun m p => m.set p.ID { ID := p.ID, Name := p.Name, Activities := [] }) m).get? k
        = some p) : p.Activities = [] := by
  induction projects generalizing m with
  | nil => exact hm k p h
  | cons q qs ih =>
    apply ih _ _ h
    intro k p hp
    rw [GoMap.get?_set] at hp
    by_cases hk : k = q.ID
    · rw [if_pos hk] at hp; cases hp; rfl
    · rw [if_neg hk] at hp; exact hm k p hp

theorem initMap_activities (projects : List Project) (k : GoString) (p : Project)
    (h : (initMap projects).get? k = some p) : p.Activities = [] :=
  foldl_set_activities projects [] (by intro k p hp; simp [GoMap.get?] at hp) k p h

/-- The activities stored under a key after the loop: those it had, then the copies of
the activities of that project id, in order. -/
theorem foldl_addActivity_activities (acts : List Activity) (m : GoMap Project)
    (k : GoString) (p : Project) (h : (acts.foldl addActivity m).get? k = some p) :
    ∃ p₀, m.get? k = some p₀ ∧
      p.Activities
        = p₀.Activities ++ (acts.filter (fun a => a.ProjectID == k)).map actCopy := by
  induction acts generalizing m with
  | nil => exact ⟨p, h, by simp⟩
  | cons x xs ih =>
    rw [List.foldl_cons] at h
    obtain ⟨p₁, hp₁, hact⟩ := ih _ h
    unfold addActivity at hp₁
    split at hp₁
    · rename_i proj hproj
      rw [GoMap.get?_set] at hp₁
      by_cases hk : k = x.ProjectID
      · rw [if_pos hk] at hp₁
        cases hp₁
        refine ⟨proj, by rw [hk]; exact hproj, ?_⟩
        rw [hact]
        simp [List.filter_cons, hk, actCopy]
      · rw [if_neg hk] at hp₁
        refine ⟨p₁, hp₁, ?_⟩
        rw [hact]
        have : (x.ProjectID == k) = false := by
          simp only [beq_eq_false_iff_ne, ne_eq]
          exact fun e => hk e.symm
        simp [List.filter_cons, this]
    · rename_i hnone
      refine ⟨p₁, hp₁, ?_⟩
      rw [hact]
      have : (x.ProjectID == k) = false := by
        simp only [beq_eq_false_iff_ne, ne_eq]
        intro e
        rw [e, hp₁] at hnone
        cases hnone
      simp [List.filter_cons, this]

end ParseProjectsAndActivities

/-- The activities of a project of the result: the copies of the activities of the
matches of its project id, in the order of the matches. -/
theorem Projects_activities (lib : StdLib) (o o' : MapOrder) (htmlContent date : GoString)
    (p : Project) (hp : p ∈ (ParseProjectsAndActivities lib o o' htmlContent date).Projects) :
    p.Activities
      = ((lib.FindAllStringSubmatch activityPattern htmlContent).filter
          (fun m => decide (6 ≤ m.length) && (m.getD 1 [] == p.ID))).map
          (fun m => ParseProjectsAndActivities.actCopy (parseJSArrays.activityOfMatch lib m)) := by
  obtain ⟨k, hk⟩ := (mem_Projects lib o o' htmlContent date p).mp hp
  obtain ⟨hkeyed0, _⟩ :=
    ParseProjectsAndActivities.initMap_spec (parseJSArrays lib o htmlContent).1
  obtain ⟨hkeyed, _, _, _⟩ := ParseProjectsAndActivities.foldl_addActivity_spec
    (parseJSArrays lib o htmlContent).2 _ hkeyed0
  have hid : p.ID = k := (hkeyed k p hk).1
  obtain ⟨p₀, hp₀, hact⟩ :=
    ParseProjectsAndActivities.foldl_addActivity_activities _ _ k p hk
  rw [hact, ParseProjectsAndActivities.initMap_activities _ k p₀ hp₀, List.nil_append,
    parseJSArrays.parseJSArrays_activities, List.filter_map, List.map_map, List.filter_filter,
    hid]
  congr 1
  apply List.filter_congr
  intro m _
  simp only [Function.comp_apply, parseJSArrays.activityOfMatch, Bool.and_comm]

/-- C13, refuted as stated: for the page with the declaration
`act.append('101','Task','true','u9','0')` the activity of the result has the id `u9`,
not the composite `101_Task_u9`. -/
theorem C13_counterexample :
    ∃ p ∈ (ParseProjectsAndActivities onePageLib .storage .storage [] (str "2024-01-01")).Projects,
      ∃ a ∈ p.Activities, a.ID = str "u9" ∧
        a.ProjectID ++ str "_" ++ a.Name ++ str "_" ++ a.UID = str "101_Task_u9" := by
  decide

/-- C13, amended: every activity in the result of `ParseProjectsAndActivities` has its
`UID` as its `ID`; the composite of project id, cleaned name and uid, joined by `_`, is
the `ID` only of the activities that `parseJSArrays` returns, before they are copied
into their projects. -/
theorem C13_activity_id_is_uid (lib : StdLib) (o o' : MapOrder) (htmlContent date : GoString) :
    (∀ p ∈ (ParseProjectsAndActivities lib o o' htmlContent date).Projects,
      ∀ a ∈ p.Activities, a.ID = a.UID) ∧
    (∀ a ∈ (parseJSArrays lib o htmlContent).2,
      a.ID = a.ProjectID ++ str "_" ++ a.Name ++ str "_" ++ a.UID) := by
  constructor
  · intro p hp a ha
    rw [Projects_activities lib o o' htmlContent date p hp] at ha
    obtain ⟨m, _, rfl⟩ := List.mem_map.mp ha
    rfl
  · intro a ha
    rw [parseJSArrays.parseJSArrays_activities] at ha
    obtain ⟨m, _, rfl⟩ := List.mem_map.mp ha
    rfl

/-- C14: the activities of every project of the result are the copies of the activities
of the matches of the activity pattern that have their five submatches and the id of the
project, one per match and in the order of the matches. -/
theorem C14_activities_in_source_order (lib : StdLib) (o o' : MapOrder)
    (htmlContent date : GoString) :
    ∀ p ∈ (ParseProjectsAndActivities lib o o' htmlContent date).Projects,
      p.Activities
        = ((lib.FindAllStringSubmatch activityPattern htmlContent).filter
            (fun m => decide (6 ≤ m.length) && (m.getD 1 [] == p.ID))).map
            (fun m =>
              ParseProjectsAndActivities.actCopy (parseJSArrays.activityOfMatch lib m)) := by
  intro p hp
  exact Projects_activities lib o o' htmlContent date p hp

/-- C14, evaluated on the page with the single declaration
`act.append('101','Task','true','u9','0')`: the project `101` of the result holds the one
activity of that declaration. -/
theorem C14_activities_in_source_order_witness :
    onePageProject ∈
      (ParseProjectsAndActivities onePageLib .storage .storage [] (str "2024-01-01")).Projects ∧
    onePageProject.Activities
      = ((onePageLib.FindAllStringSubmatch activityPattern []).filter
          (fun m => decide (6 ≤ m.length) && (m.getD 1 [] == onePageProject.ID))).map
          (fun m =>
            ParseProjectsAndActivities.actCopy
              (parseJSArrays.activityOfMatch onePageLib m)) :=
  ⟨by decide,
   C14_activities_in_source_order onePageLib .storage .storage [] (str "2024-01-01")
     onePageProject (by decide)⟩

/-! ## The session store: expiry, round trip, session cookie names -/

theorem since_gt_timeout_iff (now t : Int) :
    Since now t > SessionTimeout * Hour ↔ now - t > 43200000000000 := by
  unfold Since Sub SessionTimeout Hour maxDuration minDuration
  norm_num
  split
  · constructor
    · intro _; omega
    · intro _; norm_num
  · split
    · constructor
      · intro h; norm_num at h
      · intro _; omega
    · rfl

theorem loadCookies_expired_iff (J : JsonCodec) (faults : IOFaults) (now : Int)
    (sm : SessionManager J) (blob : J.Blob) (info : SessionInfo)
    (hf : faults.readSessionFile = false) (hfile : sm.disk.sessionFile = some blob)
    (hinfo : J.unmarshalSession blob = some info) :
    loadCookies J faults now sm = .error .ErrSessionExpired ↔
      Since now info.CreatedAt > SessionTimeout * Hour := by
  unfold loadCookies
  simp only [hf, Bool.false_eq_true, if_false, hfile, hinfo]
  constructor
  · intro h
    by_contra hc
    rw [if_neg hc] at h
    split at h
    · cases h
    · split at h <;> cases h
  · intro h
    rw [if_pos h]

theorem lowerByte_eq_iff (x y : Byte) : lowerByte x = lowerByte y ↔ sameLetter x y := by
  unfold lowerByte sameLetter
  have hx := x.isLt
  have hy := y.isLt
  constructor
  · intro h
    split at h <;> split at h
    · have := congrArg Fin.val h
      simp only at this
      left; apply Fin.ext; omega
    · have := congrArg Fin.val h
      simp only at this
      right; left; omega
    · have := congrArg Fin.val h
      simp only at this
      right; right; omega
    · left; exact h
  · rintro (h | h | h)
    · rw [h]
    · have h1 : ¬ (65 ≤ y.val ∧ y.val ≤ 90) := by omega
      rw [if_pos ⟨h.1, h.2.1⟩, if_neg h1]
      apply Fin.ext
      show (x.val + 32) % 256 = y.val
      omega
    · have h1 : ¬ (65 ≤ x.val ∧ x.val ≤ 90) := by omega
      rw [if_neg h1, if_pos ⟨h.1, h.2.1⟩]
      apply Fin.ext
      show x.val = (y.val + 32) % 256
      omega

theorem ToLowerASCII_eq_iff (a b : GoString) :
    ToLowerASCII a = ToLowerASCII b ↔ EqualIgnoringCase a b := by
  unfold ToLowerASCII EqualIgnoringCase
  induction a generalizing b with
  | nil =>
    cases b with
    | nil => simp
    | cons y ys => simp
  | cons x xs ih =>
    cases b with
    | nil => simp
    | cons y ys =>
      simp only [List.map_cons, List.cons.injEq, List.forall₂_cons, lowerByte_eq_iff, ih]

theorem isSessionCookie_goLib_iff (name : GoString) :
    isSessionCookie goLib name = true ↔
      ∃ scn ∈ sessionCookieNames, EqualIgnoringCase name scn := by
  unfold isSessionCookie
  simp only [List.any_eq_true, beq_iff_eq]
  constructor
  · rintro ⟨scn, hm, h⟩
    exact ⟨scn, hm, (ToLowerASCII_eq_iff _ _).mp h⟩
  · rintro ⟨scn, hm, h⟩
    exact ⟨scn, hm, (ToLowerASCII_eq_iff _ _).mpr h⟩

theorem ToLower_of_isASCII (table : Nat → Nat) (s : GoString) (h : isASCII s = true) :
    ToLower table s = ToLowerASCII s := by
  unfold ToLower
  rw [if_pos h]

theorem isSessionCookie_unicodeLib_iff (table : Nat → Nat) (name : GoString)
    (hname : isASCII name = true) :
    isSessionCookie (unicodeLib table) name = true ↔
      ∃ scn ∈ sessionCookieNames, EqualIgnoringCase name scn := by
  have hall : ∀ scn ∈ sessionCookieNames, isASCII scn = true := by
    have h : sessionCookieNames.all isASCII = true := by decide
    exact fun scn hscn => List.all_eq_true.1 h scn hscn
  unfold isSessionCookie
  show (sessionCookieNames.any (fun scn => ToLower table name == ToLower table scn)) = true ↔ _
  simp only [List.any_eq_true, beq_iff_eq]
  constructor
  · rintro ⟨scn, hm, h⟩
    rw [ToLower_of_isASCII table name hname, ToLower_of_isASCII table scn (hall scn hm)] at h
    exact ⟨scn, hm, (ToLowerASCII_eq_iff _ _).mp h⟩
  · rintro ⟨scn, hm, h⟩
    refine ⟨scn, hm, ?_⟩
    rw [ToLower_of_isASCII table name hname, ToLower_of_isASCII table scn (hall scn hm)]
    exact (ToLowerASCII_eq_iff _ _).mpr h

/-! ## The session store: claims -/

/-- C18, counterexample: the jar of `sampleManager` holds its two cookies with the domain
`example.org` and the path `/`; after `SaveCookies` and `loadCookies` one hour later, the
cookies handed to the jar have an empty domain and an empty path. -/
theorem C18_counterexample :
    sampleManager.jar.map (fun c => (c.Name, c.Value, c.Domain, c.Path)) =
      [(str "JSESSIONID", str "abc123", str "example.org", str "/"),
       (str "lang", str "zh-TW", str "example.org", str "/")] ∧
    (SaveCookies goLib plainCodec IOFaults.none 0 sampleManager).1 = none ∧
    (loadCookies plainCodec IOFaults.none Hour
        { userID := str "alice", jar := [],
          disk := (SaveCookies goLib plainCodec IOFaults.none 0 sampleManager).2 }).toOption.map
      (fun cookies => cookies.map (fun c => (c.Name, c.Value, c.Domain, c.Path))) =
        some [(str "JSESSIONID", str "abc123", [], []), (str "lang", str "zh-TW", [], [])] := by
  refine ⟨rfl, rfl, rfl⟩

/-- C18, amended: when no call of package `os` fails and `encoding/json` gives back the
cookie data and the session info of this save, `SaveCookies` on a jar with at least one
session cookie returns nil, and `loadCookies` on the files it has written, at most 12
hours later, returns nil and hands the jar as many cookies, with the same names and values
and in the same order. The session info in the session file has the number of cookies
saved as `CookieCount`, the saving user as `UserID` and the instant of the save as
`CreatedAt`. -/
theorem C18_session_round_trip (lib : StdLib) (J : JsonCodec) (sm sm' : SessionManager J)
    (now now' : Int) (bc bs : J.Blob)
    (hbc : J.marshalCookies ((Cookies sm.jar).map toCookieData) = some bc)
    (hbc' : J.unmarshalCookies bc = some ((Cookies sm.jar).map toCookieData))
    (hbs : J.marshalSession
      { UserID := sm.userID, CreatedAt := now, CookieCount := (Cookies sm.jar).length } = some bs)
    (hbs' : J.unmarshalSession bs = some
      { UserID := sm.userID, CreatedAt := now, CookieCount := (Cookies sm.jar).length })
    (hsess : ∃ c ∈ sm.jar, isSessionCookie lib c.Name = true)
    (htime : now' - now ≤ 12 * 3600 * 1000000000)
    (hdisk : sm'.disk = (SaveCookies lib J IOFaults.none now sm).2) :
    (SaveCookies lib J IOFaults.none now sm).1 = none ∧
    (∃ b info, sm'.disk.sessionFile = some b ∧ J.unmarshalSession b = some info ∧
      info.CookieCount = sm.jar.length ∧ info.UserID = sm.userID ∧ info.CreatedAt = now) ∧
    ∃ cookies, loadCookies J IOFaults.none now' sm' = .ok cookies ∧
      cookies.map (fun c => (c.Name, c.Value)) = sm.jar.map (fun c => (c.Name, c.Value)) := by
  obtain ⟨c, hc, hcs⟩ := hsess
  have hlen : ¬ (Cookies sm.jar).length = 0 := by
    intro h0
    rw [Cookies, List.length_map, List.length_eq_zero] at h0
    rw [h0] at hc
    cases hc
  have hany : ((Cookies sm.jar).any (fun c => isSessionCookie lib c.Name)) = true := by
    rw [Cookies, List.any_map]
    exact List.any_eq_true.mpr ⟨c, hc, hcs⟩
  have hsave : SaveCookies lib J IOFaults.none now sm
      = (none, { cookieFile := some bc, sessionFile := some bs }) := by
    unfold SaveCookies
    simp only [IOFaults.none, Bool.false_eq_true, if_false, hlen, hany, Bool.not_true, hbc, hbs]
  rw [hsave] at hdisk
  simp only at hdisk
  refine ⟨by rw [hsave], ⟨bs, _, by rw [hdisk], hbs', ?_, rfl, rfl⟩, ?_⟩
  · simp [Cookies]
  have hnot : ¬ Since now' now > SessionTimeout * Hour := by
    rw [since_gt_timeout_iff]; omega
  refine ⟨((Cookies sm.jar).map toCookieData).map toHttpCookie, ?_, ?_⟩
  · unfold loadCookies
    simp only [IOFaults.none, Bool.false_eq_true, if_false, hdisk, hbs', hnot, hbc']
  · simp only [Cookies, List.map_map]
    apply List.map_congr_left
    intro c _
    rfl

/-- C18, evaluated with the stand-in codec: the two cookies of `sampleManager`, saved at
instant 0 and loaded one hour later into a manager with an empty jar. -/
theorem C18_session_round_trip_witness :
    ∃ cookies,
      loadCookies plainCodec IOFaults.none Hour
          { userID := str "alice", jar := [],
            disk := (SaveCookies goLib plainCodec IOFaults.none 0 sampleManager).2 }
        = .ok cookies ∧
      cookies.map (fun c => (c.Name, c.Value))
        = [(str "JSESSIONID", str "abc123"), (str "lang", str "zh-TW")] :=
  (C18_session_round_trip goLib plainCodec sampleManager
    { userID := str "alice", jar := [],
      disk := (SaveCookies goLib plainCodec IOFaults.none 0 sampleManager).2 }
    0 Hour _ _ rfl rfl rfl rfl
    ⟨_, List.mem_cons_self _ _, by decide⟩ (by decide) rfl).2.2

/-- C19: for a session file that holds a session info, `loadCookies` returns
`ErrSessionExpired` (and so hands no cookie to the jar) exactly when the time since
`CreatedAt` is more than 12 hours, and `runStatus` computes `isExpired` as true in
exactly that case: 13 hours is expired, 11 hours and exactly 12 hours are not. -/
theorem C19_session_expiry (J : JsonCodec) (faults : IOFaults) (now : Int)
    (sm : SessionManager J) (blob : J.Blob) (info : SessionInfo)
    (hf : faults.readSessionFile = false) (hfile : sm.disk.sessionFile = some blob)
    (hinfo : J.unmarshalSession blob = some info) :
    (loadCookies J faults now sm = .error .ErrSessionExpired ↔
      now - info.CreatedAt > 12 * 3600 * 1000000000) ∧
    (runStatus.isExpired now info = true ↔ now - info.CreatedAt > 12 * 3600 * 1000000000) ∧
    (now - info.CreatedAt = 13 * 3600 * 1000000000 → runStatus.isExpired now info = true) ∧
    (now - info.CreatedAt = 11 * 3600 * 1000000000 → runStatus.isExpired now info = false) ∧
    (now - info.CreatedAt = 12 * 3600 * 1000000000 → runStatus.isExpired now info = false) := by
  have h1 := loadCookies_expired_iff J faults now sm blob info hf hfile hinfo
  have h2 := since_gt_timeout_iff now info.CreatedAt
  have h3 : runStatus.isExpired now info = true ↔ now - info.CreatedAt > 43200000000000 := by
    unfold runStatus.isExpired
    rw [decide_eq_true_iff]
    exact h2
  have h4 : ∀ d : Int, now - info.CreatedAt = d → ¬ d > 43200000000000 →
      runStatus.isExpired now info = false := by
    intro d hd hnot
    cases h : runStatus.isExpired now info with
    | false => rfl
    | true => rw [h3, hd] at h; exact absurd h hnot
  refine ⟨?_, ?_, ?_, ?_, ?_⟩
  · rw [h1, h2]; norm_num
  · rw [h3]; norm_num
  · intro h; rw [h3, h]; norm_num
  · intro h; exact h4 _ h (by norm_num)
  · intro h; exact h4 _ h (by norm_num)

/-- C19, evaluated: a session saved by `sampleManager` at instant 0, loaded 13 hours
later, is expired. -/
theorem C19_session_expiry_witness :
    loadCookies plainCodec IOFaults.none (13 * 3600 * 1000000000)
        { userID := str "alice", jar := [],
          disk := (SaveCookies goLib plainCodec IOFaults.none 0 sampleManager).2 }
      = .error .ErrSessionExpired :=
  (C19_session_expiry plainCodec IOFaults.none (13 * 3600 * 1000000000)
    { userID := str "alice", jar := [],
      disk := (SaveCookies goLib plainCodec IOFaults.none 0 sampleManager).2 }
    (.inr { UserID := str "alice", CreatedAt := 0, CookieCount := 2 })
    { UserID := str "alice", CreatedAt := 0, CookieCount := 2 } rfl rfl rfl).1.mpr
    (by decide)

/-- C20, counterexample: the name `sİd`, with the letter U+0130, is a session cookie,
because `strings.ToLower` maps that letter to `i`; it has four bytes, and is none of the
seven names up to the case of its letters. -/
theorem C20_counterexample :
    isSessionCookie (unicodeLib caseTable) dottedName = true ∧
    ToLower caseTable dottedName = str "sid" ∧
    ¬ ∃ scn ∈ [str "JSESSIONID", str "session", str "sessionid", str "sid",
        str "_session_id", str "ASP.NET_SessionId", str "PHPSESSID"],
      EqualIgnoringCase dottedName scn := by
  refine ⟨by decide, by decide, ?_⟩
  rintro ⟨scn, hscn, h⟩
  have hl := h.length_eq
  simp only [List.mem_cons, List.mem_singleton, List.not_mem_nil, or_false] at hscn
  rcases hscn with rfl | rfl | rfl | rfl | rfl | rfl | rfl <;> exact absurd hl (by decide)

/-- C20, amended: for a cookie name of ASCII bytes, and whatever the table of
`unicode.ToLower` above ASCII, `isSessionCookie` is true exactly when the name equals one
of `JSESSIONID`, `session`, `sessionid`, `sid`, `_session_id`, `ASP.NET_SessionId`,
`PHPSESSID` up to the case of its letters; `MYJSESSIONID` and `sid2`, which only contain
such a name, are not session cookies. -/
theorem C20_session_cookie_names (table : Nat → Nat) (name : GoString)
    (hname : isASCII name = true) :
    (isSessionCookie (unicodeLib table) name = true ↔
      ∃ scn ∈ [str "JSESSIONID", str "session", str "sessionid", str "sid",
          str "_session_id", str "ASP.NET_SessionId", str "PHPSESSID"],
        EqualIgnoringCase name scn) ∧
    isSessionCookie (unicodeLib table) (str "MYJSESSIONID") = false ∧
    isSessionCookie (unicodeLib table) (str "sid2") = false := by
  have hfalse : ∀ n : GoString, isASCII n = true → isSessionCookie goLib n = false →
      isSessionCookie (unicodeLib table) n = false := by
    intro n hn h
    cases hu : isSessionCookie (unicodeLib table) n with
    | false => rfl
    | true =>
      rw [(isSessionCookie_unicodeLib_iff table n hn).1 hu |>
        (isSessionCookie_goLib_iff n).2] at h
      exact absurd h (by simp)
  exact ⟨isSessionCookie_unicodeLib_iff table name hname,
    hfalse _ (by decide) (by decide), hfalse _ (by decide) (by decide)⟩

/-- C20, evaluated: `PhpSessId` is a session cookie name. -/
theorem C20_session_cookie_names_witness :
    isASCII (str "PhpSessId") = true ∧
    isSessionCookie (unicodeLib caseTable) (str "PhpSessId") = true :=
  ⟨by decide,
   (C20_session_cookie_names caseTable (str "PhpSessId") (by decide)).1.mpr
     ⟨str "PHPSESSID", by decide, by
       unfold EqualIgnoringCase sameLetter
       decide⟩⟩

/-! ## Lemmas on `ParseWeekTimecard` -/

namespace ParseWeekTimecard

variable (lib : StdLib) (fl : Float64Model)

theorem rowEntry_some {row : RowNode} {e : WeekEntry fl.F}
    (h : rowEntry lib fl row = some e) :
    ∃ idxStr idx, rowIndex row = some (idxStr, idx) ∧
      e.Days = (List.range 7).map (dayEntry lib fl row idx) ∧
      e.ProjectID = (selectedProject lib row).1 ∧
      e.ProjectID ≠ [] ∧ e.ProjectID ≠ str "--" := by
  unfold rowEntry at h
  split at h
  · exact absurd h (by simp)
  · rename_i idxStr idx hi
    dsimp only at h
    split at h
    · exact absurd h (by simp)
    · rename_i hp
      simp only [Option.some.injEq] at h
      subst h
      exact ⟨idxStr, idx, hi, rfl, rfl, fun h0 => hp (Or.inl h0), fun h1 => hp (Or.inr h1)⟩

theorem rowStep_none {st : List (WeekEntry fl.F) × List fl.F} {row : RowNode}
    (h : rowEntry lib fl row = none) : rowStep lib fl st row = st := by
  simp [rowStep, h]

theorem rowStep_some {st : List (WeekEntry fl.F) × List fl.F} {row : RowNode}
    {e : WeekEntry fl.F} {idxStr : GoString} {idx : Int}
    (h : rowEntry lib fl row = some e) (hi : rowIndex row = some (idxStr, idx)) :
    rowStep lib fl st row = (st.1 ++ [e], rowTotals lib fl row idx st.2) := by
  simp [rowStep, h, hi]

theorem foldl_rowStep_entries (rows : List RowNode) (st : List (WeekEntry fl.F) × List fl.F) :
    (rows.foldl (rowStep lib fl) st).1 = st.1 ++ rows.filterMap (rowEntry lib fl) := by
  induction rows generalizing st with
  | nil => simp
  | cons row rows ih =>
    rw [List.foldl_cons, ih]
    cases h : rowEntry lib fl row with
    | none => simp [rowStep_none lib fl h, List.filterMap_cons, h]
    | some e =>
      obtain ⟨idxStr, idx, hi, -⟩ := rowEntry_some lib fl h
      simp [rowStep_some lib fl h hi, List.filterMap_cons, h]

theorem foldl_range_totals (f : Nat → Option fl.F) (n : Nat) (t : List fl.F) :
    ((List.range n).foldl
        (fun totals dayIdx =>
          match f dayIdx with
          | some h => addTotal fl totals dayIdx h
          | none => totals) t).length = t.length ∧
    ∀ d, d < t.length →
      ((List.range n).foldl
        (fun totals dayIdx =>
          match f dayIdx with
          | some h => addTotal fl totals dayIdx h
          | none => totals) t).getD d fl.zero =
        if d < n then
          (match f d with
           | some h => fl.add (t.getD d fl.zero) h
           | none => t.getD d fl.zero)
        else t.getD d fl.zero := by
  induction n with
  | zero => simp
  | succ n ih =>
    rw [List.range_succ, List.foldl_append]
    simp only [List.foldl_cons, List.foldl_nil]
    generalize List.foldl _ t (List.range n) = r at ih ⊢
    obtain ⟨ihl, ihg⟩ := ih
    constructor
    · cases hf : f n with
      | none => simpa using ihl
      | some h => simpa [addTotal] using ihl
    · intro d hd
      have hg := ihg d hd
      cases hf : f n with
      | none =>
        simp only
        rw [hg]
        by_cases hdn : d < n
        · simp [hdn, Nat.lt_succ_of_lt hdn]
        · by_cases hdn' : d = n
          · subst hdn'
            simp [hf]
          · have : ¬ d < n + 1 := by omega
            simp [hdn, this]
      | some h =>
        simp only [addTotal]
        by_cases hdn' : d = n
        · subst hdn'
          simp only [Nat.lt_irrefl, if_false] at hg
          rw [hg]
          simp [List.getD_eq_getElem?_getD, List.getElem?_set, hf, ihl, hd]
        · have hne : n ≠ d := fun h => hdn' h.symm
          simp only [List.getD_eq_getElem?_getD] at hg ⊢
          rw [List.getElem?_set_ne hne, hg]
          by_cases hdn : d < n
          · simp [hdn, Nat.lt_succ_of_lt hdn]
          · have : ¬ d < n + 1 := by omega
            simp [hdn, this]

theorem rowTotals_spec (row : RowNode) (idx : Int) (t : List fl.F) (ht : t.length = 7) :
    (rowTotals lib fl row idx t).length = 7 ∧
    ∀ d, d < 7 →
      (rowTotals lib fl row idx t).getD d fl.zero =
        match parsedHours lib fl (row.find (daySelector "record" idx d)) with
        | some h => fl.add (t.getD d fl.zero) h
        | none => t.getD d fl.zero := by
  have h := foldl_range_totals fl
    (fun d => parsedHours lib fl (row.find (daySelector "record" idx d))) 7 t
  refine ⟨by rw [← ht]; exact h.1, fun d hd => ?_⟩
  have h2 := h.2 d (by omega)
  simp only [hd, if_true] at h2
  exact h2

end ParseWeekTimecard

theorem sumHours_append (fl : Float64Model) (es : List (WeekEntry fl.F)) (e : WeekEntry fl.F)
    (d : Nat) :
    sumHours fl (es ++ [e]) d =
      match (e.Days.map (fun x => x.Hours)).getD d .other with
      | .float64 h => fl.add (sumHours fl es d) h
      | _ => sumHours fl es d := by
  simp [sumHours, List.foldl_append]

namespace ParseWeekTimecard

variable (lib : StdLib) (fl : Float64Model)

theorem days_hours (row : RowNode) (idx : Int) (d : Nat) (hd : d < 7) :
    (((List.range 7).map (dayEntry lib fl row idx)).map (fun x => x.Hours)).getD d .other =
      hoursValue lib fl (row.find (daySelector "record" idx d)) := by
  simp [List.getD_eq_getElem?_getD, List.getElem?_map, List.getElem?_range hd, dayEntry]

theorem foldl_rowStep_totals (rows : List RowNode) (st : List (WeekEntry fl.F) × List fl.F)
    (hlen : st.2.length = 7) (hinv : ∀ d, d < 7 → st.2.getD d fl.zero = sumHours fl st.1 d) :
    (rows.foldl (rowStep lib fl) st).2.length = 7 ∧
    ∀ d, d < 7 →
      (rows.foldl (rowStep lib fl) st).2.getD d fl.zero =
        sumHours fl (rows.foldl (rowStep lib fl) st).1 d := by
  induction rows generalizing st with
  | nil => exact ⟨hlen, hinv⟩
  | cons row rows ih =>
    rw [List.foldl_cons]
    cases h : rowEntry lib fl row with
    | none =>
      rw [rowStep_none lib fl h]
      exact ih st hlen hinv
    | some e =>
      obtain ⟨idxStr, idx, hi, hdays, -⟩ := rowEntry_some lib fl h
      rw [rowStep_some lib fl h hi]
      have hs := rowTotals_spec lib fl row idx st.2 hlen
      refine ih _ hs.1 (fun d hd => ?_)
      dsimp only
      rw [hs.2 d hd, sumHours_append, hdays, days_hours lib fl row idx d hd, hoursValue,
        hinv d hd]
      cases parsedHours lib fl (row.find (daySelector "record" idx d)) <;> rfl

theorem foldl_subtotalStep (cells : List GoString) (t : List fl.F) :
    (cells.enum.foldl (subtotalStep lib fl) t).length = t.length ∧
    ∀ d, d < 7 → d < t.length →
      (cells.enum.foldl (subtotalStep lib fl) t).getD d fl.zero =
        match (cells.get? (d + 1)).bind (fun c => fl.parseFloat (lib.TrimSpace c)) with
        | some total => total
        | none => t.getD d fl.zero := by
  induction cells using List.reverseRecOn with
  | nil => simp
  | append_singleton cells c ih =>
    rw [List.enum_append, List.foldl_append]
    simp only [List.enumFrom_singleton, List.foldl_cons, List.foldl_nil]
    generalize List.foldl (subtotalStep lib fl) t cells.enum = r at ih ⊢
    obtain ⟨ihl, ihg⟩ := ih
    have hstep : ∀ u : List fl.F,
        (subtotalStep lib fl u (cells.length, c)).length = u.length := by
      intro u
      unfold subtotalStep
      dsimp only
      split
      · rfl
      · split
        · split <;> simp
        · rfl
    refine ⟨by rw [hstep, ihl], fun d hd hdt => ?_⟩
    have hg := ihg d hd hdt
    by_cases hc : cells.length = d + 1
    · have hget : (cells ++ [c]).get? (d + 1) = some c := by
        rw [← hc]; simp
      have hget' : cells.get? (d + 1) = none := by
        rw [← hc]; simp
      rw [hget']  at hg
      simp only [Option.none_bind] at hg
      rw [hget]
      simp only [Option.some_bind]
      unfold subtotalStep
      simp only [hc, Nat.succ_ne_zero, if_false, Nat.add_sub_cancel, hd, if_true]
      cases hp : fl.parseFloat (lib.TrimSpace c) with
      | none => simpa using hg
      | some total =>
        simp [List.getD_eq_getElem?_getD, List.getElem?_set, ihl, hdt]
    · have hget : (cells ++ [c]).get? (d + 1) = cells.get? (d + 1) := by
        by_cases hlt : d + 1 < cells.length
        · simp [List.getElem?_append_left hlt]
        · have h1 : cells.length < d + 1 := by omega
          simp only [List.get?_eq_getElem?]
          rw [List.getElem?_eq_none (by simp; omega), List.getElem?_eq_none (by omega)]
      rw [hget, ← hg]
      unfold subtotalStep
      dsimp only
      split
      · rfl
      · split
        · split
          · simp only [List.getD_eq_getElem?_getD]
            rw [List.getElem?_set_ne (by omega)]
          · rfl
        · rfl

end ParseWeekTimecard

theorem ParseWeekTimecard_entries (lib : StdLib) (fl : Float64Model) (doc : Document)
    (date : GoString) :
    (ParseWeekTimecard lib fl (some doc) date).Entries =
      doc.rows.filterMap (ParseWeekTimecard.rowEntry lib fl) := by
  simp [ParseWeekTimecard, ParseWeekTimecard.foldl_rowStep_entries]

theorem ParseWeekTimecard_totals (lib : StdLib) (fl : Float64Model) (doc : Document)
    (date : GoString) :
    (ParseWeekTimecard lib fl (some doc) date).DailyTotals.length = 7 ∧
    ∀ d, d < 7 →
      (ParseWeekTimecard lib fl (some doc) date).DailyTotals.getD d fl.zero =
        match (doc.subtotalCells.get? (d + 1)).bind
          (fun c => fl.parseFloat (lib.TrimSpace c)) with
        | some total => total
        | none => sumHours fl (ParseWeekTimecard lib fl (some doc) date).Entries d := by
  have ht := ParseWeekTimecard.foldl_rowStep_totals lib fl doc.rows ([], List.replicate 7 fl.zero)
    (by simp) (fun d hd => by
      simp only [sumHours, List.foldl_nil]
      interval_cases d <;> rfl)
  have hs := ParseWeekTimecard.foldl_subtotalStep lib fl doc.subtotalCells
    (doc.rows.foldl (ParseWeekTimecard.rowStep lib fl) ([], List.replicate 7 fl.zero)).2
  refine ⟨?_, fun d hd => ?_⟩
  · simp only [ParseWeekTimecard]
    rw [hs.1, ht.1]
  · simp only [ParseWeekTimecard]
    rw [hs.2 d hd (by rw [ht.1]; exact hd), ht.2 d hd]

theorem foldl_last {α β : Type} (g : α → β) (init : β) (l : List α) :
    l.foldl (fun _ a => g a) init = (l.getLast?.map g).getD init := by
  induction l using List.reverseRecOn with
  | nil => rfl
  | append_singleton l a _ => simp [List.foldl_append]

theorem ParseWeekTimecard.rowEntry_of_project {lib : StdLib} {fl : Float64Model} {row : RowNode}
    (h : (ParseWeekTimecard.selectedProject lib row).1 = [] ∨
      (ParseWeekTimecard.selectedProject lib row).1 = str "--") :
    ParseWeekTimecard.rowEntry lib fl row = none := by
  unfold ParseWeekTimecard.rowEntry
  split
  · rfl
  · simp [h]

theorem ParseWeekTimecard.selectedProject_fst (lib : StdLib) (row : RowNode) :
    (ParseWeekTimecard.selectedProject lib row).1 =
      (((row.find (str "select[name^='project']")).selectedOptions.getLast?).map
        (fun opt => opt.value.getD [])).getD [] := by
  unfold ParseWeekTimecard.selectedProject
  rw [foldl_last (fun opt : OptionNode => (opt.value.getD [], lib.TrimSpace opt.text))]
  cases (row.find (str "select[name^='project']")).selectedOptions.getLast? <;> rfl

/-! ## C15 – C17: the week page -/

/-- C15, counterexample: a row whose first hours field holds `abc`, a text that
`strconv.ParseFloat` rejects, gets the blank value `""` as the hours of that day, and not
the raw text `abc`. -/
theorem C15_counterexample :
    hoursOf (ParseWeekTimecard goLib decimalHours
        (some (samplePage [str "abc", str " ", str "8"] [])) []) =
      [[.string [], .string [], .float64 (8 : Int), .string [], .string [], .string [],
        .string []]] ∧
    str "abc" ≠ [] := by
  constructor
  · rfl
  · decide

/-- C15, amended: the hours of a day are a two-way value. For every hours field,
`DayEntry.Hours` is the number that `strconv.ParseFloat` returns for the trimmed text
when the field is there, its value is not empty, the trimmed value is not empty and it
parses; and it is the blank `""` in every other case, also when the text does not parse.
Every emitted entry comes from a row of the page, and the hours of its day `d` are that
value for the field `record{idx}_{d}` of the row. -/
theorem C15_hours_two_way (lib : StdLib) (fl : Float64Model) (doc : Document)
    (date : GoString) :
    (∀ hourInput : Selection,
      ParseWeekTimecard.hoursValue lib fl hourInput =
        if hourInput.length = 0 ∨ (hourInput.attr (str "value")).getD [] = [] ∨
            lib.TrimSpace ((hourInput.attr (str "value")).getD []) = [] then .string []
        else
          match fl.parseFloat (lib.TrimSpace ((hourInput.attr (str "value")).getD [])) with
          | some hours => .float64 hours
          | none => .string []) ∧
    (∀ e, e ∈ (ParseWeekTimecard lib fl (some doc) date).Entries →
      ∃ row idxStr idx, row ∈ doc.rows ∧
        ParseWeekTimecard.rowIndex row = some (idxStr, idx) ∧
        e.Days.map (fun d => d.Hours) =
          (List.range 7).map (fun d =>
            ParseWeekTimecard.hoursValue lib fl
              (row.find (ParseWeekTimecard.daySelector "record" idx d)))) := by
  constructor
  · intro hourInput
    unfold ParseWeekTimecard.hoursValue ParseWeekTimecard.parsedHours
    by_cases h0 : hourInput.length = 0
    · simp [h0]
    · by_cases h1 : (hourInput.attr (str "value")).getD [] = []
      · simp [h0, h1]
      · by_cases h2 : lib.TrimSpace ((hourInput.attr (str "value")).getD []) = []
        · simp [h0, h1, h2]
        · have h0' : hourInput.length > 0 := Nat.pos_of_ne_zero h0
          simp [h0, h0', h1, h2]
  · intro e he
    rw [ParseWeekTimecard_entries, List.mem_filterMap] at he
    obtain ⟨row, hrow, hre⟩ := he
    obtain ⟨idxStr, idx, hi, hdays, -⟩ := ParseWeekTimecard.rowEntry_some lib fl hre
    refine ⟨row, idxStr, idx, hrow, hi, ?_⟩
    rw [hdays, List.map_map]
    rfl

/-- C15, at the page of one row with the hours `8.0, 8.0, 8.0, 8.0, 8.0, 0, 0`: the
entry of the row is emitted and its hours are those of the fields of a row. -/
theorem C15_hours_two_way_witness :
    sampleWeekEntry ∈
        (ParseWeekTimecard goLib decimalHours (some (samplePage sampleHours [])) []).Entries ∧
    ∃ row idxStr idx, row ∈ (samplePage sampleHours []).rows ∧
      ParseWeekTimecard.rowIndex row = some (idxStr, idx) ∧
      sampleWeekEntry.Days.map (fun d => d.Hours) =
        (List.range 7).map (fun d =>
          ParseWeekTimecard.hoursValue goLib decimalHours
            (row.find (ParseWeekTimecard.daySelector "record" idx d))) :=
  ⟨List.mem_singleton.2 rfl,
    (C15_hours_two_way goLib decimalHours (samplePage sampleHours []) []).2 sampleWeekEntry
      (List.mem_singleton.2 rfl)⟩

/-- C16, counterexample: the page has a subtotal row whose cell of the first day holds
`abc`, which does not parse, and which has no cell for the second day; the totals of
these days are the sums 8 and 8 of the hours of the entries, not values of cells. -/
theorem C16_counterexample :
    (ParseWeekTimecard goLib decimalHours
        (some (samplePage sampleHours [str "Total", str "abc"])) []).DailyTotals =
      ([8, 8, 8, 8, 8, 0, 0] : List Int) ∧
    decimalHours.parseFloat (goLib.TrimSpace (str "abc")) = none := by
  constructor
  · rfl
  · rfl

/-- C16, amended: `DailyTotals` has 7 values for every page. The total of day `d` is the
number parsed from the trimmed text of the cell of index `d + 1` among the cells of
`tr.subtotal td` when that cell exists and its text parses; in every other case (no
subtotal row, a missing cell, a text that does not parse) it is the float64 sum, in row
order and from zero, of the numeric hours of day `d` over the emitted entries. In the
whole-hours model, one entry with the hours 8.0, 8.0, 8.0, 8.0, 8.0, 0, 0 and no
subtotal row gives 8, 8, 8, 8, 8, 0, 0. -/
theorem C16_daily_totals (lib : StdLib) (fl : Float64Model) (doc : Document)
    (date : GoString) :
    (ParseWeekTimecard lib fl none date).DailyTotals.length = 7 ∧
    (ParseWeekTimecard lib fl (some doc) date).DailyTotals.length = 7 ∧
    (∀ d, d < 7 →
      (ParseWeekTimecard lib fl (some doc) date).DailyTotals.getD d fl.zero =
        match (doc.subtotalCells.get? (d + 1)).bind
          (fun c => fl.parseFloat (lib.TrimSpace c)) with
        | some total => total
        | none => sumHours fl (ParseWeekTimecard lib fl (some doc) date).Entries d) ∧
    (ParseWeekTimecard goLib decimalHours (some (samplePage sampleHours [])) date).DailyTotals =
      ([8, 8, 8, 8, 8, 0, 0] : List Int) := by
  refine ⟨by simp [ParseWeekTimecard], (ParseWeekTimecard_totals lib fl doc date).1,
    (ParseWeekTimecard_totals lib fl doc date).2, rfl⟩

/-- C16, at the page with the subtotal cells `Total`, ` 40 `: the total of the first day
is the 40 of its cell. -/
theorem C16_daily_totals_witness :
    (0 < 7) ∧
    (ParseWeekTimecard goLib decimalHours
        (some (samplePage sampleHours [str "Total", str " 40 "])) []).DailyTotals.getD 0
          decimalHours.zero =
      match ((samplePage sampleHours [str "Total", str " 40 "]).subtotalCells.get? (0 + 1)).bind
          (fun c => decimalHours.parseFloat (goLib.TrimSpace c)) with
      | some total => total
      | none => sumHours decimalHours
          (ParseWeekTimecard goLib decimalHours
            (some (samplePage sampleHours [str "Total", str " 40 "])) []).Entries 0 :=
  ⟨by decide,
    (C16_daily_totals goLib decimalHours (samplePage sampleHours [str "Total", str " 40 "])
      []).2.2.1 0 (by decide)⟩

/-- C17: the entries of the result are those of the rows that emit one, in row order
(none when the page does not parse). A row whose project selector has no selected option,
or whose selected option (the last one, if several) has no value, an empty value or the
value `--`, emits none. Every emitted entry has a project id that is neither empty nor
`--`, and 7 day entries. -/
theorem C17_rows_without_project (lib : StdLib) (fl : Float64Model) (doc : Document)
    (date : GoString) :
    (ParseWeekTimecard lib fl none date).Entries = [] ∧
    (ParseWeekTimecard lib fl (some doc) date).Entries =
      doc.rows.filterMap (ParseWeekTimecard.rowEntry lib fl) ∧
    (∀ row : RowNode,
      ((row.find (str "select[name^='project']")).selectedOptions = [] ∨
        (((row.find (str "select[name^='project']")).selectedOptions.getLast?).map
          (fun opt => opt.value.getD [])).getD [] = [] ∨
        (((row.find (str "select[name^='project']")).selectedOptions.getLast?).map
          (fun opt => opt.value.getD [])).getD [] = str "--") →
      ParseWeekTimecard.rowEntry lib fl row = none) ∧
    (∀ e, e ∈ (ParseWeekTimecard lib fl (some doc) date).Entries →
      e.ProjectID ≠ [] ∧ e.ProjectID ≠ str "--" ∧ e.Days.length = 7) := by
  refine ⟨rfl, ParseWeekTimecard_entries lib fl doc date, fun row h => ?_, fun e he => ?_⟩
  · apply ParseWeekTimecard.rowEntry_of_project
    rw [ParseWeekTimecard.selectedProject_fst]
    rcases h with h | h | h
    · left
      rw [h]
      rfl
    · exact Or.inl h
    · exact Or.inr h
  · rw [ParseWeekTimecard_entries, List.mem_filterMap] at he
    obtain ⟨row, -, hre⟩ := he
    obtain ⟨idxStr, idx, -, hdays, -, h1, h2⟩ := ParseWeekTimecard.rowEntry_some lib fl hre
    exact ⟨h1, h2, by rw [hdays]; simp⟩

/-- C17, at the page of `sampleRow` and a row with no selected project: the second row
emits no entry, and the entry of the first has the project id `101` and 7 days. -/
theorem C17_rows_without_project_witness :
    ParseWeekTimecard.rowEntry goLib decimalHours unselectedRow = none ∧
    sampleWeekEntry.ProjectID ≠ [] ∧ sampleWeekEntry.ProjectID ≠ str "--" ∧
      sampleWeekEntry.Days.length = 7 :=
  ⟨(C17_rows_without_project goLib decimalHours (samplePage sampleHours []) []).2.2.1
      unselectedRow (Or.inl rfl),
    (C17_rows_without_project goLib decimalHours (samplePage sampleHours []) []).2.2.2
      sampleWeekEntry (List.mem_singleton.2 rfl)⟩

/-! ## Lemmas on the pattern matcher -/

theorem mem_downFrom {hi lo k : Nat} : k ∈ downFrom hi lo ↔ lo ≤ k ∧ k ≤ hi := by
  simp only [downFrom, List.mem_reverse, List.mem_filter, List.mem_range, decide_eq_true_eq]
  omega

theorem downFrom_succ (hi lo : Nat) :
    downFrom (hi + 1) lo = (if lo ≤ hi + 1 then [hi + 1] else []) ++ downFrom hi lo := by
  simp only [downFrom]
  rw [List.range_succ, List.filter_append, List.reverse_append]
  congr 1
  by_cases h : lo ≤ hi + 1 <;> simp [h, List.filter_cons]

theorem findSome?_downFrom {α : Type} (f : Nat → Option α) (hi lo k0 : Nat)
    (hlo : lo ≤ k0) (hhi : k0 ≤ hi) (hk : (f k0).isSome = true)
    (hfail : ∀ k, k0 < k → k ≤ hi → f k = none) :
    (downFrom hi lo).findSome? f = f k0 := by
  induction hi with
  | zero =>
    have h0 : k0 = 0 := by omega
    subst h0
    have hl : lo = 0 := by omega
    subst hl
    obtain ⟨v, hv⟩ := Option.isSome_iff_exists.mp hk
    simp [downFrom, List.range_succ, hv]
  | succ hi ih =>
    rw [downFrom_succ]
    by_cases hk0 : k0 = hi + 1
    · subst hk0
      obtain ⟨v, hv⟩ := Option.isSome_iff_exists.mp hk
      simp [hlo, hv]
    · have hle : k0 ≤ hi := by omega
      have hnone : f (hi + 1) = none := hfail (hi + 1) (by omega) (le_refl _)
      have ih' := ih hle (fun k h1 h2 => hfail k h1 (by omega))
      by_cases h : lo ≤ hi + 1
      · simp [h, hnone, ih']
      · simp [h, ih']

theorem findSome?_downFrom_none {α : Type} (f : Nat → Option α) (hi lo : Nat)
    (hfail : ∀ k, lo ≤ k → k ≤ hi → f k = none) :
    (downFrom hi lo).findSome? f = none := by
  rw [List.findSome?_eq_none_iff]
  intro k hk
  obtain ⟨h1, h2⟩ := mem_downFrom.mp hk
  exact hfail k h1 h2

theorem matchItems_lits (bs : GoString) (is : List Item) (rest : GoString) :
    matchItems (bs.map Item.byte ++ is) (bs ++ rest) =
      (matchItems is rest).map (fun cs => bs.map (fun c => [c]) ++ cs) := by
  induction bs with
  | nil => simp
  | cons b bs ih =>
    show matchItems (Item.byte b :: (bs.map Item.byte ++ is)) (b :: (bs ++ rest)) = _
    rw [matchItems, if_pos rfl, ih, Option.map_map]
    rfl

theorem takeWhile_append_of_all {p : Byte → Bool} (a rest : GoString)
    (ha : a.all p = true) (hrest : rest.head?.all (fun b => !p b) = true) :
    (a ++ rest).takeWhile p = a := by
  induction a with
  | nil =>
    cases rest with
    | nil => rfl
    | cons c r =>
      simp only [List.head?_cons, Option.all_some, Bool.not_eq_true'] at hrest
      simp [List.takeWhile, hrest]
  | cons x a ih =>
    simp only [List.all_cons, Bool.and_eq_true] at ha
    simp [List.takeWhile, ha.1, ih ha.2]

theorem matchItems_plus_all {p : Byte → Bool} (a rest : GoString) (is : List Item)
    (cs : List GoString) (ha : a.all p = true) (hne : a ≠ [])
    (hrest : rest.head?.all (fun b => !p b) = true) (hm : matchItems is rest = some cs) :
    matchItems (.plus p :: is) (a ++ rest) = some (a :: cs) := by
  rw [matchItems, takeWhile_append_of_all a rest ha hrest]
  rw [findSome?_downFrom _ a.length 1 a.length
    (by cases a with
        | nil => exact absurd rfl hne
        | cons x a => simp)
    (le_refl _) (by simp [hm]) (fun k h1 h2 => by omega)]
  simp [hm]

theorem matchItems_star_all {p : Byte → Bool} (a rest : GoString) (is : List Item)
    (cs : List GoString) (ha : a.all p = true)
    (hrest : rest.head?.all (fun b => !p b) = true) (hm : matchItems is rest = some cs) :
    matchItems (.star p :: is) (a ++ rest) = some (a :: cs) := by
  rw [matchItems, takeWhile_append_of_all a rest ha hrest]
  rw [findSome?_downFrom _ a.length 0 a.length (Nat.zero_le _)
    (le_refl _) (by simp [hm]) (fun k h1 h2 => by omega)]
  simp [hm]

theorem matchItems_plus_none {p : Byte → Bool} (s : GoString) (is : List Item)
    (hs : s.head?.all (fun b => !p b) = true) :
    matchItems (.plus p :: is) s = none := by
  have h := takeWhile_append_of_all (p := p) [] s rfl hs
  simp only [List.nil_append] at h
  rw [matchItems, h]
  rfl

theorem matchItems_literals {is : List Item} {s : GoString} {cs : List GoString}
    (h : matchItems is s = some cs) : (is.filterMap Item.literal).Sublist s := by
  induction is generalizing s cs with
  | nil => simp
  | cons it is ih =>
    cases it with
    | byte c =>
      cases s with
      | nil => simp [matchItems] at h
      | cons x rest =>
        simp only [matchItems] at h
        split at h
        · rename_i hx
          cases hm : matchItems is rest with
          | none => simp [hm] at h
          | some cs' =>
            subst hx
            simpa [List.filterMap_cons, Item.literal] using ih hm
        · exact absurd h (by simp)
    | cls p =>
      cases s with
      | nil => simp [matchItems] at h
      | cons x rest =>
        simp only [matchItems] at h
        split at h
        · cases hm : matchItems is rest with
          | none => simp [hm] at h
          | some cs' =>
            simpa [List.filterMap_cons, Item.literal] using (ih hm).cons x
        · exact absurd h (by simp)
    | star p =>
      rw [matchItems] at h
      obtain ⟨k, -, hk⟩ := List.exists_of_findSome?_eq_some h
      cases hm : matchItems is (s.drop k) with
      | none => simp [hm] at hk
      | some cs' =>
        simpa [List.filterMap_cons, Item.literal] using (ih hm).trans (List.drop_sublist k s)
    | plus p =>
      rw [matchItems] at h
      obtain ⟨k, -, hk⟩ := List.exists_of_findSome?_eq_some h
      cases hm : matchItems is (s.drop k) with
      | none => simp [hm] at hk
      | some cs' =>
        simpa [List.filterMap_cons, Item.literal] using (ih hm).trans (List.drop_sublist k s)

theorem matchItems_bytes {is : List Item} {s : GoString} {cs : List GoString}
    (h : matchItems is s = some cs) (b : Byte) (hb : Item.byte b ∈ is) : b ∈ s :=
  (matchItems_literals h).subset (List.mem_filterMap.2 ⟨_, hb, rfl⟩)

theorem range_filter_zero (n : Nat) :
    (List.range (n + 1)).filter (fun i => decide (0 ≤ i) && (!true || i == 0)) = [0] := by
  rw [List.range_succ_eq_map, List.filter_cons]
  simp [List.filter_map, List.filter_eq_nil_iff]

theorem findMatch_anchored (p : Pattern) (s : GoString) (h : p.anchored = true) :
    findMatch p s 0 = (matchItems p.items s).map (fun cs => (0, cs)) := by
  rw [findMatch, h, range_filter_zero]
  simp only [List.findSome?_cons, List.findSome?_nil, List.drop_zero]
  cases matchItems p.items s <;> rfl

theorem findMatch_zero (p : Pattern) (s : GoString) (cs : List GoString)
    (h : matchItems p.items s = some cs) : findMatch p s 0 = some (0, cs) := by
  rw [findMatch, List.range_succ_eq_map, List.filter_cons]
  simp [h]

theorem findMatch_none (p : Pattern) (s : GoString)
    (h : ∀ i, matchItems p.items (s.drop i) = none) : findMatch p s 0 = none := by
  rw [findMatch, List.findSome?_eq_none_iff]
  intro i _
  simp [h i]

/-- `^\s+` finds the leading bytes of the class `\s`. -/
theorem findString_leadingSpace (s : GoString) :
    goLib.FindString "^\\s+" s = s.takeWhile reSpace := by
  show (match compile "^\\s+" with
    | some p =>
      match findMatch p s 0 with
      | some (_, cs) => cs.flatten
      | none => []
    | none => []) = _
  have hc : compile "^\\s+" = some rxLeadingSpace := rfl
  rw [hc]
  simp only
  rw [findMatch_anchored _ _ rfl]
  show (match Option.map (fun cs => (0, cs)) (matchItems [.plus reSpace] s) with
    | some (_, cs) => cs.flatten
    | none => []) = _
  have hs : s = s.takeWhile reSpace ++ s.dropWhile reSpace := (List.takeWhile_append_dropWhile _ _).symm
  by_cases he : s.takeWhile reSpace = []
  · rw [he, matchItems_plus_none]
    · rfl
    · cases s with
      | nil => rfl
      | cons c r =>
        simp only [List.takeWhile] at he
        cases hc : reSpace c with
        | true => simp [hc] at he
        | false => simp [hc]
  · have hrest : (s.dropWhile reSpace).head?.all (fun b => !reSpace b) = true := by
      cases hd : s.dropWhile reSpace with
      | nil => rfl
      | cons c r =>
        have := List.head_dropWhile_not reSpace s (by simp [hd])
        simp only [hd, List.head_cons] at this
        simp [this]
    have hm := matchItems_plus_all (s.takeWhile reSpace) (s.dropWhile reSpace) [] []
      (List.all_eq_true.2 (fun b hb => List.mem_takeWhile_imp hb)) he hrest
      (by simp [matchItems])
    rw [List.takeWhile_append_dropWhile] at hm
    rw [hm]
    simp

theorem goLib_FindStringSubmatch (pattern : String) (p : Pattern) (s : GoString)
    (hc : compile pattern = some p) :
    goLib.FindStringSubmatch pattern s =
      match findMatch p s 0 with
      | some (_, cs) => submatches p cs
      | none => [] := by
  show (match compile pattern with
    | some p =>
      match findMatch p s 0 with
      | some (_, cs) => submatches p cs
      | none => []
    | none => []) = _
  rw [hc]

/-- The numeric prefix pattern finds nothing in a text that does not start with a digit. -/
theorem numberPrefix_none (s : GoString) (h : s.head?.all (fun b => !reDigit b) = true) :
    goLib.FindStringSubmatch "^(\\d+[\\.\\)]\\s+)(.*)" s = [] := by
  rw [goLib_FindStringSubmatch "^(\\d+[\\.\\)]\\s+)(.*)" rxNumberPrefix s rfl,
    findMatch_anchored _ _ rfl]
  show (match Option.map (fun cs => (0, cs))
    (matchItems [.plus reDigit, .cls reDotParen, .plus reSpace, .star reDot] s) with
    | some (_, cs) => submatches rxNumberPrefix cs
    | none => []) = _
  rw [matchItems_plus_none s _ h]
  rfl

/-- The numeric prefix pattern on a text that starts with digits, `.` or `)`, and white
space: the submatches are the text, the prefix, and the rest. -/
theorem numberPrefix_some (digits gap rest : GoString) (sep : Byte)
    (hd : digits.all reDigit = true) (hd0 : digits ≠ []) (hsep : reDotParen sep = true)
    (hg : gap.all reSpace = true) (hg0 : gap ≠ [])
    (hr : rest.head?.all (fun b => !reSpace b) = true) (hdot : rest.all reDot = true) :
    goLib.FindStringSubmatch "^(\\d+[\\.\\)]\\s+)(.*)" (digits ++ sep :: (gap ++ rest)) =
      [digits ++ sep :: (gap ++ rest), digits ++ sep :: gap, rest] := by
  rw [goLib_FindStringSubmatch "^(\\d+[\\.\\)]\\s+)(.*)" rxNumberPrefix _ rfl,
    findMatch_anchored _ _ rfl]
  have h4 : matchItems [.star reDot] (rest ++ []) = some [rest] :=
    matchItems_star_all rest [] [] [] hdot rfl (by simp [matchItems])
  rw [List.append_nil] at h4
  have h3 : matchItems [.plus reSpace, .star reDot] (gap ++ rest) = some [gap, rest] :=
    matchItems_plus_all gap rest _ _ hg hg0 hr h4
  have h2 : matchItems [.cls reDotParen, .plus reSpace, .star reDot] (sep :: (gap ++ rest)) =
      some [[sep], gap, rest] := by
    rw [matchItems, if_pos hsep, h3]
    rfl
  have hsepd : reDigit sep = false := by
    have : sep.val = 46 ∨ sep.val = 41 := by
      simpa [reDotParen] using hsep
    rcases this with h | h <;> simp [reDigit, h]
  have h1 : matchItems [.plus reDigit, .cls reDotParen, .plus reSpace, .star reDot]
      (digits ++ sep :: (gap ++ rest)) = some [digits, [sep], gap, rest] :=
    matchItems_plus_all digits _ _ _ hd hd0 (by simp [hsepd]) h2
  show (match Option.map (fun cs => (0, cs))
    (matchItems [.plus reDigit, .cls reDotParen, .plus reSpace, .star reDot]
      (digits ++ sep :: (gap ++ rest))) with
    | some (_, cs) => submatches rxNumberPrefix cs
    | none => []) = _
  rw [h1]
  simp [submatches, rxNumberPrefix, groupText]

/-- The marker pattern finds nothing in a text without `<`. -/
theorem marker_none (s : GoString) (h : (60 : Byte) ∉ s) :
    goLib.FindStringSubmatch "(.+)\\s*<<[^>]+>>" s = [] := by
  rw [goLib_FindStringSubmatch "(.+)\\s*<<[^>]+>>" rxMarker s rfl, findMatch_none]
  intro i
  cases hm : matchItems rxMarker.items (s.drop i) with
  | none => rfl
  | some cs =>
    have hb : Item.byte 60 ∈ rxMarker.items := by
      show Item.byte 60 ∈ [.plus reDot, .star reSpace, .byte 60, .byte 60, .plus (reNot 62),
        .byte 62, .byte 62]
      simp
    exact absurd (List.mem_of_mem_drop (matchItems_bytes hm 60 hb)) h

theorem takeWhile_eq_nil_of_head {p : Byte → Bool} (s : GoString)
    (h : s.head?.all (fun b => !p b) = true) : s.takeWhile p = [] := by
  have := takeWhile_append_of_all (p := p) [] s rfl h
  simpa using this

/-- Cleaning leaves a name as it is, with the indent level 0, when the name does not
start with a byte of `\s` or with a digit and holds no `<`. -/
theorem cleanName_clean (n : GoString)
    (hs : n.head?.all (fun b => !reSpace b) = true)
    (hd : n.head?.all (fun b => !reDigit b) = true)
    (hlt : (60 : Byte) ∉ n) :
    parseJSArrays.cleanName goLib n = (0, n) := by
  unfold parseJSArrays.cleanName
  dsimp only
  rw [findString_leadingSpace, takeWhile_eq_nil_of_head n hs]
  simp only [ne_eq, not_true_eq_false, if_false]
  rw [numberPrefix_none n hd]
  simp only [List.length_nil, show ¬ (3 ≤ 0) from by decide, if_false]
  rw [marker_none n hlt]
  simp

theorem all_reNot_of_not_mem {c : Byte} {s : GoString} (h : c ∉ s) :
    s.all (reNot c) = true := by
  rw [List.all_eq_true]
  intro b hb
  simp only [reNot, bne_iff_ne, ne_eq]
  intro hbc
  exact h (hbc ▸ hb)

theorem matchItems_markerTail (mk : GoString) (hm0 : mk ≠ []) (hm2 : (62 : Byte) ∉ mk) :
    matchItems [.star reSpace, .byte 60, .byte 60, .plus (reNot 62), .byte 62, .byte 62]
        (60 :: 60 :: (mk ++ [62, 62])) =
      some [[], [60], [60], mk, [62], [62]] := by
  have h1 : matchItems [.byte 62, .byte 62] [62, 62] = some [[62], [62]] := by
    simp [matchItems]
  have h2 : matchItems [.plus (reNot 62), .byte 62, .byte 62] (mk ++ [62, 62]) =
      some [mk, [62], [62]] :=
    matchItems_plus_all mk [62, 62] _ _ (all_reNot_of_not_mem hm2) hm0 (by simp [reNot]) h1
  have h3 : matchItems [.byte 60, .byte 60, .plus (reNot 62), .byte 62, .byte 62]
      (60 :: 60 :: (mk ++ [62, 62])) = some [[60], [60], mk, [62], [62]] := by
    rw [matchItems, if_pos rfl, matchItems, if_pos rfl, h2]
    rfl
  exact matchItems_star_all (p := reSpace) [] (60 :: 60 :: (mk ++ [62, 62])) _ _ rfl rfl h3

/-- The marker pattern on a text that ends with a marker `<<mk>>`, where `mk` holds no
`<` and no `>`: the first submatch is all that stands before the marker. -/
theorem marker_some (pfx mk : GoString) (hp : pfx.all reDot = true) (hp0 : pfx ≠ [])
    (hm0 : mk ≠ []) (hm1 : (60 : Byte) ∉ mk) (hm2 : (62 : Byte) ∉ mk) :
    goLib.FindStringSubmatch "(.+)\\s*<<[^>]+>>" (pfx ++ ([60, 60] ++ mk ++ [62, 62])) =
      [pfx ++ ([60, 60] ++ mk ++ [62, 62]), pfx] := by
  rw [goLib_FindStringSubmatch "(.+)\\s*<<[^>]+>>" rxMarker _ rfl]
  have hitems : rxMarker.items =
      [.plus reDot, .star reSpace, .byte 60, .byte 60, .plus (reNot 62), .byte 62, .byte 62] :=
    rfl
  have hlen : pfx.length ≤
      ((pfx ++ ([60, 60] ++ mk ++ [62, 62])).takeWhile reDot).length := by
    rw [List.takeWhile_append_of_pos (fun b hb => List.all_eq_true.1 hp b hb)]
    simp
  have hpos : 1 ≤ pfx.length := by
    cases pfx with
    | nil => exact absurd rfl hp0
    | cons x r => simp
  have hmatch : matchItems rxMarker.items (pfx ++ ([60, 60] ++ mk ++ [62, 62])) =
      some [pfx, [], [60], [60], mk, [62], [62]] := by
    rw [hitems, matchItems]
    rw [findSome?_downFrom _ _ 1 pfx.length hpos hlen]
    · simp [matchItems_markerTail mk hm0 hm2]
    · simp [matchItems_markerTail mk hm0 hm2]
    · intro k hk _
      cases hm : matchItems
          [.star reSpace, .byte 60, .byte 60, .plus (reNot 62), .byte 62, .byte 62]
          ((pfx ++ ([60, 60] ++ mk ++ [62, 62])).drop k) with
      | none => rfl
      | some cs =>
        exfalso
        have hsub := matchItems_literals hm
        have hdrop : (pfx ++ ([60, 60] ++ mk ++ [62, 62])).drop k =
            ((60 : Byte) :: (mk ++ [62, 62])).drop (k - pfx.length - 1) := by
          have hk' : k = pfx.length + ((k - pfx.length - 1) + 1) := by omega
          rw [hk', List.drop_append]
          simp
        rw [hdrop] at hsub
        have hc := (hsub.trans (List.drop_sublist _ _)).count_le (60 : Byte)
        have hmk : List.count (60 : Byte) mk = 0 := List.count_eq_zero.2 hm1
        simp [Item.literal, List.filterMap_cons, List.count_cons, hmk] at hc
  rw [findMatch_zero _ _ _ hmatch]
  simp [submatches, rxMarker, groupText]

/-! ## Lemmas on `strings.TrimSpace` -/

theorem isPrefixOf_append_high (rest : GoString)
    (hr : rest.head?.all (fun b => decide (b.val < 128)) = true) :
    ∀ (q body : GoString), q.all (fun b => decide (128 ≤ b.val)) = true →
      q.isPrefixOf (body ++ rest) = true → q.isPrefixOf body = true := by
  intro q body
  induction body generalizing q with
  | nil =>
    intro hq h
    cases q with
    | nil => simp [List.isPrefixOf]
    | cons a q =>
      cases rest with
      | nil => simp [List.isPrefixOf] at h
      | cons r rest =>
        simp only [List.nil_append, List.isPrefixOf, Bool.and_eq_true, beq_iff_eq] at h
        simp only [List.head?_cons, Option.all_some, decide_eq_true_eq] at hr
        simp only [List.all_cons, Bool.and_eq_true, decide_eq_true_eq] at hq
        have := h.1 ▸ hq.1
        omega
  | cons b body ih =>
    intro hq h
    cases q with
    | nil => simp [List.isPrefixOf]
    | cons a q =>
      simp only [List.cons_append, List.isPrefixOf, Bool.and_eq_true] at h ⊢
      simp only [List.all_cons, Bool.and_eq_true] at hq
      exact ⟨h.1, ih q hq.2 h.2⟩

theorem isPrefixOf_append_tail_high (rest : GoString)
    (hr : rest.head?.all (fun b => decide (b.val < 128)) = true)
    (q body : GoString) (hq : q.tail.all (fun b => decide (128 ≤ b.val)) = true)
    (hb : body ≠ []) (h : q.isPrefixOf (body ++ rest) = true) : q.isPrefixOf body = true := by
  cases q with
  | nil => simp [List.isPrefixOf]
  | cons a q =>
    cases body with
    | nil => exact absurd rfl hb
    | cons b body =>
      simp only [List.cons_append, List.isPrefixOf, Bool.and_eq_true] at h ⊢
      exact ⟨h.1, isPrefixOf_append_high rest hr q body hq h.2⟩

theorem leadingSpace_eq_none {s : GoString} :
    leadingSpace s = none ↔ ∀ q ∈ spaceSeqs, q.isPrefixOf s = false := by
  simp only [leadingSpace, Option.map_eq_none', List.find?_eq_none, Bool.not_eq_true]

theorem trailingSpace_eq_none {s : GoString} :
    trailingSpace s = none ↔ ∀ q ∈ spaceSeqs, q.reverse.isPrefixOf s.reverse = false := by
  simp only [trailingSpace, Option.map_eq_none', List.find?_eq_none, Bool.not_eq_true]

theorem spaceSeqs_tail_high :
    ∀ q ∈ spaceSeqs, q.tail.all (fun b => decide (128 ≤ b.val)) = true ∧
      q.reverse.tail.all (fun b => decide (128 ≤ b.val)) = true := by
  have h : spaceSeqs.all (fun q => q.tail.all (fun b => decide (128 ≤ b.val)) &&
      q.reverse.tail.all (fun b => decide (128 ≤ b.val))) = true := by decide
  intro q hq
  have := List.all_eq_true.1 h q hq
  simpa using this

/-- White space is not found at the start of a text followed by ASCII text when it is not
found at the start of the text itself. -/
theorem leadingSpace_append (body rest : GoString) (hb : body ≠ [])
    (hr : rest.head?.all (fun b => decide (b.val < 128)) = true)
    (h : leadingSpace body = none) : leadingSpace (body ++ rest) = none := by
  rw [leadingSpace_eq_none] at h ⊢
  intro q hq
  cases hp : q.isPrefixOf (body ++ rest) with
  | false => rfl
  | true =>
    have := isPrefixOf_append_tail_high rest hr q body (spaceSeqs_tail_high q hq).1 hb hp
    rw [h q hq] at this
    exact absurd this (by simp)

/-- White space is not found at the end of a text that follows ASCII text when it is not
found at the end of the text itself. -/
theorem trailingSpace_append (pfx body : GoString) (hb : body ≠ [])
    (hr : pfx.getLast?.all (fun b => decide (b.val < 128)) = true)
    (h : trailingSpace body = none) : trailingSpace (pfx ++ body) = none := by
  rw [trailingSpace_eq_none] at h ⊢
  intro q hq
  rw [List.reverse_append]
  cases hp : q.reverse.isPrefixOf (body.reverse ++ pfx.reverse) with
  | false => rfl
  | true =>
    have := isPrefixOf_append_tail_high pfx.reverse (by simpa using hr) q.reverse body.reverse
      (spaceSeqs_tail_high q hq).2 (by simpa using hb) hp
    rw [h q hq] at this
    exact absurd this (by simp)

theorem spaceSeqs_ends :
    ∀ q ∈ spaceSeqs, ∃ a q', q = a :: q' ∧ (a.val ≤ 32 ∨ 128 ≤ a.val) ∧
      ∃ z q'', q.reverse = z :: q'' ∧ (z.val ≤ 32 ∨ 128 ≤ z.val) := by
  have h : spaceSeqs.all (fun q =>
      (match q with
        | a :: _ => decide (a.val ≤ 32) || decide (128 ≤ a.val)
        | [] => false) &&
      (match q.reverse with
        | z :: _ => decide (z.val ≤ 32) || decide (128 ≤ z.val)
        | [] => false)) = true := by decide
  intro q hq
  have h1 := List.all_eq_true.1 h q hq
  simp only [Bool.and_eq_true] at h1
  obtain ⟨ha, hz⟩ := h1
  cases q with
  | nil => simp at ha
  | cons a q' =>
    refine ⟨a, q', rfl, by simpa using ha, ?_⟩
    cases hrev : (a :: q').reverse with
    | nil => simp at hrev
    | cons z q'' =>
      rw [hrev] at hz
      exact ⟨z, q'', rfl, by simpa using hz⟩

/-- No white space starts with a printable ASCII byte. -/
theorem leadingSpace_printable (b : Byte) (r : GoString) (h1 : 32 < b.val) (h2 : b.val < 128) :
    leadingSpace (b :: r) = none := by
  rw [leadingSpace_eq_none]
  intro q hq
  obtain ⟨a, q', rfl, ha, -⟩ := spaceSeqs_ends q hq
  have hne : a ≠ b := by
    intro hab
    subst hab
    omega
  simp [List.isPrefixOf, hne]

/-- No white space ends with a printable ASCII byte. -/
theorem trailingSpace_printable (b : Byte) (r : GoString) (h1 : 32 < b.val)
    (h2 : b.val < 128) : trailingSpace (r ++ [b]) = none := by
  rw [trailingSpace_eq_none]
  intro q hq
  obtain ⟨-, -, -, -, z, q'', hz, hzv⟩ := spaceSeqs_ends q hq
  have hne : z ≠ b := by
    intro hzb
    subst hzb
    omega
  rw [hz]
  simp [List.isPrefixOf, hne]

theorem reSpace_cases {c : Byte} (h : reSpace c = true) :
    c = 9 ∨ c = 10 ∨ c = 12 ∨ c = 13 ∨ c = 32 := by
  have : c.val = 9 ∨ c.val = 10 ∨ c.val = 12 ∨ c.val = 13 ∨ c.val = 32 := by
    simpa [reSpace, or_assoc] using h
  rcases this with h | h | h | h | h
  · exact Or.inl (Fin.ext h)
  · exact Or.inr (Or.inl (Fin.ext h))
  · exact Or.inr (Or.inr (Or.inl (Fin.ext h)))
  · exact Or.inr (Or.inr (Or.inr (Or.inl (Fin.ext h))))
  · exact Or.inr (Or.inr (Or.inr (Or.inr (Fin.ext h))))

theorem leadingSpace_space (c : Byte) (r : GoString) (h : reSpace c = true) :
    leadingSpace (c :: r) = some 1 := by
  rcases reSpace_cases h with rfl | rfl | rfl | rfl | rfl <;>
    simp [leadingSpace, spaceSeqs, List.find?, List.isPrefixOf]

theorem trailingSpace_space (c : Byte) (r : GoString) (h : reSpace c = true) :
    trailingSpace (r ++ [c]) = some 1 := by
  unfold trailingSpace
  rw [List.reverse_append]
  rcases reSpace_cases h with rfl | rfl | rfl | rfl | rfl <;>
    simp [spaceSeqs, List.find?, List.isPrefixOf]

theorem trimLeft_spaces (lead x : GoString) (fuel : Nat) (hl : lead.all reSpace = true)
    (hf : lead.length ≤ fuel) (hx : leadingSpace x = none) :
    trimLeft fuel (lead ++ x) = x := by
  induction lead generalizing fuel with
  | nil =>
    cases fuel with
    | zero => rfl
    | succ f => simp [trimLeft, hx]
  | cons c l ih =>
    simp only [List.all_cons, Bool.and_eq_true] at hl
    cases fuel with
    | zero => simp at hf
    | succ f =>
      simp only [List.cons_append, trimLeft, leadingSpace_space c _ hl.1]
      exact ih f hl.2 (by simpa using hf)

theorem trimRight_spaces (x g : GoString) (fuel : Nat) (hg : g.all reSpace = true)
    (hf : g.length ≤ fuel) (hx : trailingSpace x = none) :
    trimRight fuel (x ++ g) = x := by
  induction g using List.reverseRecOn generalizing fuel with
  | nil =>
    cases fuel with
    | zero => simp [trimRight]
    | succ f => simp [trimRight, hx]
  | append_singleton g c ih =>
    simp only [List.all_append, List.all_cons, List.all_nil, Bool.and_true,
      Bool.and_eq_true] at hg
    cases fuel with
    | zero => simp at hf
    | succ f =>
      rw [← List.append_assoc]
      simp only [trimRight, trailingSpace_space c _ hg.2]
      rw [List.length_append, List.length_singleton, Nat.add_sub_cancel,
        List.take_left' rfl]
      exact ih f hg.1 (by simpa using hf)

/-- The function `TrimSpace` removes leading and trailing bytes of `\s` around a text
that does not start or end with white space. -/
theorem TrimSpaceUTF8_spaces (lead x g : GoString) (hl : lead.all reSpace = true)
    (hg : g.all reSpace = true) (hx : leadingSpace (x ++ g) = none)
    (hx' : trailingSpace x = none) :
    TrimSpaceUTF8 (lead ++ (x ++ g)) = x := by
  unfold TrimSpaceUTF8
  simp only
  rw [trimLeft_spaces lead (x ++ g) _ hl (by simp) hx]
  exact trimRight_spaces x g _ hg (by simp) hx'

/-! ## Cleaning of a label of the usual form -/

theorem reSpace_lt {b : Byte} (h : reSpace b = true) : b.val < 128 := by
  rcases reSpace_cases h with rfl | rfl | rfl | rfl | rfl <;> decide

theorem head_all_of_all {p : Byte → Bool} {s : GoString} (h : s.all p = true) :
    s.head?.all p = true := by
  cases s with
  | nil => rfl
  | cons c r =>
    simp only [List.all_cons, Bool.and_eq_true] at h
    simpa using h.1

theorem head_not_reSpace {body : GoString} (h : leadingSpace body = none) :
    body.head?.all (fun b => !reSpace b) = true := by
  cases body with
  | nil => rfl
  | cons c r =>
    cases hc : reSpace c with
    | false => simp [hc]
    | true =>
      rw [leadingSpace_space c r hc] at h
      exact absurd h (by simp)

theorem head_ascii_of_marker {tail : GoString} (h : tail = [] ∨ IsMarker tail) :
    tail.head?.all (fun b => decide (b.val < 128)) = true := by
  rcases h with rfl | ⟨gap, mk, rfl, hg, -⟩
  · rfl
  · cases gap with
    | nil => rfl
    | cons c r =>
      simp only [List.all_cons, Bool.and_eq_true] at hg
      simpa using reSpace_lt hg.1

theorem all_reDot_of_marker {tail : GoString} (h : tail = [] ∨ IsMarker tail) :
    tail.all reDot = true := by
  rcases h with rfl | ⟨gap, mk, rfl, -, hg, -, hm, -⟩
  · rfl
  · have h1 : ([60, 60] : GoString).all reDot = true := rfl
    have h2 : ([62, 62] : GoString).all reDot = true := rfl
    simp only [List.all_append, hg, hm, h1, h2, Bool.and_self]

/-- The marker step on a plain name followed by nothing or by a marker gives the name. -/
theorem markerStep_plain (body tail : GoString) (hbody : IsPlainName body)
    (htail : tail = [] ∨ IsMarker tail) :
    (if 2 ≤ (goLib.FindStringSubmatch "(.+)\\s*<<[^>]+>>" (body ++ tail)).length then
      goLib.TrimSpace ((goLib.FindStringSubmatch "(.+)\\s*<<[^>]+>>" (body ++ tail)).getD 1 [])
    else body ++ tail) = body := by
  obtain ⟨hb0, hbd, hb60, hbl, hbt⟩ := hbody
  rcases htail with rfl | ⟨gap, mk, rfl, hg, hgd, hm0, -, hm1, hm2⟩
  · rw [List.append_nil, marker_none body hb60]
    simp
  · rw [← List.append_assoc body gap, marker_some (body ++ gap) mk
      (by simp [List.all_append, hbd, hgd]) (by simp [hb0]) hm0 hm1 hm2]
    simp only [List.length_cons, List.length_nil, List.getD_cons_succ, List.getD_cons_zero]
    rw [if_pos (by decide)]
    have h := TrimSpaceUTF8_spaces [] body gap rfl hg
      (leadingSpace_append body gap hb0
        (by
          have := head_all_of_all hg
          cases gap with
          | nil => rfl
          | cons c r =>
            simp only [List.head?_cons, Option.all_some] at this
            simpa using reSpace_lt this) hbl) hbt
    simpa using h

/-- The numeric prefix step on a plain name with or without a numeric prefix, followed by
nothing or by a marker, gives the name and what follows it. -/
theorem prefixStep_plain (pre body tail : GoString)
    (hpre : (pre = [] ∧ body.head?.all (fun b => !reDigit b) = true) ∨ IsNumberPrefix pre)
    (hbody : IsPlainName body) (htail : tail = [] ∨ IsMarker tail) :
    (if 3 ≤ (goLib.FindStringSubmatch "^(\\d+[\\.\\)]\\s+)(.*)"
        (pre ++ (body ++ tail))).length then
      (goLib.FindStringSubmatch "^(\\d+[\\.\\)]\\s+)(.*)" (pre ++ (body ++ tail))).getD 2 []
    else pre ++ (body ++ tail)) = body ++ tail := by
  obtain ⟨hb0, hbd, hb60, hbl, hbt⟩ := hbody
  rcases hpre with ⟨rfl, hd⟩ | ⟨digits, sep, gap, rfl, hd0, hd, hsep, hg0, hg⟩
  · rw [List.nil_append, numberPrefix_none]
    · simp
    · cases body with
      | nil => exact absurd rfl hb0
      | cons c r => simpa using hd
  · have hhead : (body ++ tail).head?.all (fun b => !reSpace b) = true := by
      cases body with
      | nil => exact absurd rfl hb0
      | cons c r => simpa using head_not_reSpace hbl
    rw [List.append_assoc, List.cons_append,
      numberPrefix_some digits gap (body ++ tail) sep hd hd0 hsep hg hg0 hhead
        (by simp [List.all_append, hbd, all_reDot_of_marker htail])]
    simp

theorem leadingSpace_label (pre body tail : GoString)
    (hpre : (pre = [] ∧ body.head?.all (fun b => !reDigit b) = true) ∨ IsNumberPrefix pre)
    (hbody : IsPlainName body) (htail : tail = [] ∨ IsMarker tail) :
    leadingSpace (pre ++ (body ++ tail)) = none := by
  obtain ⟨hb0, hbd, hb60, hbl, hbt⟩ := hbody
  rcases hpre with ⟨rfl, -⟩ | ⟨digits, sep, gap, rfl, hd0, hd, -⟩
  · exact leadingSpace_append body tail hb0 (head_ascii_of_marker htail) hbl
  · cases digits with
    | nil => exact absurd rfl hd0
    | cons d ds =>
      simp only [List.all_cons, Bool.and_eq_true, reDigit, decide_eq_true_eq] at hd
      exact leadingSpace_printable d _ (by omega) (by omega)

theorem trailingSpace_label (pre body tail : GoString)
    (hpre : (pre = [] ∧ body.head?.all (fun b => !reDigit b) = true) ∨ IsNumberPrefix pre)
    (hbody : IsPlainName body) (htail : tail = [] ∨ IsMarker tail) :
    trailingSpace (pre ++ (body ++ tail)) = none := by
  obtain ⟨hb0, hbd, hb60, hbl, hbt⟩ := hbody
  rcases htail with rfl | ⟨gap2, mk, rfl, -⟩
  · rw [List.append_nil]
    refine trailingSpace_append pre body hb0 ?_ hbt
    rcases hpre with ⟨rfl, -⟩ | ⟨digits, sep, gap, rfl, -, -, -, hg0, hg⟩
    · rfl
    · obtain ⟨g, c, rfl⟩ : ∃ g c, gap = g ++ [c] :=
        ⟨gap.dropLast, gap.getLast hg0, (List.dropLast_append_getLast hg0).symm⟩
      simp only [List.all_append, List.all_cons, List.all_nil, Bool.and_true,
        Bool.and_eq_true] at hg
      have : (digits ++ sep :: (g ++ [c])).getLast? = some c := by
        rw [show digits ++ sep :: (g ++ [c]) = (digits ++ sep :: g) ++ [c] by simp]
        exact List.getLast?_concat _
      rw [this]
      simpa using reSpace_lt hg.2
  · have : pre ++ (body ++ (gap2 ++ ([60, 60] ++ mk ++ [62, 62]))) =
        (pre ++ (body ++ (gap2 ++ ([60, 60] ++ mk ++ [62])))) ++ [62] := by simp
    rw [this]
    exact trailingSpace_printable 62 _ (by decide) (by decide)

/-- Cleaning a label made of bytes of `\s`, an optional numeric prefix, a plain name and an
optional marker gives the number of the leading bytes and the plain name. -/
theorem cleanName_label (lead pre body tail : GoString) (hlead : lead.all reSpace = true)
    (hpre : (pre = [] ∧ body.head?.all (fun b => !reDigit b) = true) ∨ IsNumberPrefix pre)
    (hbody : IsPlainName body) (htail : tail = [] ∨ IsMarker tail) :
    parseJSArrays.cleanName goLib (lead ++ (pre ++ (body ++ tail))) = (lead.length, body) := by
  have hhead : (pre ++ (body ++ tail)).head?.all (fun b => !reSpace b) = true :=
    head_not_reSpace (leadingSpace_label pre body tail hpre hbody htail)
  have htake : (lead ++ (pre ++ (body ++ tail))).takeWhile reSpace = lead :=
    takeWhile_append_of_all lead _ hlead hhead
  have hindent : (if lead ≠ [] then lead.length else 0) = lead.length := by
    by_cases h : lead = []
    · simp [h]
    · simp [h]
  have hc1 : (if lead ≠ [] then goLib.TrimSpace (lead ++ (pre ++ (body ++ tail)))
      else lead ++ (pre ++ (body ++ tail))) = pre ++ (body ++ tail) := by
    by_cases h : lead = []
    · simp [h]
    · rw [if_pos h]
      have := TrimSpaceUTF8_spaces lead (pre ++ (body ++ tail)) [] hlead rfl
        (by rw [List.append_nil]; exact leadingSpace_label pre body tail hpre hbody htail)
        (trailingSpace_label pre body tail hpre hbody htail)
      rw [List.append_nil] at this
      exact this
  unfold parseJSArrays.cleanName
  dsimp only
  rw [findString_leadingSpace, htake, hindent, hc1, prefixStep_plain pre body tail hpre hbody htail,
    markerStep_plain body tail hbody htail]

/-! ## The example page, for every visiting order -/

theorem MapOrder.enum_singleton (o : MapOrder) (k : GoString) : o.enum [k] = [k] :=
  List.perm_singleton.1 (o.perm [k])

theorem parseJSArrays_of_options (lib : StdLib) (o : MapOrder) (html : GoString)
    (h : (parseJSArrays.afterOptions lib html).projects.length ≠ 0) :
    parseJSArrays lib o html = parseJSArrays lib .storage html := by
  have hs : ∀ o', parseJSArrays.afterSynth lib o' html = parseJSArrays.afterOptions lib html := by
    intro o'
    unfold parseJSArrays.afterSynth
    simp only [h, if_false]
  simp only [parseJSArrays, parseJSArrays.final, hs]

set_option maxRecDepth 100000 in
theorem sampleMarkup_projects (o o' : MapOrder) (date : GoString) :
    (ParseProjectsAndActivities goLib o o' sampleMarkup date).Projects = [sampleProject] := by
  have hpa := parseJSArrays_of_options goLib o sampleMarkup (by decide)
  unfold ParseProjectsAndActivities
  simp only
  rw [hpa]
  have hk : GoMap.keys (ParseProjectsAndActivities.projectMap
      (parseJSArrays goLib .storage sampleMarkup).1
      (parseJSArrays goLib .storage sampleMarkup).2) = [str "101"] := rfl
  rw [hk, MapOrder.enum_singleton]
  rfl

theorem cleanName_fst (label : GoString) :
    (parseJSArrays.cleanName goLib label).1 = (label.takeWhile reSpace).length := by
  unfold parseJSArrays.cleanName
  dsimp only
  rw [findString_leadingSpace]
  by_cases h : label.takeWhile reSpace = []
  · simp [h]
  · simp [h]

/-! ## C11, C12: the fields of an activity -/

/-- C11, counterexample: for the declaration `act.append('101','A <<1>> B','TRUE','u9','0')`
the activity has `IsBottom` true although the flag is `TRUE`, not `true`, and its name is
`A`, although the label `A <<1>> B` has no leading white space, no numeric prefix and no
trailing marker to remove. -/
theorem C11_counterexample :
    (ParseProjectsAndActivities goLib .storage .storage upperMarkup []).Projects =
      [upperProject] ∧
    upperProject.Activities.map (fun a => (a.Name, a.FullName, a.IsBottom)) =
      [(str "A", str "A <<1>> B", true)] := by
  constructor
  · rfl
  · rfl

/-- C11, amended: for every match of the activity pattern, the activity has the untouched
label as `FullName`, the number of leading bytes of the class `\s` of the label as
`IndentLevel`, `IsBottom` true exactly when the lower-cased flag is `true`, and the fourth
submatch as `UID`. When the label is made of leading bytes of `\s`, an optional numeric
prefix (digits, `.` or `)`, bytes of `\s`), a plain name (not empty, no line feed, no `<`,
no white space at its ends, no digit at its start unless a numeric prefix precedes it) and
an optional trailing marker (bytes of `\s`, `<<`, a text without `<`, `>` and line feed,
`>>`), then `Name` is the plain name. Every activity of the result is the activity of a
match, with its `UID` as `ID`. The markup of the example yields exactly one project `101`,
`Alpha`, with exactly one activity `Sub Task`, indent level 2, bottom, uid `u9`, for every
visiting order of the maps. -/
theorem C11_activity_fields :
    (∀ m : List GoString,
      (parseJSArrays.activityOfMatch goLib m).FullName = m.getD 2 [] ∧
      (parseJSArrays.activityOfMatch goLib m).IndentLevel =
        ((m.getD 2 []).takeWhile reSpace).length ∧
      ((parseJSArrays.activityOfMatch goLib m).IsBottom = true ↔
        ToLowerASCII (m.getD 3 []) = str "true") ∧
      (parseJSArrays.activityOfMatch goLib m).UID = m.getD 4 []) ∧
    (∀ (m : List GoString) (lead pre body tail : GoString),
      m.getD 2 [] = lead ++ (pre ++ (body ++ tail)) →
      lead.all reSpace = true →
      ((pre = [] ∧ body.head?.all (fun b => !reDigit b) = true) ∨ IsNumberPrefix pre) →
      IsPlainName body →
      (tail = [] ∨ IsMarker tail) →
      (parseJSArrays.activityOfMatch goLib m).Name = body ∧
      (parseJSArrays.activityOfMatch goLib m).IndentLevel = lead.length) ∧
    (∀ (o o' : MapOrder) (htmlContent date : GoString),
      ∀ p ∈ (ParseProjectsAndActivities goLib o o' htmlContent date).Projects,
        ∀ a ∈ p.Activities,
          ∃ m ∈ goLib.FindAllStringSubmatch activityPattern htmlContent,
            a = ParseProjectsAndActivities.actCopy (parseJSArrays.activityOfMatch goLib m)) ∧
    (∀ (o o' : MapOrder) (date : GoString),
      (ParseProjectsAndActivities goLib o o' sampleMarkup date).Projects = [sampleProject]) := by
  refine ⟨fun m => ⟨rfl, cleanName_fst _, ?_, rfl⟩, ?_, ?_, sampleMarkup_projects⟩
  rotate_left 2
  · intro o o' htmlContent date p hp a ha
    rw [Projects_activities goLib o o' htmlContent date p hp] at ha
    obtain ⟨m, hm, rfl⟩ := List.mem_map.mp ha
    exact ⟨m, (List.mem_filter.mp hm).1, rfl⟩
  · show (ToLowerASCII (m.getD 3 []) == str "true") = true ↔ _
    exact beq_iff_eq
  · intro m lead pre body tail hlabel hlead hpre hbody htail
    have h := cleanName_label lead pre body tail hlead hpre hbody htail
    rw [← hlabel] at h
    unfold parseJSArrays.activityOfMatch
    dsimp only
    rw [h]
    exact ⟨rfl, rfl⟩

/-- C11, at the match of `act.append('101','  3) Design   <<1.2>>','True','u9','0')`: the
label has two leading spaces, the numeric prefix `3) `, the plain name `Design` and the
marker `   <<1.2>>`. -/
theorem C11_activity_fields_witness :
    (parseJSArrays.activityOfMatch goLib
      [[], str "101", str "  3) Design   <<1.2>>", str "True", str "u9", str "0"]).Name =
        str "Design" ∧
    (parseJSArrays.activityOfMatch goLib
      [[], str "101", str "  3) Design   <<1.2>>", str "True", str "u9", str "0"]).IndentLevel =
        (str "  ").length :=
  C11_activity_fields.2.1
    [[], str "101", str "  3) Design   <<1.2>>", str "True", str "u9", str "0"]
    (str "  ") (str "3) ") (str "Design") (str "   <<1.2>>") rfl rfl
    (Or.inr ⟨str "3", 41, str " ", rfl, by decide, rfl, rfl, by decide, rfl⟩)
    ⟨by decide, rfl, by decide, rfl, rfl⟩
    (Or.inr ⟨str "   ", str "1.2", rfl, rfl, rfl, by decide, rfl, by decide, by decide⟩)

/-- C12, counterexample: the cleaned name of the label `1. 2. foo` is `2. foo`, and
cleaning that name again gives `foo`. -/
theorem C12_counterexample :
    parseJSArrays.cleanName goLib (str "1. 2. foo") = (0, str "2. foo") ∧
    parseJSArrays.cleanName goLib (str "2. foo") = (0, str "foo") := by
  constructor
  · rfl
  · rfl

/-- C12, amended: for every raw activity label whose cleaned name does not start with a
byte of the class `\s` or with a digit and holds no `<`, cleaning the cleaned name again
returns it unchanged, with the indent level 0. -/
theorem C12_recleaning (label : GoString)
    (hs : (parseJSArrays.cleanName goLib label).2.head?.all (fun b => !reSpace b) = true)
    (hd : (parseJSArrays.cleanName goLib label).2.head?.all (fun b => !reDigit b) = true)
    (hlt : (60 : Byte) ∉ (parseJSArrays.cleanName goLib label).2) :
    parseJSArrays.cleanName goLib (parseJSArrays.cleanName goLib label).2 =
      (0, (parseJSArrays.cleanName goLib label).2) :=
  cleanName_clean _ hs hd hlt

/-- C12, at the label `  Sub Task <<1.1>>`, whose cleaned name is `Sub Task`. -/
theorem C12_recleaning_witness :
    (parseJSArrays.cleanName goLib (str "  Sub Task <<1.1>>")).2 = str "Sub Task" ∧
    parseJSArrays.cleanName goLib (parseJSArrays.cleanName goLib (str "  Sub Task <<1.1>>")).2 =
      (0, (parseJSArrays.cleanName goLib (str "  Sub Task <<1.1>>")).2) :=
  ⟨rfl, C12_recleaning (str "  Sub Task <<1.1>>") rfl rfl (by decide)⟩

/-! ## C21, C22: failures of `SaveCookies`, and `Logout` -/

/-- C21, counterexample: when the cache directory cannot be made, `SaveCookies` on an
empty jar returns the error of `MkdirAll`, not `ErrNoCookies`: the directory is made
before the jar is read. -/
theorem C21_counterexample :
    (SaveCookies goLib plainCodec
        { mkdirAll := true, readSessionFile := false, readCookieFile := false,
          writeCookieFile := false, writeSessionFile := false } 0
        { userID := str "alice", jar := [], disk := { cookieFile := none, sessionFile := none } }).1
      = some (.os "MkdirAll") ∧
    SessionError.os "MkdirAll" ≠ SessionError.ErrNoCookies := by
  constructor
  · rfl
  · decide

/-- C21, amended: when the cache directory can be made, `SaveCookies` returns
`ErrNoCookies` exactly when the jar gives no cookie, and `ErrNoSessionCookie` exactly when
the jar gives cookies none of which has the name of a session cookie; the two errors
differ; in both cases the cookie file and the session file stay as they were. In the other
case, when the two calls of `json.MarshalIndent` and of `os.WriteFile` succeed, it returns
nil and both files hold what was marshalled. -/
theorem C21_save_failures (lib : StdLib) (J : JsonCodec) (faults : IOFaults) (now : Int)
    (sm : SessionManager J) (hmk : faults.mkdirAll = false) :
    ((SaveCookies lib J faults now sm).1 = some .ErrNoCookies ↔ sm.jar = []) ∧
    ((SaveCookies lib J faults now sm).1 = some .ErrNoSessionCookie ↔
      sm.jar ≠ [] ∧ ∀ c ∈ sm.jar, isSessionCookie lib c.Name = false) ∧
    SessionError.ErrNoCookies ≠ SessionError.ErrNoSessionCookie ∧
    ((SaveCookies lib J faults now sm).1 = some .ErrNoCookies ∨
      (SaveCookies lib J faults now sm).1 = some .ErrNoSessionCookie →
        (SaveCookies lib J faults now sm).2 = sm.disk) ∧
    (∀ bc bs, sm.jar ≠ [] → (∃ c ∈ sm.jar, isSessionCookie lib c.Name = true) →
      faults.writeCookieFile = false → faults.writeSessionFile = false →
      J.marshalCookies ((Cookies sm.jar).map toCookieData) = some bc →
      J.marshalSession
        { UserID := sm.userID, CreatedAt := now, CookieCount := sm.jar.length } = some bs →
      SaveCookies lib J faults now sm =
        (none, { cookieFile := some bc, sessionFile := some bs })) := by
  have hcases : sm.jar = [] ∨
      (sm.jar ≠ [] ∧ ∀ c ∈ sm.jar, isSessionCookie lib c.Name = false) ∨
      (sm.jar ≠ [] ∧ ∃ c ∈ sm.jar, isSessionCookie lib c.Name = true) := by
    by_cases h0 : sm.jar = []
    · exact Or.inl h0
    · by_cases h1 : ∃ c ∈ sm.jar, isSessionCookie lib c.Name = true
      · exact Or.inr (Or.inr ⟨h0, h1⟩)
      · refine Or.inr (Or.inl ⟨h0, fun c hc => ?_⟩)
        cases h : isSessionCookie lib c.Name with
        | false => rfl
        | true => exact absurd ⟨c, hc, h⟩ h1
  have hlen : (Cookies sm.jar).length = sm.jar.length := by simp [Cookies]
  have hanyeq : (Cookies sm.jar).any (fun c => isSessionCookie lib c.Name) =
      sm.jar.any (fun c => isSessionCookie lib c.Name) := by
    rw [Cookies, List.any_map]
    rfl
  have hempty : sm.jar = [] →
      SaveCookies lib J faults now sm = (some .ErrNoCookies, sm.disk) := by
    intro h0
    unfold SaveCookies
    simp [hmk, h0, Cookies]
  have hnosess : sm.jar ≠ [] → (∀ c ∈ sm.jar, isSessionCookie lib c.Name = false) →
      SaveCookies lib J faults now sm = (some .ErrNoSessionCookie, sm.disk) := by
    intro h0 h1
    have hl : ¬ (Cookies sm.jar).length = 0 := by
      rw [hlen]
      exact fun h => h0 (List.length_eq_zero.1 h)
    have hany : ((Cookies sm.jar).any (fun c => isSessionCookie lib c.Name)) = false := by
      rw [hanyeq, List.any_eq_false]
      intro c hc
      simp [h1 c hc]
    unfold SaveCookies
    simp only [hmk, Bool.false_eq_true, if_false, hl, hany, Bool.not_false, if_true]
  have hsess : sm.jar ≠ [] → (∃ c ∈ sm.jar, isSessionCookie lib c.Name = true) →
      (SaveCookies lib J faults now sm).1 ≠ some .ErrNoCookies ∧
      (SaveCookies lib J faults now sm).1 ≠ some .ErrNoSessionCookie := by
    intro h0 h1
    have hl : ¬ (Cookies sm.jar).length = 0 := by
      rw [hlen]
      exact fun h => h0 (List.length_eq_zero.1 h)
    have hany : ((Cookies sm.jar).any (fun c => isSessionCookie lib c.Name)) = true := by
      rw [hanyeq]
      exact List.any_eq_true.mpr h1
    unfold SaveCookies
    simp only [hmk, Bool.false_eq_true, if_false, hl, hany, Bool.not_true]
    cases J.marshalCookies ((Cookies sm.jar).map toCookieData) with
    | none => simp
    | some bc =>
      cases faults.writeCookieFile with
      | true => simp
      | false =>
        simp only [Bool.false_eq_true, if_false]
        cases J.marshalSession
          { UserID := sm.userID, CreatedAt := now, CookieCount := (Cookies sm.jar).length } with
        | none => simp
        | some bs =>
          cases faults.writeSessionFile <;> simp
  refine ⟨⟨fun h => ?_, fun h => by rw [hempty h]⟩,
    ⟨fun h => ?_, fun h => by rw [hnosess h.1 h.2]⟩, by decide, fun h => ?_, ?_⟩
  · rcases hcases with h0 | ⟨h0, h1⟩ | ⟨h0, h1⟩
    · exact h0
    · rw [hnosess h0 h1] at h
      simp at h
    · exact absurd h (hsess h0 h1).1
  · rcases hcases with h0 | ⟨h0, h1⟩ | ⟨h0, h1⟩
    · rw [hempty h0] at h
      simp at h
    · exact ⟨h0, h1⟩
    · exact absurd h (hsess h0 h1).2
  · rcases hcases with h0 | ⟨h0, h1⟩ | ⟨h0, h1⟩
    · rw [hempty h0]
    · rw [hnosess h0 h1]
    · rcases h with h | h
      · exact absurd h (hsess h0 h1).1
      · exact absurd h (hsess h0 h1).2
  · intro bc bs h0 h1 hwc hws hbc hbs
    have hl : ¬ (Cookies sm.jar).length = 0 := by
      rw [hlen]
      exact fun h => h0 (List.length_eq_zero.1 h)
    have hany : ((Cookies sm.jar).any (fun c => isSessionCookie lib c.Name)) = true := by
      rw [hanyeq]
      exact List.any_eq_true.mpr h1
    rw [← hlen] at hbs
    unfold SaveCookies
    simp only [hmk, hwc, hws, Bool.false_eq_true, if_false, hl, hany, Bool.not_true, hbc, hbs]

/-- C21, at `sampleManager`, whose jar holds the session cookie `JSESSIONID`: both files
are written, the cookie file with the names and the values of the two cookies. -/
theorem C21_save_failures_witness :
    SaveCookies (unicodeLib caseTable) plainCodec IOFaults.none 0 sampleManager =
      (none,
        { cookieFile := some (.inl
            [{ Name := str "JSESSIONID", Value := str "abc123", Path := [], Domain := [],
               Expires := 0, Secure := false, HttpOnly := false },
             { Name := str "lang", Value := str "zh-TW", Path := [], Domain := [],
               Expires := 0, Secure := false, HttpOnly := false }]),
          sessionFile :=
            some (.inr { UserID := str "alice", CreatedAt := 0, CookieCount := 2 }) }) :=
  (C21_save_failures (unicodeLib caseTable) plainCodec IOFaults.none 0 sampleManager
    rfl).2.2.2.2 _ _
    (by decide) ⟨_, List.mem_cons_self _ _, by decide⟩ rfl rfl rfl rfl

/-- C22, at the failing input: the two files of the user `alice` are on the disk, the
session was created 13 hours before; the client that `NewClient` builds does not consider
itself logged in, its `Logout` returns nil, and both files are still there. -/
theorem C22_stale_logout_keeps_files :
    NewClient (unicodeLib caseTable) plainCodec IOFaults.none (13 * Hour) (fun cs => cs)
      (str "alice") sampleDisk = staleClient ∧
    staleClient.loggedIn = false ∧
    (Client.Logout false [] ClearFaults.none staleClient).1 = none ∧
    ((Client.Logout false [] ClearFaults.none
      staleClient).2.sessionManager.disk.cookieFile).isSome = true ∧
    ((Client.Logout false [] ClearFaults.none
      staleClient).2.sessionManager.disk.sessionFile).isSome = true := by
  refine ⟨rfl, rfl, rfl, rfl, rfl⟩

/-- For a client that considers itself logged in and every state of the files of the
user, after `Logout` returns nil neither the session file nor the cookie file is there,
the jar is empty and the client no longer considers itself logged in; and when no call
fails `Logout` returns nil, whether the files were there or not. -/
theorem Logout_of_loggedIn (J : JsonCodec) (newRequest : Bool) (jarAfterDo : List Cookie)
    (faults : ClearFaults) (c : Client J) (hin : c.loggedIn = true) :
    ((Client.Logout newRequest jarAfterDo faults c).1 = none →
      (Client.Logout newRequest jarAfterDo faults c).2.sessionManager.disk.sessionFile = none ∧
      (Client.Logout newRequest jarAfterDo faults c).2.sessionManager.disk.cookieFile = none ∧
      (Client.Logout newRequest jarAfterDo faults c).2.sessionManager.jar = [] ∧
      (Client.Logout newRequest jarAfterDo faults c).2.loggedIn = false) ∧
    ((Client.Logout false jarAfterDo ClearFaults.none c).1 = none) := by
  constructor
  · intro h
    unfold Client.Logout ClearCookies at h ⊢
    simp only [hin, Bool.not_true, Bool.false_eq_true, if_false] at h ⊢
    cases newRequest <;> cases hj : faults.newJar <;> cases hc : faults.removeCookieFile <;>
      cases hs : faults.removeSessionFile <;> simp_all
  · unfold Client.Logout ClearCookies
    simp [hin, ClearFaults.none]

/-- The files of `freshClient`, a client that considers itself logged in, are gone after
its `Logout`. -/
theorem Logout_of_loggedIn_freshClient :
    (Client.Logout false [] ClearFaults.none freshClient).2.sessionManager.disk.sessionFile =
      none ∧
    (Client.Logout false [] ClearFaults.none freshClient).2.sessionManager.disk.cookieFile =
      none :=
  ⟨((Logout_of_loggedIn plainCodec false [] ClearFaults.none freshClient rfl).1 rfl).1,
   ((Logout_of_loggedIn plainCodec false [] ClearFaults.none freshClient rfl).1 rfl).2.1⟩

/-! ## Lemmas on the loop over the option matches -/

namespace parseJSArrays

variable (lib : StdLib)

theorem optionStep_eq (st : ParseState) (m : List GoString) :
    optionStep lib st m =
      if keptMatch lib m = true then
        if (st.seen.get? ((pairOfMatch lib m).1 ++ str "_" ++ (pairOfMatch lib m).2)).getD false
            = true then st
        else
          { st with
            seen := st.seen.set ((pairOfMatch lib m).1 ++ str "_" ++ (pairOfMatch lib m).2) true
            projectMap := st.projectMap.set (pairOfMatch lib m).1 (pairOfMatch lib m).2
            projects := st.projects ++
              [{ ID := (pairOfMatch lib m).1, Name := (pairOfMatch lib m).2, Activities := [] }] }
      else st := by
  unfold optionStep keptMatch pairOfMatch
  by_cases h3 : 3 ≤ m.length
  · simp only [h3, if_true, decide_True, Bool.true_and]
    cases hc : (Contains (lib.ToLower (lib.TrimSpace (m.getD 2 []))) (str "select project") ||
      m.getD 1 [] == str "--" || lib.TrimSpace (m.getD 2 []) == [])
    · simp
    · simp
  · simp [h3]

theorem keptPairsOf_append (ms : List (List GoString)) (m : List GoString) :
    keptPairsOf lib (ms ++ [m]) =
      if keptMatch lib m = true then keptPairsOf lib ms ++ [pairOfMatch lib m]
      else keptPairsOf lib ms := by
  unfold keptPairsOf
  by_cases h : keptMatch lib m = true
  · simp [List.filter_append, h]
  · simp [List.filter_append, h]

theorem key_inj {v₁ n₁ v₂ n₂ : GoString} (h₁ : (95 : Byte) ∉ v₁) (h₂ : (95 : Byte) ∉ v₂)
    (h : v₁ ++ str "_" ++ n₁ = v₂ ++ str "_" ++ n₂) : v₁ = v₂ ∧ n₁ = n₂ := by
  have hs : str "_" = [95] := rfl
  rw [hs] at h
  simp only [List.append_assoc, List.singleton_append] at h
  exact append_cons_inj h₁ h₂ h

theorem mem_keptPairsOf {ms : List (List GoString)} {vn : GoString × GoString} :
    vn ∈ keptPairsOf lib ms ↔ ∃ m ∈ ms, keptMatch lib m = true ∧ pairOfMatch lib m = vn := by
  simp [keptPairsOf, List.mem_map, List.mem_filter, and_assoc]

/-- The state of the loop over the option matches, in terms of the pairs kept so far:
the projects are these pairs without repetition, the keys seen are their keys, and every
project has its id in `projectMap`. -/
theorem foldl_optionStep_spec (ms : List (List GoString))
    (H : ∀ m ∈ ms, keptMatch lib m = true → (95 : Byte) ∉ (pairOfMatch lib m).1) :
    ((ms.foldl (optionStep lib)
        { projects := [], activities := [], projectMap := [], seen := [] }).projects.map
          Project.pair).Nodup ∧
    (∀ vn, vn ∈ (ms.foldl (optionStep lib)
        { projects := [], activities := [], projectMap := [], seen := [] }).projects.map
          Project.pair ↔ vn ∈ keptPairsOf lib ms) ∧
    (∀ key, ((ms.foldl (optionStep lib)
        { projects := [], activities := [], projectMap := [], seen := [] }).seen.get? key).getD
          false = true ↔ ∃ vn ∈ keptPairsOf lib ms, key = vn.1 ++ str "_" ++ vn.2) ∧
    (∀ p ∈ (ms.foldl (optionStep lib)
        { projects := [], activities := [], projectMap := [], seen := [] }).projects,
      ((ms.foldl (optionStep lib)
        { projects := [], activities := [], projectMap := [], seen := [] }).projectMap.get?
          p.ID).isSome = true) := by
  induction ms using List.reverseRecOn with
  | nil =>
    refine ⟨List.nodup_nil, fun vn => by simp [keptPairsOf], fun key => ?_, fun p hp => ?_⟩
    · simp [keptPairsOf, GoMap.get?]
    · cases hp
  | append_singleton ms m ih =>
    have H' : ∀ m' ∈ ms, keptMatch lib m' = true → (95 : Byte) ∉ (pairOfMatch lib m').1 :=
      fun m' hm' => H m' (List.mem_append_left _ hm')
    obtain ⟨ha, hb, hc, hd⟩ := ih H'
    rw [List.foldl_append, List.foldl_cons, List.foldl_nil, optionStep_eq, keptPairsOf_append]
    generalize ms.foldl (optionStep lib)
      { projects := [], activities := [], projectMap := [], seen := [] } = st at ha hb hc hd ⊢
    by_cases hk : keptMatch lib m = true
    · simp only [hk, if_true]
      have hm95 := H m (List.mem_append_right _ (List.mem_singleton.2 rfl)) hk
      by_cases hs : (st.seen.get?
          ((pairOfMatch lib m).1 ++ str "_" ++ (pairOfMatch lib m).2)).getD false = true
      · simp only [hs, if_true]
        obtain ⟨vn, hvn, hkey⟩ := (hc _).1 hs
        obtain ⟨m', hm', hk', hp'⟩ := (mem_keptPairsOf lib).1 hvn
        have h95 : (95 : Byte) ∉ vn.1 := hp' ▸ H' m' hm' hk'
        have heq : pairOfMatch lib m = vn := by
          obtain ⟨h1, h2⟩ := key_inj hm95 h95 hkey
          exact Prod.ext h1 h2
        refine ⟨ha, fun x => ?_, fun key => ?_, hd⟩
        · rw [hb x, List.mem_append, List.mem_singleton]
          constructor
          · exact Or.inl
          · rintro (h | h)
            · exact h
            · rw [h, heq]; exact hvn
        · rw [hc key]
          constructor
          · rintro ⟨x, hx, hxk⟩
            exact ⟨x, List.mem_append_left _ hx, hxk⟩
          · rintro ⟨x, hx, hxk⟩
            rcases List.mem_append.1 hx with h | h
            · exact ⟨x, h, hxk⟩
            · rw [List.mem_singleton] at h
              exact ⟨vn, hvn, by rw [hxk, h, heq]⟩
      · simp only [hs, Bool.false_eq_true, if_false]
        have hnew : pairOfMatch lib m ∉ keptPairsOf lib ms := by
          intro hmem
          exact hs ((hc _).2 ⟨_, hmem, rfl⟩)
        refine ⟨?_, fun x => ?_, fun key => ?_, fun p hp => ?_⟩
        · rw [List.map_append, List.map_singleton]
          refine List.Nodup.append ha (List.nodup_singleton _) ?_
          intro x hx hx'
          rw [List.mem_singleton] at hx'
          subst hx'
          exact hnew ((hb _).1 hx)
        · rw [List.map_append, List.map_singleton, List.mem_append, List.mem_append, hb x]
          rfl
        · rw [GoMap.get?_set]
          by_cases hkey : key = (pairOfMatch lib m).1 ++ str "_" ++ (pairOfMatch lib m).2
          · rw [if_pos hkey]
            simp only [Option.getD_some, true_iff]
            exact ⟨_, List.mem_append_right _ (List.mem_singleton.2 rfl), hkey⟩
          · rw [if_neg hkey, hc key]
            constructor
            · rintro ⟨x, hx, hxk⟩
              exact ⟨x, List.mem_append_left _ hx, hxk⟩
            · rintro ⟨x, hx, hxk⟩
              rcases List.mem_append.1 hx with h | h
              · exact ⟨x, h, hxk⟩
              · rw [List.mem_singleton] at h
                exact absurd (by rw [hxk, h]) hkey
        · show ((st.projectMap.set _ _).get? p.ID).isSome = true
          rw [GoMap.get?_set]
          by_cases hp' : p.ID = (pairOfMatch lib m).1
          · rw [if_pos hp']; rfl
          · rw [if_neg hp']
            rcases List.mem_append.1 hp with h | h
            · exact hd p h
            · rw [List.mem_singleton] at h
              exact absurd (by rw [h]) hp'
    · simp only [hk]
      exact ⟨ha, hb, hc, hd⟩

end parseJSArrays

namespace parseJSArrays

variable (lib : StdLib)

/-- The loop over the activity matches only appends projects: each one for the project id
of a match, under an id that `projectMap` did not hold, with the name `Project` and the
id. -/
theorem foldl_activityStep_projects (ms : List (List GoString)) (st : ParseState) :
    ∃ ex, (ms.foldl (activityStep lib) st).projects = st.projects ++ ex ∧
      (∀ k, (st.projectMap.get? k).isSome = true →
        ((ms.foldl (activityStep lib) st).projectMap.get? k).isSome = true) ∧
      ∀ e ∈ ex, st.projectMap.get? e.ID = none ∧ e.Name = str "Project " ++ e.ID ∧
        ∃ m ∈ ms, e.ID = m.getD 1 [] := by
  induction ms generalizing st with
  | nil => exact ⟨[], by simp, fun k h => h, fun e he => by cases he⟩
  | cons m ms ih =>
    rw [List.foldl_cons]
    obtain ⟨ex, hex, hmono, hprop⟩ := ih (activityStep lib st m)
    by_cases h6 : 6 ≤ m.length
    · by_cases hs : (st.projectMap.get? (m.getD 1 [])).isSome = true
      · have hstep : (activityStep lib st m).projects = st.projects ∧
            (activityStep lib st m).projectMap = st.projectMap := by
          unfold activityStep ensureProject
          rw [if_pos h6]
          dsimp only
          rw [if_pos hs]
          exact ⟨rfl, rfl⟩
        rw [hstep.1] at hex
        rw [hstep.2] at hmono hprop
        exact ⟨ex, hex, hmono, fun e he =>
          ⟨(hprop e he).1, (hprop e he).2.1,
            let ⟨m', hm', h'⟩ := (hprop e he).2.2
            ⟨m', List.mem_cons_of_mem _ hm', h'⟩⟩⟩
      · have hstep : (activityStep lib st m).projects = st.projects ++
              [{ ID := m.getD 1 [], Name := str "Project " ++ m.getD 1 [], Activities := [] }] ∧
            (activityStep lib st m).projectMap =
              st.projectMap.set (m.getD 1 []) (str "Project " ++ m.getD 1 []) := by
          unfold activityStep ensureProject
          rw [if_pos h6]
          dsimp only
          rw [if_neg hs]
          exact ⟨rfl, rfl⟩
        rw [hstep.1] at hex
        rw [hstep.2] at hmono hprop
        have hnone : st.projectMap.get? (m.getD 1 []) = none := by
          cases h : st.projectMap.get? (m.getD 1 []) with
          | none => rfl
          | some v => rw [h] at hs; exact absurd rfl hs
        refine ⟨{ ID := m.getD 1 [], Name := str "Project " ++ m.getD 1 [], Activities := [] } :: ex,
          by rw [hex]; simp, fun k hk => hmono k ?_, fun e he => ?_⟩
        · rw [GoMap.get?_set]
          split
          · rfl
          · exact hk
        · rcases List.mem_cons.1 he with rfl | he'
          · exact ⟨hnone, rfl, m, List.mem_cons_self _ _, rfl⟩
          · obtain ⟨h1, h2, m', hm', h'⟩ := hprop e he'
            rw [GoMap.get?_set] at h1
            refine ⟨?_, h2, m', List.mem_cons_of_mem _ hm', h'⟩
            by_cases hk : e.ID = m.getD 1 []
            · rw [if_pos hk] at h1; cases h1
            · rw [if_neg hk] at h1; exact h1
    · have hstep : activityStep lib st m = st := by
        unfold activityStep
        simp [h6]
      rw [hstep] at hex hmono hprop ⊢
      exact ⟨ex, hex, hmono, fun e he =>
        ⟨(hprop e he).1, (hprop e he).2.1,
          let ⟨m', hm', h'⟩ := (hprop e he).2.2
          ⟨m', List.mem_cons_of_mem _ hm', h'⟩⟩⟩

end parseJSArrays

namespace ParseProjectsAndActivities

theorem foldl_set_get? (projects : List Project) (m : GoMap Project) (k : GoString) :
    (projects.foldl
        (fun m p => m.set p.ID { ID := p.ID, Name := p.Name, Activities := [] }) m).get? k =
      match (projects.filter (fun p => p.ID == k)).getLast? with
      | some p => some { ID := p.ID, Name := p.Name, Activities := [] }
      | none => m.get? k := by
  induction projects using List.reverseRecOn with
  | nil => rfl
  | append_singleton ps p ih =>
    rw [List.foldl_append, List.foldl_cons, List.foldl_nil, GoMap.get?_set, List.filter_append]
    by_cases hk : k = p.ID
    · subst hk
      simp [List.filter_cons]
    · have hk' : (p.ID == k) = false := by
        simp only [beq_eq_false_iff_ne, ne_eq]
        exact fun h => hk h.symm
      rw [if_neg hk, ih]
      simp [List.filter_cons, hk']

/-- The project that `initMap` stores under an id is the last project of the slice with
that id, without activities. -/
theorem initMap_get? (projects : List Project) (k : GoString) :
    (initMap projects).get? k =
      ((projects.filter (fun p => p.ID == k)).getLast?).map
        (fun p => { ID := p.ID, Name := p.Name, Activities := [] }) := by
  unfold initMap
  rw [foldl_set_get?]
  cases (projects.filter (fun p => p.ID == k)).getLast? <;> rfl

theorem addActivity_pair (m : GoMap Project) (act : Activity) (k : GoString) :
    ((addActivity m act).get? k).map Project.pair = (m.get? k).map Project.pair := by
  unfold addActivity
  split
  · rename_i proj hproj
    rw [GoMap.get?_set]
    by_cases hk : k = act.ProjectID
    · rw [if_pos hk, hk, hproj]
      rfl
    · rw [if_neg hk]
  · rfl

theorem foldl_addActivity_pair (acts : List Activity) (m : GoMap Project) (k : GoString) :
    ((acts.foldl addActivity m).get? k).map Project.pair = (m.get? k).map Project.pair := by
  induction acts generalizing m with
  | nil => rfl
  | cons a acts ih => rw [List.foldl_cons, ih, addActivity_pair]

theorem foldl_set_nodup (projects : List Project) (m : GoMap Project) (h : m.keys.Nodup) :
    (projects.foldl
        (fun m p => m.set p.ID { ID := p.ID, Name := p.Name, Activities := [] }) m).keys.Nodup := by
  induction projects generalizing m with
  | nil => exact h
  | cons p ps ih => exact ih _ (GoMap.nodup_keys_set _ _ _ h)

theorem projectMap_nodup (projects : List Project) (acts : List Activity) :
    (projectMap projects acts).keys.Nodup := by
  unfold projectMap
  have h0 : (initMap projects).keys.Nodup := foldl_set_nodup projects [] List.nodup_nil
  generalize initMap projects = m at h0
  induction acts generalizing m with
  | nil => exact h0
  | cons a acts ih => exact ih _ (addActivity_nodup m a h0)

theorem projectMap_keyed (projects : List Project) (acts : List Activity) :
    Keyed (projectMap projects acts) :=
  (foldl_addActivity_spec acts _ (initMap_spec projects).1).1

end ParseProjectsAndActivities

theorem filterMap_map_eq {α β : Type} (f : α → Option β) (g : β → α) (l : List α)
    (h : ∀ k ∈ l, ∃ p, f k = some p ∧ g p = k) : (l.filterMap f).map g = l := by
  induction l with
  | nil => rfl
  | cons k l ih =>
    obtain ⟨p, hp, hg⟩ := h k (List.mem_cons_self _ _)
    rw [List.filterMap_cons, hp]
    simp only [List.map_cons, hg]
    rw [ih (fun k' hk' => h k' (List.mem_cons_of_mem _ hk'))]

/-- No two projects of the result have the same id. -/
theorem Projects_nodup_ID (lib : StdLib) (o o' : MapOrder) (htmlContent date : GoString) :
    ((ParseProjectsAndActivities lib o o' htmlContent date).Projects.map
      (fun p => p.ID)).Nodup := by
  unfold ParseProjectsAndActivities
  simp only
  rw [filterMap_map_eq]
  · exact (o'.perm _).nodup_iff.2 (ParseProjectsAndActivities.projectMap_nodup _ _)
  · intro k hk
    rw [(o'.perm _).mem_iff] at hk
    obtain ⟨p, hp⟩ := Option.isSome_iff_exists.1 ((GoMap.get?_isSome _ _).2 hk)
    exact ⟨p, hp, (ParseProjectsAndActivities.projectMap_keyed _ _ k p hp).1⟩

/-- The id and the name of the project of the result under an id are those of the last
project with that id in the slice that `parseJSArrays` returns. -/
theorem Projects_pair (lib : StdLib) (o o' : MapOrder) (htmlContent date : GoString)
    (p : Project) :
    p ∈ (ParseProjectsAndActivities lib o o' htmlContent date).Projects →
      (((parseJSArrays lib o htmlContent).1.filter (fun q => q.ID == p.ID)).getLast?).map
        Project.pair = some p.pair := by
  intro hp
  obtain ⟨k, hk⟩ := (mem_Projects lib o o' htmlContent date p).1 hp
  have hid := (ParseProjectsAndActivities.projectMap_keyed _ _ k p hk).1
  have h := ParseProjectsAndActivities.foldl_addActivity_pair
    (parseJSArrays lib o htmlContent).2
    (ParseProjectsAndActivities.initMap (parseJSArrays lib o htmlContent).1) k
  unfold ParseProjectsAndActivities.projectMap at hk
  rw [hk, ParseProjectsAndActivities.initMap_get?, ← hid] at h
  simp only [Option.map_some', Option.map_map] at h
  rw [h]
  congr 1

/-! ## The submatches of the option patterns -/

theorem take_all_of_le_takeWhile (p : Byte → Bool) (s : GoString) (k : Nat)
    (h : k ≤ (s.takeWhile p).length) : (s.take k).all p = true := by
  have hs : s.take k = (s.takeWhile p).take k := by
    conv_lhs => rw [← List.takeWhile_append_dropWhile p s]
    exact List.take_append_of_le_length h
  rw [hs, List.all_eq_true]
  intro b hb
  exact List.mem_takeWhile_imp (List.mem_of_mem_take hb)

/-- Each item of a pattern consumes bytes it can consume. -/
theorem matchItems_consumes {is : List Item} {s : GoString} {cs : List GoString}
    (h : matchItems is s = some cs) : List.Forall₂ Item.consumes is cs := by
  induction is generalizing s cs with
  | nil =>
    simp only [matchItems, Option.some.injEq] at h
    subst h
    exact List.Forall₂.nil
  | cons it is ih =>
    cases it with
    | byte c =>
      cases s with
      | nil => simp [matchItems] at h
      | cons x rest =>
        simp only [matchItems] at h
        split at h
        · rename_i hx
          cases hm : matchItems is rest with
          | none => simp [hm] at h
          | some cs' =>
            simp only [hm, Option.map_some', Option.some.injEq] at h
            subst h
            exact List.Forall₂.cons (by rw [hx]; rfl) (ih hm)
        · exact absurd h (by simp)
    | cls p =>
      cases s with
      | nil => simp [matchItems] at h
      | cons x rest =>
        simp only [matchItems] at h
        split at h
        · rename_i hx
          cases hm : matchItems is rest with
          | none => simp [hm] at h
          | some cs' =>
            simp only [hm, Option.map_some', Option.some.injEq] at h
            subst h
            exact List.Forall₂.cons ⟨x, rfl, hx⟩ (ih hm)
        · exact absurd h (by simp)
    | star p =>
      rw [matchItems] at h
      obtain ⟨k, hk, hk'⟩ := List.exists_of_findSome?_eq_some h
      cases hm : matchItems is (s.drop k) with
      | none => simp [hm] at hk'
      | some cs' =>
        simp only [hm, Option.map_some', Option.some.injEq] at hk'
        subst hk'
        exact List.Forall₂.cons
          (take_all_of_le_takeWhile p s k (mem_downFrom.1 hk).2) (ih hm)
    | plus p =>
      rw [matchItems] at h
      obtain ⟨k, hk, hk'⟩ := List.exists_of_findSome?_eq_some h
      cases hm : matchItems is (s.drop k) with
      | none => simp [hm] at hk'
      | some cs' =>
        simp only [hm, Option.map_some', Option.some.injEq] at hk'
        subst hk'
        refine List.Forall₂.cons
          ⟨take_all_of_le_takeWhile p s k (mem_downFrom.1 hk).2, ?_⟩ (ih hm)
        have h1 := (mem_downFrom.1 hk).1
        have h2 := (mem_downFrom.1 hk).2
        have h3 : (s.takeWhile p).length ≤ s.length := (List.takeWhile_prefix p).length_le
        intro he
        have := congrArg List.length he
        simp only [List.length_take, List.length_nil] at this
        omega

theorem mem_findAllFrom {p : Pattern} {s : GoString} {fuel start : Nat} {m : List GoString}
    (h : m ∈ findAllFrom p s fuel start) :
    ∃ i cs, matchItems p.items (s.drop i) = some cs ∧ m = submatches p cs := by
  induction fuel generalizing start with
  | zero => simp [findAllFrom] at h
  | succ fuel ih =>
    rw [findAllFrom] at h
    split at h
    · cases h
    · rename_i i cs hf
      rcases List.mem_cons.1 h with rfl | h'
      · unfold findMatch at hf
        obtain ⟨j, -, hj⟩ := List.exists_of_findSome?_eq_some hf
        cases hm : matchItems p.items (s.drop j) with
        | none => simp [hm] at hj
        | some cs' =>
          simp only [hm, Option.map_some', Option.some.injEq, Prod.mk.injEq] at hj
          exact ⟨j, cs, by rw [hm, hj.2], rfl⟩
      · exact ih h'

theorem groupText_single (cs : List GoString) (n : Nat) (h : n < cs.length) :
    groupText cs (n, n + 1) = cs.get ⟨n, h⟩ := by
  unfold groupText
  simp only [Nat.add_sub_cancel_left]
  rw [List.drop_eq_getElem_cons h]
  show cs[n] ++ [] = _
  rw [List.append_nil]
  rfl

/-- The matches of the two option patterns have two submatches, and the first is made
of digits. -/
theorem optionMatches_goLib {htmlContent : GoString} {m : List GoString}
    (h : m ∈ optionMatches goLib htmlContent) :
    m.length = 3 ∧ (m.getD 1 []).all reDigit = true := by
  unfold optionMatches at h
  rcases List.mem_append.1 h with h | h
  · have h' : m ∈ findAllFrom rxProject1 htmlContent (htmlContent.length + 1) 0 := h
    obtain ⟨i, cs, hcs, rfl⟩ := mem_findAllFrom h'
    have hf := matchItems_consumes hcs
    have hi : 15 < cs.length := hf.length_eq ▸ (by decide)
    have h15 := hf.get (i := 15) (by decide) hi
    refine ⟨rfl, ?_⟩
    show (groupText cs (15, 15 + 1)).all reDigit = true
    rw [groupText_single cs 15 hi]
    exact h15.1
  · have h' : m ∈ findAllFrom rxProject2 htmlContent (htmlContent.length + 1) 0 := h
    obtain ⟨i, cs, hcs, rfl⟩ := mem_findAllFrom h'
    have hf := matchItems_consumes hcs
    have hi : 16 < cs.length := hf.length_eq ▸ (by decide)
    have h16 := hf.get (i := 16) (by decide) hi
    refine ⟨rfl, ?_⟩
    show (groupText cs (16, 16 + 1)).all reDigit = true
    rw [groupText_single cs 16 hi]
    exact h16.1

/-! ## The projects of the dropdown in the result -/

theorem not_mem_of_all_reDigit {v : GoString} (h : v.all reDigit = true) :
    (95 : Byte) ∉ v ∧ v ≠ str "--" := by
  rw [List.all_eq_true] at h
  constructor
  · intro h95
    exact absurd (h 95 h95) (by decide)
  · intro hv
    have : (45 : Byte) ∈ v := by rw [hv]; decide
    exact absurd (h 45 this) (by decide)

theorem keptMatch_goLib {htmlContent : GoString} {m : List GoString}
    (h : m ∈ optionMatches goLib htmlContent) :
    keptMatch goLib m =
      ((pairOfMatch goLib m).2 != [] &&
        !Contains (goLib.ToLower (pairOfMatch goLib m).2) (str "select project")) := by
  obtain ⟨hlen, hd⟩ := optionMatches_goLib h
  have hv : (m.getD 1 [] == str "--") = false := by
    simp only [beq_eq_false_iff_ne, ne_eq]
    exact (not_mem_of_all_reDigit hd).2
  unfold keptMatch pairOfMatch
  rw [hlen, hv]
  simp only [bne]
  cases Contains (goLib.ToLower (goLib.TrimSpace (m.getD 2 []))) (str "select project") <;>
    cases goLib.TrimSpace (m.getD 2 []) == [] <;> rfl

theorem keptPairsOf_goLib (htmlContent : GoString) :
    keptPairsOf goLib (optionMatches goLib htmlContent) = keptPairs goLib htmlContent := by
  unfold keptPairsOf keptPairs
  rw [List.filter_map]
  congr 1
  apply List.filter_congr
  intro m hm
  rw [keptMatch_goLib hm]
  rfl

/-- The projects after the loop over the option matches: one for each kept pair of value
and trimmed label, and each with its id in `projectMap`. -/
theorem afterOptions_goLib (htmlContent : GoString) :
    ((parseJSArrays.afterOptions goLib htmlContent).projects.map Project.pair).Nodup ∧
    (∀ vn, vn ∈ (parseJSArrays.afterOptions goLib htmlContent).projects.map Project.pair ↔
      vn ∈ keptPairs goLib htmlContent) ∧
    (∀ p ∈ (parseJSArrays.afterOptions goLib htmlContent).projects,
      ((parseJSArrays.afterOptions goLib htmlContent).projectMap.get? p.ID).isSome = true) := by
  have h := parseJSArrays.foldl_optionStep_spec goLib (optionMatches goLib htmlContent)
    (fun m hm _ => (not_mem_of_all_reDigit (optionMatches_goLib hm).2).1)
  rw [keptPairsOf_goLib] at h
  exact ⟨h.1, h.2.1, h.2.2.2⟩

/-- When the dropdown gives a project, the slice that `parseJSArrays` returns is made of
the projects of the dropdown and then of projects named `Project` and an id, for ids of
activity matches that the dropdown does not hold. -/
theorem parseJSArrays_projects_goLib (o : MapOrder) (htmlContent : GoString)
    (hne : (parseJSArrays.afterOptions goLib htmlContent).projects ≠ []) :
    ∃ ex, (parseJSArrays goLib o htmlContent).1 =
        (parseJSArrays.afterOptions goLib htmlContent).projects ++ ex ∧
      ∀ e ∈ ex,
        (∀ p ∈ (parseJSArrays.afterOptions goLib htmlContent).projects, p.ID ≠ e.ID) ∧
        e.Name = str "Project " ++ e.ID ∧
        ∃ m ∈ goLib.FindAllStringSubmatch activityPattern htmlContent, e.ID = m.getD 1 [] := by
  have hs : parseJSArrays.afterSynth goLib o htmlContent =
      parseJSArrays.afterOptions goLib htmlContent := by
    unfold parseJSArrays.afterSynth
    have : ¬ (parseJSArrays.afterOptions goLib htmlContent).projects.length = 0 :=
      fun h => hne (List.length_eq_zero.1 h)
    simp only [this, if_false]
  obtain ⟨ex, hex, -, hprop⟩ := parseJSArrays.foldl_activityStep_projects goLib
    (goLib.FindAllStringSubmatch activityPattern htmlContent)
    (parseJSArrays.afterOptions goLib htmlContent)
  refine ⟨ex, ?_, fun e he => ⟨fun p hp hpe => ?_, (hprop e he).2.1, (hprop e he).2.2⟩⟩
  · show (parseJSArrays.final goLib o htmlContent).projects = _
    unfold parseJSArrays.final
    rw [hs, hex]
  · have h1 := (afterOptions_goLib htmlContent).2.2 p hp
    rw [hpe, (hprop e he).1] at h1
    exact absurd h1 (by simp)

/-! ## C23: the default week start date -/

/-- C23: when `--date` is omitted, the date that `runWeek` and `runSave` use is the
formatted `monday`, and for every current time `monday` is a Monday, is not after the
current date and is at most 6 days before it: on a Sunday it is 6 days earlier, on a
Monday it is the same day. The time of the day is kept. -/
theorem C23_default_week_start (Format : Time → GoString) (now : Time) :
    runWeek.date Format [] now = Format (runWeek.monday now) ∧
    runSave.date Format [] now = Format (runSave.monday now) ∧
    runSave.monday now = runWeek.monday now ∧
    (runWeek.monday now).Weekday = 1 ∧
    (runWeek.monday now).day ≤ now.day ∧
    now.day - (runWeek.monday now).day ≤ 6 ∧
    (now.Weekday = 0 → (runWeek.monday now).day = now.day - 6) ∧
    (now.Weekday = 1 → (runWeek.monday now).day = now.day) ∧
    now.day - (runWeek.monday now).day = (now.Weekday + 6) % 7 ∧
    (runWeek.monday now).clock = now.clock := by
  have hw0 : 0 ≤ now.Weekday := Int.emod_nonneg _ (by decide)
  have hw7 : now.Weekday < 7 := Int.emod_lt_of_pos _ (by decide)
  have hday : (runWeek.monday now).day =
      now.day + -((if now.Weekday = 0 then 7 else now.Weekday) - 1) := rfl
  refine ⟨rfl, rfl, rfl, ?_, ?_, ?_, ?_, ?_, ?_, rfl⟩
  · unfold Time.Weekday at hw0 hw7 ⊢
    rw [hday]
    unfold Time.Weekday
    split <;> omega
  · rw [hday]
    split <;> omega
  · rw [hday]
    split <;> omega
  · intro h
    rw [hday, if_pos h]
    omega
  · intro h
    rw [hday, h]
    simp
  · rw [hday]
    split <;> omega

/-- C23, on Sunday 2024-01-07, day 19729 since 1970-01-01: the default is Monday
2024-01-01, day 19723. -/
theorem C23_default_week_start_witness :
    (runWeek.monday { day := 19729, clock := 0 }).day = 19729 - 6 :=
  (C23_default_week_start (fun _ => []) { day := 19729, clock := 0 }).2.2.2.2.2.2.1
    (by decide)

/-! ## C24: the projects of the dropdown -/

/-- C24, counterexample: the markup
`<option value="101">Alpha</option><option value="101">Beta</option>` holds the two
distinct pairs `101`, `Alpha` and `101`, `Beta`, both kept (each option matches both
patterns), and the result has the one project `101`, `Beta`: there is no project `101`,
`Alpha`. -/
theorem C24_counterexample :
    keptPairs goLib twoLabelMarkup =
      [(str "101", str "Alpha"), (str "101", str "Beta"),
       (str "101", str "Alpha"), (str "101", str "Beta")] ∧
    (ParseProjectsAndActivities goLib .storage .storage twoLabelMarkup []).Projects =
      [{ ID := str "101", Name := str "Beta", Activities := [] }] := by
  constructor
  · rfl
  · rfl

/-- C24, amended: the projects that `parseJSArrays` takes from the dropdown are
deduplicated by value and trimmed label: after its loop over the option matches there is
exactly one project for each distinct pair of an option element whose trimmed label is
not empty and does not contain `select project` in any case, and none for another option.
The result of `ParseProjectsAndActivities` is deduplicated by value: no two of its projects
have the same id; for each such pair it has a project with the value as id, whose name is
the trimmed label of the last of these projects of `parseJSArrays` with that value, so it
is the label of the pair when the value occurs with no other label. When the dropdown
gives a project, every project of the result is one of these pairs, or is named `Project`
and its id for an activity match with that project id. -/
theorem C24_dropdown_projects (o o' : MapOrder) (htmlContent date : GoString) :
    (((parseJSArrays.afterOptions goLib htmlContent).projects.map Project.pair).Nodup ∧
      ∀ vn, vn ∈ (parseJSArrays.afterOptions goLib htmlContent).projects.map Project.pair ↔
        vn ∈ keptPairs goLib htmlContent) ∧
    ((ParseProjectsAndActivities goLib o o' htmlContent date).Projects.map
      (fun p => p.ID)).Nodup ∧
    (∀ v n, (v, n) ∈ keptPairs goLib htmlContent →
      ∃ p ∈ (ParseProjectsAndActivities goLib o o' htmlContent date).Projects,
        p.ID = v ∧
        (((parseJSArrays.afterOptions goLib htmlContent).projects.filter
          (fun q => q.ID == v)).getLast?).map (fun q => q.Name) = some p.Name ∧
        (v, p.Name) ∈ keptPairs goLib htmlContent ∧
        ((∀ n', (v, n') ∈ keptPairs goLib htmlContent → n' = n) → p.Name = n)) ∧
    (keptPairs goLib htmlContent ≠ [] →
      ∀ p ∈ (ParseProjectsAndActivities goLib o o' htmlContent date).Projects,
        p.pair ∈ keptPairs goLib htmlContent ∨
        (p.Name = str "Project " ++ p.ID ∧
          ∃ m ∈ goLib.FindAllStringSubmatch activityPattern htmlContent,
            p.ID = m.getD 1 [])) := by
  obtain ⟨hnd, hmem, hmap⟩ := afterOptions_goLib htmlContent
  refine ⟨⟨hnd, hmem⟩, Projects_nodup_ID goLib o o' htmlContent date, ?_, ?_⟩
  · intro v n hvn
    obtain ⟨q, hq, hqp⟩ := List.mem_map.1 ((hmem (v, n)).2 hvn)
    have hqv : q.ID = v := congrArg Prod.fst hqp
    have hne : (parseJSArrays.afterOptions goLib htmlContent).projects ≠ [] :=
      List.ne_nil_of_mem hq
    obtain ⟨ex, hex, hexp⟩ := parseJSArrays_projects_goLib o htmlContent hne
    have hexf : ex.filter (fun e => e.ID == v) = [] := by
      rw [List.filter_eq_nil_iff]
      intro e he hev
      exact (hexp e he).1 q hq (hqv.trans (beq_iff_eq.1 hev).symm)
    have hfne : (parseJSArrays.afterOptions goLib htmlContent).projects.filter
        (fun q => q.ID == v) ≠ [] :=
      List.ne_nil_of_mem (List.mem_filter.2 ⟨hq, beq_iff_eq.2 hqv⟩)
    obtain ⟨q', hq'⟩ : ∃ q', ((parseJSArrays.afterOptions goLib htmlContent).projects.filter
        (fun q => q.ID == v)).getLast? = some q' :=
      ⟨_, List.getLast?_eq_getLast _ hfne⟩
    have hq'mem := List.mem_of_getLast?_eq_some hq'
    obtain ⟨hq'P, hq'v⟩ := List.mem_filter.1 hq'mem
    have hq'v : q'.ID = v := beq_iff_eq.1 hq'v
    have hinit : (ParseProjectsAndActivities.initMap (parseJSArrays goLib o htmlContent).1).get? v
        = some { ID := q'.ID, Name := q'.Name, Activities := [] } := by
      rw [ParseProjectsAndActivities.initMap_get?, hex, List.filter_append, hexf,
        List.append_nil, hq']
      rfl
    have hpair := ParseProjectsAndActivities.foldl_addActivity_pair
      (parseJSArrays goLib o htmlContent).2
      (ParseProjectsAndActivities.initMap (parseJSArrays goLib o htmlContent).1) v
    rw [hinit] at hpair
    cases hM : (List.foldl ParseProjectsAndActivities.addActivity
        (ParseProjectsAndActivities.initMap (parseJSArrays goLib o htmlContent).1)
        (parseJSArrays goLib o htmlContent).2).get? v with
    | none => rw [hM] at hpair; exact absurd hpair (by simp)
    | some p =>
      rw [hM] at hpair
      simp only [Option.map_some', Option.some.injEq, Project.pair, Prod.mk.injEq] at hpair
      have hpmem : p ∈ (ParseProjectsAndActivities goLib o o' htmlContent date).Projects :=
        (mem_Projects goLib o o' htmlContent date p).2 ⟨v, hM⟩
      have hK : (v, p.Name) ∈ keptPairs goLib htmlContent := by
        rw [hpair.2, ← hq'v]
        exact (hmem _).1 (List.mem_map.2 ⟨q', hq'P, rfl⟩)
      refine ⟨p, hpmem, hpair.1.trans hq'v, ?_, hK, fun hfun => hfun _ hK⟩
      rw [hq', Option.map_some', hpair.2]
  · intro hK p hp
    have hne : (parseJSArrays.afterOptions goLib htmlContent).projects ≠ [] := by
      obtain ⟨vn, hvn⟩ := List.exists_mem_of_ne_nil _ hK
      obtain ⟨q, hq, -⟩ := List.mem_map.1 ((hmem vn).2 hvn)
      exact List.ne_nil_of_mem hq
    obtain ⟨ex, hex, hexp⟩ := parseJSArrays_projects_goLib o htmlContent hne
    have hlast := Projects_pair goLib o o' htmlContent date p hp
    cases hl : ((parseJSArrays goLib o htmlContent).1.filter
        (fun q => q.ID == p.ID)).getLast? with
    | none => rw [hl] at hlast; exact absurd hlast (by simp)
    | some q =>
      rw [hl] at hlast
      simp only [Option.map_some', Option.some.injEq] at hlast
      have hq := (List.mem_filter.1 (List.mem_of_getLast?_eq_some hl)).1
      rw [hex] at hq
      have hID : q.ID = p.ID := congrArg Prod.fst hlast
      have hName : q.Name = p.Name := congrArg Prod.snd hlast
      rcases List.mem_append.1 hq with hq | hq
      · left
        rw [← hlast]
        exact (hmem _).1 (List.mem_map.2 ⟨q, hq, rfl⟩)
      · right
        obtain ⟨-, h2, m, hm, h3⟩ := hexp q hq
        exact ⟨by rw [← hName, ← hID]; exact h2, m, hm, by rw [← hID]; exact h3⟩

/-- C24, at the markup of `sampleMarkup`, whose dropdown holds the pair `101`, `Alpha`. -/
theorem C24_dropdown_projects_witness :
    ∃ p ∈ (ParseProjectsAndActivities goLib .storage .storage sampleMarkup []).Projects,
      p.ID = str "101" ∧
      (((parseJSArrays.afterOptions goLib sampleMarkup).projects.filter
        (fun q => q.ID == str "101")).getLast?).map (fun q => q.Name) = some p.Name ∧
      (str "101", p.Name) ∈ keptPairs goLib sampleMarkup ∧
      ((∀ n', (str "101", n') ∈ keptPairs goLib sampleMarkup → n' = str "Alpha") →
        p.Name = str "Alpha") :=
  (C24_dropdown_projects .storage .storage sampleMarkup []).2.2.1 (str "101") (str "Alpha")
    (List.mem_cons_self _ _)

end Tcrs
